import Mathlib

/-!
Verification of the midi-processing repository: a shallow embedding of the
representation model (`midi_processor/midi_processor.py`), the swing and
de-swing transforms (`swing.py`, `swing_r.py`) and the tempo integrator
(`tempo_integrator.py`), together with theorems settling the behavioural
claims about them.

Python floats are modelled as exact rationals; integer tick counts are
modelled as integers.  Functions that can raise at runtime (assertion
failures, attribute errors, index errors, unbounded loops) return `Option`,
with `none` standing for abnormal termination.
-/

/-! ## Tolerant float comparisons (midi_processor.py lines 9-30)

`math.isclose(a, b, abs_tol=EPSILON)` keeps Python's default relative
tolerance of 1e-9 in addition to the absolute tolerance EPSILON = 1e-7. -/

unseal Rat.add Rat.sub Rat.mul Rat.inv

def relTol : ℚ := 1 / 10 ^ 9

def absTol : ℚ := 1 / 10 ^ 7

def isclose (a b : ℚ) : Prop := |a - b| ≤ max (relTol * max |a| |b|) absTol

instance (a b : ℚ) : Decidable (isclose a b) :=
  inferInstanceAs (Decidable (|a - b| ≤ max (relTol * max |a| |b|) absTol))

def float_lt (a b : ℚ) : Prop := a < b ∧ ¬ isclose a b

def float_gt (a b : ℚ) : Prop := b < a ∧ ¬ isclose a b

def float_lte (a b : ℚ) : Prop := a ≤ b ∨ isclose a b

def float_gte (a b : ℚ) : Prop := b ≤ a ∨ isclose a b

instance (a b : ℚ) : Decidable (float_lt a b) :=
  inferInstanceAs (Decidable (a < b ∧ ¬ isclose a b))

instance (a b : ℚ) : Decidable (float_gt a b) :=
  inferInstanceAs (Decidable (b < a ∧ ¬ isclose a b))

instance (a b : ℚ) : Decidable (float_lte a b) :=
  inferInstanceAs (Decidable (a ≤ b ∨ isclose a b))

instance (a b : ℚ) : Decidable (float_gte a b) :=
  inferInstanceAs (Decidable (b ≤ a ∨ isclose a b))

/-- `sandwiched a b c` means `a <= b < c` under the tolerant comparisons. -/
def sandwiched (a b c : ℚ) : Prop := float_lte a b ∧ float_lt b c

instance (a b c : ℚ) : Decidable (sandwiched a b c) :=
  inferInstanceAs (Decidable (float_lte a b ∧ float_lt b c))

theorem isclose_symm {a b : ℚ} (h : isclose a b) : isclose b a := by
  unfold isclose at h ⊢
  rwa [abs_sub_comm, max_comm (|b|)]

theorem not_float_lt_iff {a b : ℚ} : ¬ float_lt a b ↔ float_lte b a := by
  unfold float_lt float_lte
  constructor
  · intro h
    rcases le_or_lt b a with h1 | h1
    · exact Or.inl h1
    · right
      by_contra hcl
      exact h ⟨h1, fun hc => hcl (isclose_symm hc)⟩
  · rintro (h1 | h1) ⟨hlt, hncl⟩
    · exact absurd h1 (not_le.mpr hlt)
    · exact hncl (isclose_symm h1)

/-- `float_lte a` is upward closed: if `x` compares tolerantly at or above `a`
then so does any `y ≥ x`. -/
theorem float_lte_mono_right {a x y : ℚ} (h : float_lte a x) (hxy : x ≤ y) :
    float_lte a y := by
  rcases le_or_lt a y with hay | hay
  · exact Or.inl hay
  rcases h with hax | hax
  · exact absurd (hax.trans hxy) (not_le.mpr hay)
  right
  unfold isclose at hax ⊢
  have hxa : x < a := lt_of_le_of_lt hxy hay
  have habsax : |a - x| = a - x := abs_of_pos (by linarith)
  have habsay : |a - y| = a - y := abs_of_pos (by linarith)
  rw [habsax] at hax
  rw [habsay]
  rcases le_max_iff.mp hax with hrel | habs
  · -- relative-tolerance case
    rcases le_or_lt |x| |a| with hxa2 | hxa2
    · have h1 : max |a| |x| = |a| := max_eq_left hxa2
      rw [h1] at hrel
      have h2 : relTol * |a| ≤ relTol * max |a| |y| := by
        have : |a| ≤ max |a| |y| := le_max_left _ _
        have hr : (0:ℚ) ≤ relTol := by norm_num [relTol]
        exact mul_le_mul_of_nonneg_left this hr
      exact le_max_iff.mpr (Or.inl (by linarith))
    · -- |a| < |x| forces x < 0 and then a ≤ y * (1 - relTol)
      have hxneg : x < 0 := by
        by_contra hx0
        push_neg at hx0
        have hax' : (0:ℚ) ≤ a := le_trans hx0 (le_of_lt hxa)
        rw [abs_of_nonneg hx0, abs_of_nonneg hax'] at hxa2
        linarith
      have hxabs : |x| = -x := abs_of_neg hxneg
      have h1 : max |a| |x| = |x| := max_eq_right (le_of_lt hxa2)
      rw [h1, hxabs] at hrel
      -- a - x ≤ relTol * (-x)  →  a ≤ x * (1 - relTol)
      have haneg : a < 0 := by nlinarith [show (0:ℚ) < 1 - relTol by norm_num [relTol]]
      have hyneg : y < 0 := lt_trans hay haneg
      have hyabs : |y| = -y := abs_of_neg hyneg
      have h2 : |y| ≤ max |a| |y| := le_max_right _ _
      have hkey : a - y ≤ relTol * (-y) := by nlinarith
      have : relTol * (-y) ≤ relTol * max |a| |y| := by
        rw [← hyabs]
        exact mul_le_mul_of_nonneg_left h2 (by norm_num [relTol])
      exact le_max_iff.mpr (Or.inl (by linarith))
  · exact le_max_iff.mpr (Or.inr (by linarith))

/-- If `a ≤ b` then tolerant `b ≤ x` implies tolerant `a ≤ x`. -/
theorem float_lte_mono_left {a b x : ℚ} (hab : a ≤ b) (h : float_lte b x) :
    float_lte a x := by
  rcases le_or_lt a x with hax | hax
  · exact Or.inl hax
  rcases h with hbx | hbx
  · exact Or.inl (le_trans hab hbx)
  right
  unfold isclose at hbx ⊢
  have hxa : x < a := hax
  have hxb : x < b := lt_of_lt_of_le hxa hab
  have habsbx : |b - x| = b - x := abs_of_pos (by linarith)
  have habsax : |a - x| = a - x := abs_of_pos (by linarith)
  rw [habsbx] at hbx
  rw [habsax]
  rcases le_max_iff.mp hbx with hrel | habs
  · rcases le_or_lt a 0 with ha0 | ha0
    · -- a ≤ 0: x < a ≤ 0 so |x| ≥ |a|, and max |a| |x| = |x| bounds it
      have hxneg : x < 0 := lt_of_lt_of_le hxa ha0
      have h1 : |a| ≤ |x| := by
        rw [abs_of_nonpos ha0, abs_of_neg hxneg]
        linarith
      have h2 : max |b| |x| ≥ |x| := le_max_right _ _
      have h3 : a - x ≤ b - x := by linarith
      have h4 : relTol * max |b| |x| ≤ relTol * max |b| |x| := le_refl _
      -- a - x ≤ relTol * max |b| |x|; need bound by relTol * max |a| |x|
      -- max |a| |x| = |x| here; compare with max |b| |x| ≥ |x|:
      -- But relTol * max|b||x| could exceed relTol * |x| when |b| > |x|.
      -- In that case b > |x| ≥ -x, i.e. b > -x, and b - x ≤ relTol * b.
      rcases le_or_lt |b| |x| with hbx2 | hbx2
      · have h5 : max |b| |x| = |x| := max_eq_right hbx2
        rw [h5] at hrel
        have h6 : |x| ≤ max |a| |x| := le_max_right _ _
        have : relTol * |x| ≤ relTol * max |a| |x| :=
          mul_le_mul_of_nonneg_left h6 (by norm_num [relTol])
        exact le_max_iff.mpr (Or.inl (by linarith))
      · have h5 : max |b| |x| = |b| := max_eq_left (le_of_lt hbx2)
        rw [h5] at hrel
        -- b - x ≤ relTol * |b|, with |b| > |x| ≥ -x > 0 so b > 0, |b| = b
        have hxneg' : (0:ℚ) < -x := by linarith
        have hbpos : 0 < b := by
          rcases le_or_lt b 0 with hb0 | hb0
          · rw [abs_of_nonpos hb0, abs_of_neg hxneg] at hbx2
            linarith
          · exact hb0
        rw [abs_of_pos hbpos] at hrel
        -- b - x ≤ relTol * b  →  b (1 - relTol) ≤ x < 0, impossible since b > 0
        have : b * (1 - relTol) ≤ x := by nlinarith
        have : (0:ℚ) < b * (1 - relTol) := by
          have : (0:ℚ) < 1 - relTol := by norm_num [relTol]
          positivity
        linarith
    · -- 0 < a ≤ b: |b| = b ≥ a = |a|... max |a| |x| vs max |b| |x|
      have hb0 : 0 < b := lt_of_lt_of_le ha0 hab
      rcases le_or_lt |b| |x| with hbx2 | hbx2
      · have h5 : max |b| |x| = |x| := max_eq_right hbx2
        rw [h5] at hrel
        have h6 : |x| ≤ max |a| |x| := le_max_right _ _
        have : relTol * |x| ≤ relTol * max |a| |x| :=
          mul_le_mul_of_nonneg_left h6 (by norm_num [relTol])
        exact le_max_iff.mpr (Or.inl (by linarith))
      · have h5 : max |b| |x| = |b| := max_eq_left (le_of_lt hbx2)
        rw [h5, abs_of_pos hb0] at hrel
        -- b - x ≤ relTol * b → for a ≤ b: a - x ≤ relTol*b... need relTol*max(|a|,|x|)
        -- From b - x ≤ relTol * b: b(1-relTol) ≤ x, but x < a ≤ b gives
        -- b(1-relTol) ≤ x < a, so b - a < relTol * b, a > b(1-relTol) > 0.
        -- a - x ≤ b - x ≤ relTol*b; and relTol*b vs relTol*|a| = relTol*a:
        -- not direct.  Use: a - x ≤ (a - x); x ≥ b(1-relTol) ≥ a(1-relTol);
        -- so a - x ≤ a - a(1-relTol) = relTol * a = relTol * |a| ≤ relTol*max.
        have h6 : b * (1 - relTol) ≤ x := by nlinarith
        have h7 : a * (1 - relTol) ≤ x := by nlinarith [show (0:ℚ) < 1 - relTol by norm_num [relTol]]
        have h8 : a - x ≤ relTol * a := by nlinarith
        have h9 : |a| = a := abs_of_pos ha0
        have h10 : |a| ≤ max |a| |x| := le_max_left _ _
        have h11 : relTol * |a| ≤ relTol * max |a| |x| :=
          mul_le_mul_of_nonneg_left h10 (by norm_num [relTol])
        have h12 : a - x ≤ relTol * |a| := by rw [h9]; linarith
        exact le_max_iff.mpr (Or.inl (le_trans h12 h11))
  · exact le_max_iff.mpr (Or.inr (by linarith))

/-! ## Swing transform (swing.py, swing_r.py) -/

/-- `to_swing` from swing.py: the swing variant of a beat count. -/
def to_swing (beat_count mult : ℚ) : ℚ :=
  let bc := beat_count * mult
  let beat_decimal := Int.fract bc
  let beat_whole_num : ℤ := ⌊bc⌋
  let new_beat_decimal :=
    if beat_decimal ≤ 500000001 / 1000000000 then beat_decimal * (4 / 3)
    else (1 / 3) * (2 * beat_decimal + 1)
  (beat_whole_num + new_beat_decimal) / mult

/-- `from_swing` from swing_r.py: the non-swing variant of a beat count. -/
def from_swing (beat_count mult : ℚ) : ℚ :=
  let bc := beat_count * mult
  let beat_decimal := Int.fract bc
  let beat_whole_num : ℤ := ⌊bc⌋
  let new_beat_decimal :=
    if beat_decimal ≤ 667 / 1000 then beat_decimal * (3 / 4)
    else (3 * beat_decimal - 1) / 2
  (beat_whole_num + new_beat_decimal) / mult

/-- The round trip is exact provided the fractional part of `b * m` avoids the
band `(0.500000001, 0.5005]`, on which `to_swing`'s output decimal falls at or
below `from_swing`'s branch threshold `0.667` although it was produced by
`to_swing`'s upper branch. -/
theorem from_swing_to_swing_exact (b m : ℚ) (hm : 0 < m)
    (hband : Int.fract (b * m) ≤ 500000001 / 1000000000 ∨
      5005 / 10000 < Int.fract (b * m)) :
    from_swing (to_swing b m) m = b := by
  unfold to_swing from_swing
  have hm0 : m ≠ 0 := ne_of_gt hm
  set bc := b * m with hbc
  set d := Int.fract bc with hd
  have hd0 : 0 ≤ d := Int.fract_nonneg bc
  have hd1 : d < 1 := Int.fract_lt_one bc
  set w : ℤ := ⌊bc⌋ with hw
  by_cases hcase : d ≤ 500000001 / 1000000000
  · simp only [hcase, if_true]
    have hnd0 : (0:ℚ) ≤ d * (4 / 3) := by positivity
    have hnd1 : d * (4 / 3) < 1 := by nlinarith
    have hdiv : (↑w + d * (4 / 3)) / m * m = ↑w + d * (4 / 3) := div_mul_cancel₀ _ hm0
    rw [hdiv]
    have hfr : Int.fract (↑w + d * (4 / 3)) = d * (4 / 3) := by
      rw [Int.fract_int_add]
      exact Int.fract_eq_self.mpr ⟨hnd0, hnd1⟩
    have hfl : ⌊(↑w + d * (4 / 3) : ℚ)⌋ = w := by
      rw [Int.floor_int_add]
      have : ⌊(d * (4/3) : ℚ)⌋ = 0 := Int.floor_eq_zero_iff.mpr ⟨hnd0, hnd1⟩
      omega
    rw [hfr, hfl]
    have hcase2 : d * (4 / 3) ≤ 667 / 1000 := by linarith
    simp only [hcase2, if_true]
    have : ↑w + d * (4 / 3) * (3 / 4) = bc := by
      have hself : (↑w : ℚ) + d = bc := by
        rw [hd, hw]; exact Int.floor_add_fract bc
      nlinarith [hself]
    rw [this, hbc]
    field_simp
  · simp only [hcase, if_false]
    push_neg at hcase
    have hdband : 5005 / 10000 < d := by
      rcases hband with h1 | h1
      · linarith
      · exact h1
    have hnd0 : (0:ℚ) ≤ (1 / 3) * (2 * d + 1) := by positivity
    have hnd1 : (1 / 3) * (2 * d + 1) < 1 := by nlinarith
    have hdiv : (↑w + (1 / 3) * (2 * d + 1)) / m * m = ↑w + (1 / 3) * (2 * d + 1) :=
      div_mul_cancel₀ _ hm0
    rw [hdiv]
    have hfr : Int.fract (↑w + (1 / 3) * (2 * d + 1)) = (1 / 3) * (2 * d + 1) := by
      rw [Int.fract_int_add]
      exact Int.fract_eq_self.mpr ⟨hnd0, hnd1⟩
    have hfl : ⌊(↑w + (1 / 3) * (2 * d + 1) : ℚ)⌋ = w := by
      rw [Int.floor_int_add]
      have : ⌊((1 / 3) * (2 * d + 1) : ℚ)⌋ = 0 := Int.floor_eq_zero_iff.mpr ⟨hnd0, hnd1⟩
      omega
    rw [hfr, hfl]
    have hcase2 : ¬ ((1 / 3) * (2 * d + 1) ≤ 667 / 1000) := by
      push_neg
      nlinarith
    simp only [hcase2, if_false]
    have : ↑w + (3 * ((1 / 3) * (2 * d + 1)) - 1) / 2 = bc := by
      have hself : (↑w : ℚ) + d = bc := by
        rw [hd, hw]; exact Int.floor_add_fract bc
      nlinarith [hself]
    rw [this, hbc]
    field_simp

/-- C6 counterexample: at `b = 0.5004`, `m = 1`, the round trip returns
`0.5002`, an error of `1/5000`, far beyond the claimed tolerance 1e-7. -/
theorem C6_counterexample :
    (0 : ℚ) < 1 ∧ ¬ |from_swing (to_swing (1251/2500) 1) 1 - 1251/2500| ≤ 1 / 10 ^ 7 := by
  constructor
  · norm_num
  · norm_num [to_swing, from_swing, Int.fract, Int.floor_eq_iff, abs]

/-- C6 (amended): for every beat `b` and multiplier `m > 0` such that the
fractional part of `b * m` is not in the band `(0.500000001, 0.5005]`,
`from_swing (to_swing b m) m` equals `b` exactly, hence within ε = 1e-7.
Inside that band `to_swing` uses its upper branch but produces a decimal at or
below `from_swing`'s `0.667` threshold, so de-swing applies the wrong inverse
branch. -/
theorem C6_from_swing_inverts_to_swing (b m : ℚ) (hm : 0 < m)
    (hband : Int.fract (b * m) ≤ 500000001 / 1000000000 ∨
      5005 / 10000 < Int.fract (b * m)) :
    |from_swing (to_swing b m) m - b| ≤ 1 / 10 ^ 7 := by
  rw [from_swing_to_swing_exact b m hm hband]
  simp

theorem C6_from_swing_inverts_to_swing_witness :
    ((0 : ℚ) < 2 ∧ (Int.fract ((3:ℚ)/4 * 2) ≤ 500000001 / 1000000000 ∨
      5005 / 10000 < Int.fract ((3:ℚ)/4 * 2))) ∧
    |from_swing (to_swing (3/4) 2) 2 - 3/4| ≤ 1 / 10 ^ 7 :=
  ⟨⟨by norm_num, by norm_num [Int.fract]⟩,
    C6_from_swing_inverts_to_swing (3/4) 2 (by norm_num) (by norm_num [Int.fract])⟩

theorem swing_decimal_nonneg (d : ℚ) (h0 : 0 ≤ d) :
    0 ≤ (if d ≤ 500000001 / 1000000000 then d * (4 / 3) else (1 / 3) * (2 * d + 1)) := by
  by_cases hc : d ≤ 500000001 / 1000000000 <;> simp only [hc, if_true, if_false] <;> nlinarith

theorem swing_decimal_lt_one (d : ℚ) (h0 : 0 ≤ d) (h1 : d < 1) :
    (if d ≤ 500000001 / 1000000000 then d * (4 / 3) else (1 / 3) * (2 * d + 1)) < 1 := by
  by_cases hc : d ≤ 500000001 / 1000000000 <;> simp only [hc, if_true, if_false] <;> nlinarith

/-- The per-unit-beat swing curve is strictly monotone on `[0, 1)` away from
the branch overlap: when `d1` is in the lower branch and `d2` in the upper one
we additionally need `4 d1 < 2 d2 + 1`. -/
theorem swing_decimal_strict_mono {d1 d2 : ℚ} (h0 : 0 ≤ d1) (h12 : d1 < d2) (h1 : d2 < 1)
    (hgood : d1 ≤ 500000001 / 1000000000 → 500000001 / 1000000000 < d2 →
      4 * d1 < 2 * d2 + 1) :
    (if d1 ≤ 500000001 / 1000000000 then d1 * (4 / 3) else (1 / 3) * (2 * d1 + 1)) <
    (if d2 ≤ 500000001 / 1000000000 then d2 * (4 / 3) else (1 / 3) * (2 * d2 + 1)) := by
  by_cases hc1 : d1 ≤ 500000001 / 1000000000
  · by_cases hc2 : d2 ≤ 500000001 / 1000000000
    · simp only [hc1, hc2, if_true]
      nlinarith
    · simp only [hc1, hc2, if_true, if_false]
      push_neg at hc2
      have := hgood hc1 hc2
      nlinarith
  · have hc2 : ¬ d2 ≤ 500000001 / 1000000000 := by
      push_neg at hc1 ⊢
      linarith
    simp only [hc1, hc2, if_false]
    nlinarith

/-- C7 counterexample: `b1 = 0.5000000008 < b2 = 0.5000000012` but
`to_swing b2 1 < to_swing b1 1`: the two branch formulas overlap in a band of
width 2e-9 above one half, where the map is not monotone. -/
theorem C7_counterexample :
    (5000000008 : ℚ)/10000000000 < 5000000012/10000000000 ∧
    ¬ to_swing (5000000008/10000000000) 1 < to_swing (5000000012/10000000000) 1 := by
  constructor
  · norm_num
  · norm_num [to_swing, Int.fract, Int.floor_eq_iff]

/-- C7 (amended): for every multiplier `m > 0` and beats `b1 < b2`,
`to_swing b1 m < to_swing b2 m` holds provided that, whenever `b1*m` and
`b2*m` share the same whole beat with `fract (b1*m)` at or below the branch
threshold `0.500000001` and `fract (b2*m)` above it, also
`4*fract(b1*m) < 2*fract(b2*m) + 1` (this excludes only pairs with both
fractional parts inside `(1/2, 1/2 + 2e-9]`, where the branch ranges
overlap). -/
theorem C7_to_swing_strict_mono (b1 b2 m : ℚ) (hm : 0 < m) (h : b1 < b2)
    (hgood : ⌊b1 * m⌋ = ⌊b2 * m⌋ → Int.fract (b1 * m) ≤ 500000001 / 1000000000 →
      500000001 / 1000000000 < Int.fract (b2 * m) →
      4 * Int.fract (b1 * m) < 2 * Int.fract (b2 * m) + 1) :
    to_swing b1 m < to_swing b2 m := by
  unfold to_swing
  have hbc : b1 * m < b2 * m := by nlinarith
  set x := b1 * m with hx
  set y := b2 * m with hy
  have key :
      (↑⌊x⌋ + (if Int.fract x ≤ 500000001 / 1000000000 then Int.fract x * (4 / 3)
        else (1 / 3) * (2 * Int.fract x + 1))) <
      (↑⌊y⌋ + (if Int.fract y ≤ 500000001 / 1000000000 then Int.fract y * (4 / 3)
        else (1 / 3) * (2 * Int.fract y + 1))) := by
    rcases lt_or_le ⌊x⌋ ⌊y⌋ with hf | hf
    · have h1 : (if Int.fract x ≤ 500000001 / 1000000000 then Int.fract x * (4 / 3)
          else (1 / 3) * (2 * Int.fract x + 1)) < 1 :=
        swing_decimal_lt_one _ (Int.fract_nonneg x) (Int.fract_lt_one x)
      have h2 : 0 ≤ (if Int.fract y ≤ 500000001 / 1000000000 then Int.fract y * (4 / 3)
          else (1 / 3) * (2 * Int.fract y + 1)) :=
        swing_decimal_nonneg _ (Int.fract_nonneg y)
      have h3 : (⌊x⌋ : ℚ) + 1 ≤ (⌊y⌋ : ℚ) := by exact_mod_cast Int.add_one_le_iff.mpr hf
      linarith
    · have hfe : ⌊y⌋ ≤ ⌊x⌋ := hf
      have hfx : ⌊x⌋ ≤ ⌊y⌋ := Int.floor_le_floor (le_of_lt hbc)
      have heq : ⌊x⌋ = ⌊y⌋ := le_antisymm hfx hfe
      have hfr : Int.fract x < Int.fract y := by
        unfold Int.fract
        rw [heq]
        exact sub_lt_sub_right hbc _
      have := swing_decimal_strict_mono (Int.fract_nonneg x) hfr (Int.fract_lt_one y)
        (hgood heq)
      rw [heq]
      linarith
  exact div_lt_div_of_pos_right key hm

theorem C7_to_swing_strict_mono_witness :
    ((0 : ℚ) < 1 ∧ (0 : ℚ) < 1/4) ∧ to_swing 0 1 < to_swing (1/4) 1 :=
  ⟨⟨by norm_num, by norm_num⟩,
    C7_to_swing_strict_mono 0 (1/4) 1 (by norm_num) (by norm_num)
      (by intro _ _ h3; norm_num [Int.fract] at h3)⟩

/-! ## Representation model (midi_processor/midi_processor.py) -/

/-- `Note` dataclass.  Python ints are modelled as `ℤ`, floats as `ℚ`. -/
structure Note where
  channel : ℤ
  note : ℤ
  velocity : ℤ
  beat : ℚ
  duration : ℚ
deriving DecidableEq

structure TimeSignature where
  numerator : ℤ
  denominator : ℤ
  beat : ℚ
deriving DecidableEq

/-- How many unit beats (assuming 4/4) are in a bar. -/
def TimeSignature.get_absolute_bar_length (ts : TimeSignature) : ℚ :=
  ts.numerator * (4 / ts.denominator)

/-- Multiplier applied to the tempo. -/
def TimeSignature.get_absolute_tempo_squish_factor (ts : TimeSignature) : ℚ :=
  ts.denominator / 4

structure Track where
  notes : List Note
  track_name : String
deriving DecidableEq

structure TempoChange where
  beat : ℚ
  new_bpm : ℚ
deriving DecidableEq

structure MidiEvent where
  note : Note
  event_time : ℚ
  is_on : Bool
deriving DecidableEq

structure Bar where
  tracks : List (ℕ × Track)
  time_signature : TimeSignature
  tempo_changes : List TempoChange
  starting_tempo : ℚ
deriving DecidableEq

def generate_4_4_time_sig : TimeSignature := ⟨4, 4, 0⟩

/-- Python's stable ascending sort by a rational key, as used by
`sorted(..., key=...)` / `list.sort(key=...)`: an element is inserted after
all previously-placed elements whose key is less than or equal to its own. -/
def insertByQ {α : Type} (f : α → ℚ) (x : α) : List α → List α
  | [] => [x]
  | y :: l => if f y ≤ f x then y :: insertByQ f x l else x :: y :: l

def sortByQ {α : Type} (f : α → ℚ) (l : List α) : List α :=
  l.foldl (fun acc x => insertByQ f x acc) []

/-- `Track.slice_with_time_signature`: keep the notes starting in `[b, e)`
(tolerant comparisons), re-base them at `b` and rescale by the signature's
squish factor. -/
def Track.slice_with_time_signature (t : Track) (b e : ℚ) (ts : TimeSignature) : Track :=
  { t with
    notes :=
      (t.notes.filter (fun n => decide (sandwiched b n.beat e))).map
        (fun n =>
          { n with beat := max 0 (n.beat - b) * ts.get_absolute_tempo_squish_factor }) }

/-- `Track.scale`: multiply every note's beat by `factor`. -/
def Track.scale (t : Track) (factor : ℚ) : Track :=
  { t with notes := t.notes.map (fun n => { n with beat := n.beat * factor }) }

/-- `Track.offset`: shift every note's beat by `beats`. -/
def Track.offset (t : Track) (beats : ℚ) : Track :=
  { t with notes := t.notes.map (fun n => { n with beat := n.beat + beats }) }

structure BarMidiRepresentation where
  bars : List Bar
  channel_instrument_map : List (ℤ × ℤ)
  bpm_changes : List TempoChange
  time_signature_changes : List TimeSignature
deriving DecidableEq

structure MidiRepresentation where
  tracks : List (ℕ × Track)
  channel_instrument_map : List (ℤ × ℤ)
  bpm_changes : List TempoChange
  time_signature_changes : List TimeSignature
deriving DecidableEq

/-- `get_song_length`: length of the song in beats, rounded up. -/
def MidiRepresentation.get_song_length (mr : MidiRepresentation) : ℤ :=
  mr.tracks.foldl
    (fun acc p => p.2.notes.foldl (fun h n => max h ⌈n.beat + n.duration⌉) acc) 0

/-! ## clamp_sorted (midi_processor.py lines 350-372) -/

/-- One pass of `clamp_sorted`'s scanning loop.  The state mirrors the Python
local variables `p_set`, `q_set`, `p`, `q`; `i` is the enumeration index and
`len` the length of the full list.  The loop body is expanded case by case on
the two flags: when `p_set` is false and `float_lte a v` holds, Python sets
`p = i` and re-initialises `q = len` (even when `q_set` was already true),
then the `q` test may overwrite `q = i`, and the loop breaks as soon as both
flags are set. -/
def clampLoop (a b : ℚ) (len : ℕ) : List ℚ → ℕ → Bool → Bool → ℕ → ℕ → ℕ × ℕ
  | [], _, _, _, p, q => (p, q)
  | v :: rest, i, false, false, p, q =>
    if float_lte a v then
      (if float_lte b v then (i, i) else clampLoop a b len rest (i + 1) true false i len)
    else
      (if float_lte b v then clampLoop a b len rest (i + 1) false true p i
       else clampLoop a b len rest (i + 1) false false p q)
  | v :: rest, i, true, false, p, q =>
    if float_lte b v then (p, i) else clampLoop a b len rest (i + 1) true false p q
  | v :: rest, i, false, true, p, q =>
    if float_lte a v then (i, len) else clampLoop a b len rest (i + 1) false true p q
  | _ :: _, _, true, true, p, q => (p, q)

/-- Python's `sorted(li) == li` check: `li` is already nondecreasing. -/
def isSortedQ : List ℚ → Bool
  | [] => true
  | [_] => true
  | a :: b :: l => decide (a ≤ b) && isSortedQ (b :: l)

theorem isSortedQ_iff_chain (li : List ℚ) :
    isSortedQ li = true ↔ List.Chain' (· ≤ ·) li := by
  match li with
  | [] => simp [isSortedQ]
  | [x] => simp [isSortedQ]
  | a :: b :: l =>
    rw [List.chain'_cons, ← isSortedQ_iff_chain (b :: l)]
    simp [isSortedQ]

/-- `clamp_sorted`.  The two Python `assert`s (that `a <= b` and that `li` is
already sorted) are modelled by returning `none` when they fail. -/
def clamp_sorted (li : List ℚ) (a b : ℚ) : Option (ℕ × ℕ) :=
  if a ≤ b ∧ isSortedQ li = true then
    some (clampLoop a b li.length li 0 false false 0 0)
  else none

theorem clampLoop_none_found (a b : ℚ) (len : ℕ) (l : List ℚ) (i p q : ℕ)
    (hP : ∀ v ∈ l, ¬ float_lte a v) (hQ : ∀ v ∈ l, ¬ float_lte b v) :
    clampLoop a b len l i false false p q = (p, q) := by
  induction l generalizing i with
  | nil => rfl
  | cons v rest ih =>
    have h1 : ¬ float_lte a v := hP v (List.mem_cons_self v rest)
    have h2 : ¬ float_lte b v := hQ v (List.mem_cons_self v rest)
    rw [clampLoop, if_neg h1, if_neg h2]
    exact ih (i + 1) (fun v hv => hP v (List.mem_cons_of_mem _ hv))
      (fun v hv => hQ v (List.mem_cons_of_mem _ hv))

theorem clampLoop_q_not_found (a b : ℚ) (len : ℕ) (l : List ℚ) (i p q0 : ℕ)
    (hQ : ∀ v ∈ l, ¬ float_lte b v) :
    clampLoop a b len l i true false p q0 = (p, q0) := by
  induction l generalizing i with
  | nil => rfl
  | cons v rest ih =>
    have h2 : ¬ float_lte b v := hQ v (List.mem_cons_self v rest)
    rw [clampLoop, if_neg h2]
    exact ih (i + 1) (fun v hv => hQ v (List.mem_cons_of_mem _ hv))

theorem clampLoop_q_found (a b : ℚ) (len : ℕ) (l1 : List ℚ) (v : ℚ) (l2 : List ℚ)
    (i p q0 : ℕ) (hQ1 : ∀ w ∈ l1, ¬ float_lte b w) (hQv : float_lte b v) :
    clampLoop a b len (l1 ++ v :: l2) i true false p q0 = (p, i + l1.length) := by
  induction l1 generalizing i with
  | nil =>
    rw [List.nil_append, clampLoop, if_pos hQv]
    simp
  | cons w rest ih =>
    have h2 : ¬ float_lte b w := hQ1 w (List.mem_cons_self w rest)
    rw [List.cons_append, clampLoop, if_neg h2,
      ih (i + 1) (fun u hu => hQ1 u (List.mem_cons_of_mem _ hu))]
    simp only [List.length_cons]
    have he1 : i + 1 + rest.length = i + (rest.length + 1) := by omega
    rw [he1]

theorem clampLoop_p_found (a b : ℚ) (len : ℕ) (l1 : List ℚ) (v : ℚ) (l2 : List ℚ)
    (i : ℕ) (hab : a ≤ b) (hP1 : ∀ w ∈ l1, ¬ float_lte a w) (hPv : float_lte a v) :
    clampLoop a b len (l1 ++ v :: l2) i false false 0 0 =
      (if float_lte b v then ((i + l1.length, i + l1.length) : ℕ × ℕ)
       else clampLoop a b len l2 (i + l1.length + 1) true false (i + l1.length) len) := by
  induction l1 generalizing i with
  | nil =>
    rw [List.nil_append, clampLoop, if_pos hPv]
    simp
  | cons w rest ih =>
    have h1 : ¬ float_lte a w := hP1 w (List.mem_cons_self w rest)
    have h2 : ¬ float_lte b w := fun h => h1 (float_lte_mono_left hab h)
    rw [List.cons_append, clampLoop, if_neg h1, if_neg h2,
      ih (i + 1) (fun u hu => hP1 u (List.mem_cons_of_mem _ hu))]
    simp only [List.length_cons]
    have he1 : i + 1 + rest.length = i + (rest.length + 1) := by omega
    rw [he1]

theorem exists_first_decompP {α : Type} (P : α → Prop) [DecidablePred P] :
    ∀ l : List α,
      (∀ v ∈ l, ¬ P v) ∨ ∃ l1 v l2, l = l1 ++ v :: l2 ∧ (∀ w ∈ l1, ¬ P w) ∧ P v
  | [] => Or.inl (by simp)
  | x :: l => by
    by_cases hx : P x
    · exact Or.inr ⟨[], x, l, by simp, by simp, hx⟩
    · rcases exists_first_decompP P l with h | ⟨l1, v, l2, hdec, h1, h2⟩
      · refine Or.inl ?_
        intro v hv
        rcases List.mem_cons.mp hv with rfl | hv2
        · exact hx
        · exact h v hv2
      · refine Or.inr ⟨x :: l1, v, l2, by rw [hdec, List.cons_append], ?_, h2⟩
        intro w hw
        rcases List.mem_cons.mp hw with rfl | hw2
        · exact hx
        · exact h1 w hw2

theorem sorted_get_mono (li : List ℚ) (hs : List.Chain' (· ≤ ·) li)
    (j k : ℕ) (hj : j < li.length) (hk : k < li.length) (hjk : j ≤ k) :
    li[j] ≤ li[k] := by
  rcases Nat.eq_or_lt_of_le hjk with rfl | hlt
  · exact le_refl _
  · have hpw : li.Pairwise (· ≤ ·) := List.chain'_iff_pairwise.mp hs
    have := List.pairwise_iff_get.mp hpw ⟨j, hj⟩ ⟨k, hk⟩ hlt
    simpa using this

/-- C8 counterexample: on `li = [0]`, `a = 5`, `b = 6` the function returns
`(0, 0)`, but the claim demands `li[i] ≥ a` for every `i ≥ p` and
`li[i] ≥ b` for every `i ≥ q`, which fails at `i = 0`. -/
theorem C8_counterexample :
    clamp_sorted [(0:ℚ)] 5 6 = some (0, 0) ∧ ¬ ((5:ℚ) ≤ 0) ∧ ¬ ((6:ℚ) ≤ 0) :=
  ⟨by decide, by norm_num, by norm_num⟩

theorem get_congr {α : Type} {l l2 : List α} (h : l = l2) (i : ℕ)
    (hi : i < l.length) (hi2 : i < l2.length) : l.get ⟨i, hi⟩ = l2.get ⟨i, hi2⟩ := by
  subst h
  rfl

theorem get_append_left_mem {α : Type} (l1 : List α) (v : α) (l2 : List α) (j : ℕ)
    (hj : j < l1.length) (h : j < (l1 ++ v :: l2).length) :
    (l1 ++ v :: l2).get ⟨j, h⟩ ∈ l1 := by
  induction l1 generalizing j with
  | nil => exact absurd hj (Nat.not_lt_zero j)
  | cons x l ih =>
    match j with
    | 0 => exact List.mem_cons_self x l
    | j + 1 =>
      exact List.mem_cons_of_mem x (ih j (by simpa using hj) (by simpa using h))

theorem get_append_pivot {α : Type} (l1 : List α) (v : α) (l2 : List α)
    (h : l1.length < (l1 ++ v :: l2).length) :
    (l1 ++ v :: l2).get ⟨l1.length, h⟩ = v := by
  induction l1 with
  | nil => rfl
  | cons x l ih => exact ih (by simpa using h)

theorem get_append_right_mem {α : Type} (l1 : List α) (v : α) (l2 : List α) (j : ℕ)
    (hj : l1.length < j) (h : j < (l1 ++ v :: l2).length) :
    (l1 ++ v :: l2).get ⟨j, h⟩ ∈ l2 := by
  induction l1 generalizing j with
  | nil =>
    match j with
    | j + 1 =>
      have h2 : j < l2.length := by
        simp only [List.nil_append, List.length_cons] at h
        omega
      exact List.get_mem l2 j h2
  | cons x l ih =>
    match j with
    | j + 1 => exact ih j (by simpa using hj) (by simpa using h)

/-- C8 (amended): on a sorted list with `a ≤ b`, `clamp_sorted` returns
`(p, q)` such that every element strictly left of `p` is strictly below `a`
(it fails even the tolerant comparison), every element strictly left of `q`
is strictly below `b`, and an index `j` lies in `[p, q)` exactly when its
element is tolerantly at-or-above `a` and not tolerantly at-or-above `b`.
When no element reaches `a`, the function returns `(0, 0)` (and not indices
partitioning by `≥ a`, which is what the original claim would force). -/
theorem C8_clamp_sorted_spec (li : List ℚ) (a b : ℚ) (p q : ℕ)
    (hres : clamp_sorted li a b = some (p, q)) :
    (∀ (j : ℕ) (hj : j < li.length), j < p → ¬ float_lte a (li.get ⟨j, hj⟩)) ∧
    (∀ (j : ℕ) (hj : j < li.length), j < q → ¬ float_lte b (li.get ⟨j, hj⟩)) ∧
    (∀ (j : ℕ) (hj : j < li.length),
      (p ≤ j ∧ j < q) ↔
        (float_lte a (li.get ⟨j, hj⟩) ∧ ¬ float_lte b (li.get ⟨j, hj⟩))) := by
  have hcond : a ≤ b ∧ isSortedQ li = true := by
    by_contra hc
    rw [clamp_sorted, if_neg hc] at hres
    exact Option.noConfusion hres
  obtain ⟨hab, hsortb⟩ := hcond
  have hsort : List.Chain' (· ≤ ·) li := (isSortedQ_iff_chain li).mp hsortb
  rw [clamp_sorted, if_pos ⟨hab, hsortb⟩] at hres
  have hval : clampLoop a b li.length li 0 false false 0 0 = (p, q) :=
    Option.some.inj hres
  have hmono : ∀ (j k : ℕ) (hj : j < li.length) (hk : k < li.length), j ≤ k →
      li.get ⟨j, hj⟩ ≤ li.get ⟨k, hk⟩ := by
    intro j k hj hk hjk
    have := sorted_get_mono li hsort j k hj hk hjk
    simpa using this
  rcases exists_first_decompP (fun v => float_lte a v) li with hnoP |
    ⟨l1, v, l2, hdec, hl1, hPv⟩
  · -- no element tolerantly reaches a: result (0, 0)
    have hnoQ : ∀ v ∈ li, ¬ float_lte b v :=
      fun v hv h => hnoP v hv (float_lte_mono_left hab h)
    rw [clampLoop_none_found a b li.length li 0 0 0 hnoP hnoQ] at hval
    have hp : p = 0 := ((Prod.mk.injEq _ _ _ _).mp hval).1.symm
    have hq : q = 0 := ((Prod.mk.injEq _ _ _ _).mp hval).2.symm
    subst hp
    subst hq
    refine ⟨?_, ?_, ?_⟩
    · intro j hj hjp
      exact absurd hjp (Nat.not_lt_zero j)
    · intro j hj hjq
      exact absurd hjq (Nat.not_lt_zero j)
    · intro j hj
      constructor
      · rintro ⟨-, h2⟩
        exact absurd h2 (Nat.not_lt_zero j)
      · rintro ⟨hP, -⟩
        exact absurd hP (hnoP _ (List.get_mem li j hj))
  · -- first element tolerantly reaching a sits at index p₀ = l1.length
    subst hdec
    have hp0lt : l1.length < (l1 ++ v :: l2).length := by
      simp only [List.length_append, List.length_cons]
      omega
    have hgetv : (l1 ++ v :: l2).get ⟨l1.length, hp0lt⟩ = v := get_append_pivot l1 v l2 hp0lt
    have hleft : ∀ (j : ℕ) (hj : j < (l1 ++ v :: l2).length), j < l1.length →
        ¬ float_lte a ((l1 ++ v :: l2).get ⟨j, hj⟩) := by
      intro j hj hjlt
      exact hl1 _ (get_append_left_mem l1 v l2 j hjlt hj)
    have hGeP : ∀ (j : ℕ) (hj : j < (l1 ++ v :: l2).length), l1.length ≤ j →
        float_lte a ((l1 ++ v :: l2).get ⟨j, hj⟩) := by
      intro j hj hge
      have h5 := hmono l1.length j hp0lt hj hge
      rw [hgetv] at h5
      exact float_lte_mono_right hPv h5
    rw [clampLoop_p_found a b (l1 ++ v :: l2).length l1 v l2 0 hab hl1 hPv] at hval
    simp only [Nat.zero_add] at hval
    by_cases hQv : float_lte b v
    · -- the same element already reaches b: immediate break, result (p₀, p₀)
      rw [if_pos hQv] at hval
      have hp : p = l1.length := ((Prod.mk.injEq _ _ _ _).mp hval).1.symm
      have hq : q = l1.length := ((Prod.mk.injEq _ _ _ _).mp hval).2.symm
      subst hp
      subst hq
      have hGeQ : ∀ (j : ℕ) (hj : j < (l1 ++ v :: l2).length), l1.length ≤ j →
          float_lte b ((l1 ++ v :: l2).get ⟨j, hj⟩) := by
        intro j hj hge
        have h5 := hmono l1.length j hp0lt hj hge
        rw [hgetv] at h5
        exact float_lte_mono_right hQv h5
      refine ⟨fun j hj hjp => hleft j hj hjp, ?_, ?_⟩
      · intro j hj hjq
        exact fun h => hleft j hj hjq (float_lte_mono_left hab h)
      · intro j hj
        constructor
        · rintro ⟨h1, h2⟩
          omega
        · rintro ⟨hP, hQ⟩
          rcases lt_or_le j l1.length with hc | hc
          · exact absurd hP (hleft j hj hc)
          · exact absurd (hGeQ j hj hc) hQ
    · rw [if_neg hQv] at hval
      rcases exists_first_decompP (fun w => float_lte b w) l2 with hnoQ2 |
        ⟨l3, w, l4, hdec2, hl3, hQw⟩
      · -- no element of l2 reaches b: result (p₀, len)
        rw [clampLoop_q_not_found a b (l1 ++ v :: l2).length l2 (l1.length + 1)
          l1.length (l1 ++ v :: l2).length hnoQ2] at hval
        have hp : p = l1.length := ((Prod.mk.injEq _ _ _ _).mp hval).1.symm
        have hq : q = (l1 ++ v :: l2).length := ((Prod.mk.injEq _ _ _ _).mp hval).2.symm
        subst hp
        subst hq
        have hnoQ : ∀ (j : ℕ) (hj : j < (l1 ++ v :: l2).length),
            ¬ float_lte b ((l1 ++ v :: l2).get ⟨j, hj⟩) := by
          intro j hj
          rcases lt_trichotomy j l1.length with hc | hc | hc
          · exact fun h => hleft j hj hc (float_lte_mono_left hab h)
          · subst hc
            rw [hgetv]
            exact hQv
          · exact hnoQ2 _ (get_append_right_mem l1 v l2 j hc hj)
        refine ⟨fun j hj hjp => hleft j hj hjp, fun j hj _ => hnoQ j hj, ?_⟩
        intro j hj
        constructor
        · rintro ⟨h1, -⟩
          exact ⟨hGeP j hj h1, hnoQ j hj⟩
        · rintro ⟨hP, -⟩
          refine ⟨?_, hj⟩
          by_contra hc
          exact hleft j hj (Nat.lt_of_not_le hc) hP
      · -- first element of l2 reaching b sits at overall index q₀
        subst hdec2
        rw [clampLoop_q_found a b (l1 ++ v :: (l3 ++ w :: l4)).length l3 w l4
          (l1.length + 1) l1.length (l1 ++ v :: (l3 ++ w :: l4)).length hl3 hQw] at hval
        have hp : p = l1.length := ((Prod.mk.injEq _ _ _ _).mp hval).1.symm
        have hq : q = l1.length + 1 + l3.length := ((Prod.mk.injEq _ _ _ _).mp hval).2.symm
        subst hp
        subst hq
        have hL : l1 ++ v :: (l3 ++ w :: l4) = (l1 ++ v :: l3) ++ w :: l4 := by
          rw [List.append_assoc, List.cons_append]
        have hq0len : (l1 ++ v :: l3).length = l1.length + 1 + l3.length := by
          simp only [List.length_append, List.length_cons]
          omega
        have hq0lt : l1.length + 1 + l3.length < (l1 ++ v :: (l3 ++ w :: l4)).length := by
          simp only [List.length_append, List.length_cons]
          omega
        have hgetw : (l1 ++ v :: (l3 ++ w :: l4)).get ⟨l1.length + 1 + l3.length, hq0lt⟩ = w := by
          have hlt2 : l1.length + 1 + l3.length < ((l1 ++ v :: l3) ++ w :: l4).length := by
            rw [← hL]
            exact hq0lt
          rw [get_congr hL (l1.length + 1 + l3.length) hq0lt hlt2]
          have hlt3 : (l1 ++ v :: l3).length < ((l1 ++ v :: l3) ++ w :: l4).length := by
            simp only [List.length_append, List.length_cons]
            omega
          have hidx : (⟨l1.length + 1 + l3.length, hlt2⟩ :
              Fin ((l1 ++ v :: l3) ++ w :: l4).length) = ⟨(l1 ++ v :: l3).length, hlt3⟩ :=
            Fin.ext hq0len.symm
          rw [hidx]
          exact get_append_pivot (l1 ++ v :: l3) w l4 hlt3
        have hmid : ∀ (j : ℕ) (hj : j < (l1 ++ v :: (l3 ++ w :: l4)).length),
            j < l1.length + 1 + l3.length →
            ¬ float_lte b ((l1 ++ v :: (l3 ++ w :: l4)).get ⟨j, hj⟩) := by
          intro j hj hjq
          have hjL : j < ((l1 ++ v :: l3) ++ w :: l4).length := by rw [← hL]; exact hj
          have hmem : ((l1 ++ v :: l3) ++ w :: l4).get ⟨j, hjL⟩ ∈ l1 ++ v :: l3 :=
            get_append_left_mem (l1 ++ v :: l3) w l4 j (by omega) hjL
          have hsame : (l1 ++ v :: (l3 ++ w :: l4)).get ⟨j, hj⟩ =
              ((l1 ++ v :: l3) ++ w :: l4).get ⟨j, hjL⟩ := get_congr hL j hj hjL
          rw [hsame]
          rcases List.mem_append.mp hmem with hm | hm
          · exact fun h => hl1 _ hm (float_lte_mono_left hab h)
          · rcases List.mem_cons.mp hm with heq | hm2
            · rw [heq]
              exact hQv
            · exact hl3 _ hm2
        have hGeQ : ∀ (j : ℕ) (hj : j < (l1 ++ v :: (l3 ++ w :: l4)).length),
            l1.length + 1 + l3.length ≤ j →
            float_lte b ((l1 ++ v :: (l3 ++ w :: l4)).get ⟨j, hj⟩) := by
          intro j hj hge
          have h5 := hmono (l1.length + 1 + l3.length) j hq0lt hj hge
          rw [hgetw] at h5
          exact float_lte_mono_right hQw h5
        refine ⟨fun j hj hjp => hleft j hj hjp, hmid, ?_⟩
        intro j hj
        constructor
        · rintro ⟨h1, h2⟩
          exact ⟨hGeP j hj h1, hmid j hj h2⟩
        · rintro ⟨hP, hQ⟩
          constructor
          · by_contra hc
            exact hleft j hj (Nat.lt_of_not_le hc) hP
          · by_contra hc
            exact hQ (hGeQ j hj (Nat.le_of_not_lt hc))

theorem C8_clamp_sorted_spec_witness :
    clamp_sorted [(1:ℚ), 2, 5] 2 4 = some (1, 2) ∧
    ((∀ (j : ℕ) (hj : j < ([(1:ℚ), 2, 5]).length), j < 1 →
        ¬ float_lte 2 (([(1:ℚ), 2, 5]).get ⟨j, hj⟩)) ∧
      (∀ (j : ℕ) (hj : j < ([(1:ℚ), 2, 5]).length), j < 2 →
        ¬ float_lte 4 (([(1:ℚ), 2, 5]).get ⟨j, hj⟩)) ∧
      (∀ (j : ℕ) (hj : j < ([(1:ℚ), 2, 5]).length),
        (1 ≤ j ∧ j < 2) ↔
          (float_lte 2 (([(1:ℚ), 2, 5]).get ⟨j, hj⟩) ∧
            ¬ float_lte 4 (([(1:ℚ), 2, 5]).get ⟨j, hj⟩)))) :=
  ⟨by decide, C8_clamp_sorted_spec [(1:ℚ), 2, 5] 2 4 1 2 (by decide)⟩

/-! ## Message-stream model (the mido codec boundary)

A decoded file is a ticks-per-beat resolution plus, per track, an ordered
list of delta-timed messages. -/

inductive MidiMsg where
  | note_on (channel note velocity : ℤ)
  | note_off (channel note velocity : ℤ)
  | set_tempo (tempo : ℤ)
  | time_signature (numerator denominator : ℤ)
  | track_name (name : String)
  | program_change (channel program : ℤ)
deriving DecidableEq

structure TimedMsg where
  time : ℤ
  msg : MidiMsg
deriving DecidableEq

structure MidiFileRep where
  ticks_per_beat : ℤ
  tracks : List (List TimedMsg)
deriving DecidableEq

def assocFind (lb : List ((ℤ × ℤ) × ℕ)) (k : ℤ × ℤ) : Option ℕ :=
  match lb with
  | [] => none
  | (k2, v) :: rest => if k2 = k then some v else assocFind rest k

def assocErase (lb : List ((ℤ × ℤ) × ℕ)) (k : ℤ × ℤ) : List ((ℤ × ℤ) × ℕ) :=
  lb.filter (fun p => decide (p.1 ≠ k))

def listModify {α : Type} (l : List α) (i : ℕ) (f : α → α) : List α :=
  match l, i with
  | [], _ => []
  | x :: rest, 0 => f x :: rest
  | x :: rest, i + 1 => x :: listModify rest i f

/-! ## Event importer (midi_to_representation, lines 446-509)

Python mutates `Note` objects aliased between the `notes` list and the
`note_look_behind` dict, and deletes a note by scanning `notes` for it by
identity and popping it.  The model keeps every appended note at a stable
index with a `deleted` flag (the final list filters them out, which yields
the same list as Python's in-place `pop`), and `note_look_behind` maps a
`(pitch, channel)` key to the index of its open note.  The `assert False`
branch ("should never get here", when the open note is not found in the
list) and the `assert fetched_note.duration == 0` are modelled by `none`. -/

structure NoteRec where
  note : Note
  deleted : Bool
deriving DecidableEq

structure ImportState where
  notes : List NoteRec
  look_behind : List ((ℤ × ℤ) × ℕ)
  accumulated_time : ℤ
deriving DecidableEq

def processTrackMsg (tpb : ℤ) (st : ImportState) (tm : TimedMsg) : Option ImportState :=
  let acc := st.accumulated_time + tm.time
  match tm.msg with
  | MidiMsg.note_on ch p v =>
    let beat : ℚ := (acc : ℚ) / (tpb : ℚ)
    let note : Note := ⟨ch, p, v, beat, 0⟩
    let notes1 := st.notes ++ [⟨note, false⟩]
    let idxNew := st.notes.length
    let lb1 := assocErase st.look_behind (p, ch) ++ [((p, ch), idxNew)]
    match assocFind st.look_behind (p, ch) with
    | some k =>
      match notes1.get? k with
      | none => none
      | some r =>
        let behind_note_dur := beat - r.note.beat
        if behind_note_dur ≤ 0 then
          if r.deleted then none
          else some ⟨listModify notes1 k (fun r2 => { r2 with deleted := true }), lb1, acc⟩
        else
          some ⟨listModify notes1 k
            (fun r2 => { r2 with note := { r2.note with duration := behind_note_dur } }),
            lb1, acc⟩
    | none => some ⟨notes1, lb1, acc⟩
  | MidiMsg.note_off ch p v =>
    match assocFind st.look_behind (p, ch) with
    | some k =>
      match st.notes.get? k with
      | none => none
      | some r =>
        if r.note.duration ≠ 0 then none
        else
          let beat : ℚ := (acc : ℚ) / (tpb : ℚ)
          let duration := max 0 (beat - r.note.beat)
          some ⟨listModify st.notes k
            (fun r2 => { r2 with note := { r2.note with duration := duration } }),
            assocErase st.look_behind (p, ch), acc⟩
    | none => some ⟨st.notes, st.look_behind, acc⟩
  | _ => some ⟨st.notes, st.look_behind, acc⟩

def importTrackLoop (tpb : ℤ) : ImportState → List TimedMsg → Option ImportState
  | st, [] => some st
  | st, m :: rest =>
    match processTrackMsg tpb st m with
    | none => none
    | some st2 => importTrackLoop tpb st2 rest

/-- The note list produced for one track by `midi_to_representation`. -/
def importTrackNotes (tpb : ℤ) (msgs : List TimedMsg) : Option (List Note) :=
  (importTrackLoop tpb ⟨[], [], 0⟩ msgs).map
    (fun st => (st.notes.filter (fun r => !r.deleted)).map (fun r => r.note))

/-- The importer's look-behind invariant: every open key points at an
existing, non-deleted note of duration 0, and no two keys share an index. -/
def LookBehindInv (st : ImportState) : Prop :=
  (∀ k i, (k, i) ∈ st.look_behind →
    ∃ r, st.notes.get? i = some r ∧ r.deleted = false ∧ r.note.duration = 0) ∧
  (st.look_behind.map Prod.snd).Nodup

theorem listModify_get?_ne {α : Type} (l : List α) (k i : ℕ) (f : α → α) (h : i ≠ k) :
    (listModify l k f).get? i = l.get? i := by
  induction l generalizing k i with
  | nil => rfl
  | cons x rest ih =>
    match k, i with
    | 0, 0 => exact absurd rfl h
    | 0, i + 1 => rfl
    | k + 1, 0 => rfl
    | k + 1, i + 1 =>
      show (listModify rest k f).get? i = rest.get? i
      exact ih k i (fun hc => h (by omega))

theorem listModify_get?_eq {α : Type} (l : List α) (k : ℕ) (f : α → α) :
    (listModify l k f).get? k = (l.get? k).map f := by
  induction l generalizing k with
  | nil => rfl
  | cons x rest ih =>
    match k with
    | 0 => rfl
    | k + 1 =>
      show (listModify rest k f).get? k = (rest.get? k).map f
      exact ih k

theorem assocFind_mem {lb : List ((ℤ × ℤ) × ℕ)} {k : ℤ × ℤ} {i : ℕ}
    (h : assocFind lb k = some i) : (k, i) ∈ lb := by
  induction lb with
  | nil => exact Option.noConfusion h
  | cons p rest ih =>
    obtain ⟨k2, v⟩ := p
    by_cases hc : k2 = k
    · rw [assocFind, if_pos hc] at h
      have : v = i := Option.some.inj h
      subst this
      subst hc
      exact List.mem_cons_self _ _
    · rw [assocFind, if_neg hc] at h
      exact List.mem_cons_of_mem _ (ih h)

theorem mem_assocErase {lb : List ((ℤ × ℤ) × ℕ)} {k k2 : ℤ × ℤ} {i : ℕ}
    (h : (k2, i) ∈ assocErase lb k) : (k2, i) ∈ lb ∧ k2 ≠ k := by
  unfold assocErase at h
  have h2 := List.mem_filter.mp h
  refine ⟨h2.1, ?_⟩
  have := h2.2
  simpa using this

theorem assocErase_snd_sublist (lb : List ((ℤ × ℤ) × ℕ)) (k : ℤ × ℤ) :
    ((assocErase lb k).map Prod.snd).Sublist (lb.map Prod.snd) :=
  (List.filter_sublist lb).map Prod.snd

theorem mem_snd_of_mem {lb : List ((ℤ × ℤ) × ℕ)} {k : ℤ × ℤ} {i : ℕ}
    (h : (k, i) ∈ lb) : i ∈ lb.map Prod.snd :=
  List.mem_map.mpr ⟨(k, i), h, rfl⟩

/-- If two entries of the look-behind share an index and its snd-projection is
nodup, the entries have the same key. -/
theorem lookbehind_index_unique {lb : List ((ℤ × ℤ) × ℕ)} {k1 k2 : ℤ × ℤ} {i : ℕ}
    (hnd : (lb.map Prod.snd).Nodup) (h1 : (k1, i) ∈ lb) (h2 : (k2, i) ∈ lb) :
    k1 = k2 := by
  induction lb with
  | nil => exact absurd h1 (List.not_mem_nil _)
  | cons p rest ih =>
    rw [List.map_cons] at hnd
    have hnd2 := List.nodup_cons.mp hnd
    rcases List.mem_cons.mp h1 with he1 | hm1
    · rcases List.mem_cons.mp h2 with he2 | hm2
      · have h12 : (k1, i) = (k2, i) := he1.trans he2.symm
        exact ((Prod.mk.injEq _ _ _ _).mp h12).1
      · exfalso
        apply hnd2.1
        have : p.2 = i := by rw [← he1]
        rw [this]
        exact mem_snd_of_mem hm2
    · rcases List.mem_cons.mp h2 with he2 | hm2
      · exfalso
        apply hnd2.1
        have : p.2 = i := by rw [← he2]
        rw [this]
        exact mem_snd_of_mem hm1
      · exact ih hnd2.2 hm1 hm2

theorem lb_entry_lt_length {st : ImportState} (hpt : ∀ k i, (k, i) ∈ st.look_behind →
      ∃ r, st.notes.get? i = some r ∧ r.deleted = false ∧ r.note.duration = 0)
    {k : ℤ × ℤ} {i : ℕ} (h : (k, i) ∈ st.look_behind) : i < st.notes.length := by
  obtain ⟨r, hget, -, -⟩ := hpt k i h
  exact (List.get?_eq_some.mp hget).1

/-- The new look-behind built by a `note_on` keeps the invariant: erased
entries keep their (unchanged) indices and the fresh entry points at the
appended note. -/
theorem lb1_nodup {st : ImportState}
    (hpt : ∀ k i, (k, i) ∈ st.look_behind →
      ∃ r, st.notes.get? i = some r ∧ r.deleted = false ∧ r.note.duration = 0)
    (hnd : (st.look_behind.map Prod.snd).Nodup) (key : ℤ × ℤ) :
    (((assocErase st.look_behind key) ++ [(key, st.notes.length)]).map Prod.snd).Nodup := by
  rw [List.map_append]
  rw [List.nodup_append]
  refine ⟨hnd.sublist (assocErase_snd_sublist st.look_behind key), List.nodup_singleton _, ?_⟩
  intro a ha hb
  have hb2 : a = st.notes.length := by simpa using hb
  subst hb2
  obtain ⟨⟨k2, i2⟩, hmem, hsnd⟩ := List.mem_map.mp ha
  have hmem2 := (mem_assocErase hmem).1
  have := lb_entry_lt_length hpt hmem2
  simp only at hsnd
  omega

theorem processTrackMsg_preserves (tpb : ℤ) (st : ImportState) (tm : TimedMsg)
    (hInv : LookBehindInv st) :
    ∃ st2, processTrackMsg tpb st tm = some st2 ∧ LookBehindInv st2 := by
  obtain ⟨hpt, hnd⟩ := hInv
  obtain ⟨dt, msg⟩ := tm
  cases msg with
  | set_tempo t => exact ⟨_, rfl, hpt, hnd⟩
  | time_signature n d => exact ⟨_, rfl, hpt, hnd⟩
  | track_name s => exact ⟨_, rfl, hpt, hnd⟩
  | program_change c pr => exact ⟨_, rfl, hpt, hnd⟩
  | note_on ch p v =>
    cases hfind : assocFind st.look_behind (p, ch) with
    | none =>
      refine ⟨⟨st.notes ++
          [⟨⟨ch, p, v, ((st.accumulated_time + dt : ℤ) : ℚ) / (tpb : ℚ), 0⟩, false⟩],
        assocErase st.look_behind (p, ch) ++ [((p, ch), st.notes.length)],
        st.accumulated_time + dt⟩, ?_, ?_, ?_⟩
      · simp only [processTrackMsg, hfind]
      · -- pointedness for the fresh look-behind
        intro k i hmem
        rcases List.mem_append.mp hmem with hold | hnew
        · obtain ⟨hin, -⟩ := mem_assocErase hold
          obtain ⟨r, hget, hd, hdur⟩ := hpt k i hin
          have hlt := (List.get?_eq_some.mp hget).1
          exact ⟨r, by rw [List.get?_append hlt]; exact hget, hd, hdur⟩
        · have heq2 : (k, i) = ((p, ch), st.notes.length) := by simpa using hnew
          injection heq2 with hk2 hi2
          subst hi2
          exact ⟨⟨⟨ch, p, v, ((st.accumulated_time + dt : ℤ) : ℚ) / (tpb : ℚ), 0⟩, false⟩,
            List.get?_concat_length st.notes _, rfl, rfl⟩
      · exact lb1_nodup hpt hnd (p, ch)
    | some k =>
      obtain ⟨r, hget, hdel, hdur⟩ := hpt (p, ch) k (assocFind_mem hfind)
      have hklen : k < st.notes.length := (List.get?_eq_some.mp hget).1
      have hget1 : (st.notes ++
          ([⟨⟨ch, p, v, ((st.accumulated_time + dt : ℤ) : ℚ) / (tpb : ℚ), 0⟩, false⟩] :
            List NoteRec)).get? k = some r := by
        rw [List.get?_append hklen]
        exact hget
      have hInv2 : ∀ (g : NoteRec → NoteRec), (∀ r2, (g r2).deleted = r2.deleted) →
          (∀ r2, (g r2).note.duration = r2.note.duration ∨ True) → True := fun _ _ _ => trivial
      -- common pointedness argument for the fresh look-behind after a modify at k
      have hpoint : ∀ (g : NoteRec → NoteRec),
          (∀ k2 i, (k2, i) ∈ (assocErase st.look_behind (p, ch) ++
              [((p, ch), st.notes.length)]) →
            ∃ r2, (listModify (st.notes ++
              [⟨⟨ch, p, v, ((st.accumulated_time + dt : ℤ) : ℚ) / (tpb : ℚ), 0⟩, false⟩]) k
                g).get? i = some r2 ∧ r2.deleted = false ∧ r2.note.duration = 0) := by
        intro g k2 i hmem
        rcases List.mem_append.mp hmem with hold | hnew
        · obtain ⟨hin, hne⟩ := mem_assocErase hold
          obtain ⟨r2, hget2, hd2, hdur2⟩ := hpt k2 i hin
          have hlt := (List.get?_eq_some.mp hget2).1
          have hik : i ≠ k := by
            intro hik
            subst hik
            exact hne (lookbehind_index_unique hnd hin (assocFind_mem hfind))
          refine ⟨r2, ?_, hd2, hdur2⟩
          rw [listModify_get?_ne _ _ _ _ hik, List.get?_append hlt]
          exact hget2
        · have heq : (k2, i) = ((p, ch), st.notes.length) := by simpa using hnew
          injection heq with hk2 hi2
          subst hi2
          have hik : st.notes.length ≠ k := by omega
          refine ⟨⟨⟨ch, p, v, ((st.accumulated_time + dt : ℤ) : ℚ) / (tpb : ℚ), 0⟩, false⟩,
            ?_, rfl, rfl⟩
          rw [listModify_get?_ne _ _ _ _ hik]
          exact List.get?_concat_length st.notes _
      by_cases hdle : ((st.accumulated_time + dt : ℤ) : ℚ) / (tpb : ℚ) - r.note.beat ≤ 0
      · refine ⟨⟨listModify (st.notes ++
            [⟨⟨ch, p, v, ((st.accumulated_time + dt : ℤ) : ℚ) / (tpb : ℚ), 0⟩, false⟩]) k
            (fun r2 => { r2 with deleted := true }),
          assocErase st.look_behind (p, ch) ++ [((p, ch), st.notes.length)],
          st.accumulated_time + dt⟩, ?_, ?_, ?_⟩
        · simp only [processTrackMsg, hfind]
          simp only [hget1]
          rw [if_pos hdle, if_neg (by rw [hdel]; exact Bool.false_ne_true)]
        · exact hpoint _
        · exact lb1_nodup hpt hnd (p, ch)
      · refine ⟨⟨listModify (st.notes ++
            [⟨⟨ch, p, v, ((st.accumulated_time + dt : ℤ) : ℚ) / (tpb : ℚ), 0⟩, false⟩]) k
            (fun r2 => { r2 with note := { r2.note with duration := ((st.accumulated_time + dt : ℤ) : ℚ) / (tpb : ℚ) - r.note.beat } }),
          assocErase st.look_behind (p, ch) ++ [((p, ch), st.notes.length)],
          st.accumulated_time + dt⟩, ?_, ?_, ?_⟩
        · simp only [processTrackMsg, hfind]
          simp only [hget1]
          rw [if_neg hdle]
        · exact hpoint _
        · exact lb1_nodup hpt hnd (p, ch)
  | note_off ch p v =>
    cases hfind : assocFind st.look_behind (p, ch) with
    | none =>
      refine ⟨⟨st.notes, st.look_behind, st.accumulated_time + dt⟩, ?_, hpt, hnd⟩
      simp only [processTrackMsg, hfind]
    | some k =>
      obtain ⟨r, hget, hdel, hdur⟩ := hpt (p, ch) k (assocFind_mem hfind)
      refine ⟨⟨listModify st.notes k
          (fun r2 => { r2 with note := { r2.note with duration := max 0 (((st.accumulated_time + dt : ℤ) : ℚ) / (tpb : ℚ) - r.note.beat) } }),
        assocErase st.look_behind (p, ch), st.accumulated_time + dt⟩, ?_, ?_, ?_⟩
      · simp only [processTrackMsg, hfind]
        simp only [hget]
        rw [if_neg (by rw [hdur]; simp)]
      · intro k2 i hmem
        obtain ⟨hin, hne⟩ := mem_assocErase hmem
        obtain ⟨r2, hget2, hd2, hdur2⟩ := hpt k2 i hin
        have hik : i ≠ k := by
          intro hik
          subst hik
          exact hne (lookbehind_index_unique hnd hin (assocFind_mem hfind))
        refine ⟨r2, ?_, hd2, hdur2⟩
        rw [listModify_get?_ne _ _ _ _ hik]
        exact hget2
      · exact hnd.sublist (assocErase_snd_sublist st.look_behind (p, ch))

theorem importTrackLoop_some (tpb : ℤ) (msgs : List TimedMsg) (st : ImportState)
    (hInv : LookBehindInv st) :
    ∃ st2, importTrackLoop tpb st msgs = some st2 ∧ LookBehindInv st2 := by
  induction msgs generalizing st with
  | nil => exact ⟨st, rfl, hInv⟩
  | cons m rest ih =>
    obtain ⟨st2, heq, hInv2⟩ := processTrackMsg_preserves tpb st m hInv
    obtain ⟨st3, heq3, hInv3⟩ := ih st2 hInv2
    refine ⟨st3, ?_, hInv3⟩
    rw [importTrackLoop, heq]
    exact heq3

/-- C9: the importer never raises on malformed note events.  Every
note-off with no matching open note is silently dropped, every matching
note-off closes its note with `duration = max 0 (beat_off - beat_on)`, and a
note-on colliding with an open note on the same `(pitch, channel)` key
either closes it with positive duration or deletes it — these behaviours are
the definition of `processTrackMsg` — and the importer's two internal
assertions (modelled by the `none` results) never fire: `importTrackNotes`
returns `some` on every input message stream. -/
theorem C9_importer_never_fails (tpb : ℤ) (msgs : List TimedMsg) :
    (importTrackNotes tpb msgs).isSome = true := by
  obtain ⟨st2, heq, -⟩ := importTrackLoop_some tpb msgs ⟨[], [], 0⟩
    ⟨fun k i h => absurd h (List.not_mem_nil _), List.nodup_nil⟩
  rw [importTrackNotes, heq]
  rfl

/-! ## Tempo extraction (_get_tempo_changes, augment_total_time)

Python iterates over every track and every message with one shared
`total_time` accumulator, which is the same as scanning the concatenation of
all tracks. -/

def augment_total_time (tt : ℤ) : ℤ := if tt = 0 then tt else tt + 1

/-- `mido.tempo2bpm`: microseconds-per-beat to beats-per-minute. -/
def tempo2bpm (tempo : ℤ) : ℚ := 60000000 / (tempo : ℚ)

/-- The `(accumulated tick, set-tempo value)` pairs of a message stream. -/
def collectTempoAux : ℤ → List TimedMsg → List (ℤ × ℤ)
  | _, [] => []
  | t, m :: rest =>
    match m.msg with
    | MidiMsg.set_tempo tmp => (t + m.time, tmp) :: collectTempoAux (t + m.time) rest
    | _ => collectTempoAux (t + m.time) rest

/-- The collection loop of `_get_tempo_changes` with its inline
`any`-duplicate check. -/
def getTempoChangesLoop (tpb : ℤ) : ℤ → List TempoChange → List TimedMsg → List TempoChange
  | _, acc, [] => acc
  | t, acc, m :: rest =>
    match m.msg with
    | MidiMsg.set_tempo tmp =>
      let bpm := tempo2bpm tmp
      let beats : ℚ := ((augment_total_time (t + m.time) : ℤ) : ℚ) / (tpb : ℚ)
      let acc2 :=
        if acc.any (fun c => decide (c.beat = beats) && decide (c.new_bpm = bpm)) then acc
        else acc ++ [⟨beats, bpm⟩]
      getTempoChangesLoop tpb (t + m.time) acc2 rest
    | _ => getTempoChangesLoop tpb (t + m.time) acc rest

/-- The trailing "duplicate remover" of `_get_tempo_changes`
(`tempo_slider` starts at -1.0). -/
def dedupTempoLoop : ℚ → List TempoChange → List TempoChange
  | _, [] => []
  | slider, tc :: rest =>
    if slider ≠ tc.new_bpm then tc :: dedupTempoLoop tc.new_bpm rest
    else dedupTempoLoop slider rest

def midiGetTempoChanges (f : MidiFileRep) : List TempoChange :=
  dedupTempoLoop (-1)
    (sortByQ (fun s => s.beat) (getTempoChangesLoop f.ticks_per_beat 0 [] f.tracks.flatten))

theorem insertByQ_perm {α : Type} (f : α → ℚ) (x : α) (l : List α) :
    (insertByQ f x l).Perm (x :: l) := by
  induction l with
  | nil => exact List.Perm.refl _
  | cons y rest ih =>
    rw [insertByQ]
    by_cases hc : f y ≤ f x
    · rw [if_pos hc]
      exact (ih.cons y).trans (List.Perm.swap x y rest)
    · rw [if_neg hc]

theorem sortByQ_fold_perm {α : Type} (f : α → ℚ) (l acc : List α) :
    (l.foldl (fun acc2 x => insertByQ f x acc2) acc).Perm (acc ++ l) := by
  induction l generalizing acc with
  | nil => simp
  | cons x rest ih =>
    rw [List.foldl_cons]
    refine (ih (insertByQ f x acc)).trans ?_
    have h1 : (insertByQ f x acc).Perm (x :: acc) := insertByQ_perm f x acc
    refine (h1.append_right rest).trans ?_
    exact List.perm_middle.symm.trans (List.Perm.refl _) |>.symm.symm |>.trans
      (by simpa using (@List.perm_middle _ x acc rest))

theorem sortByQ_perm {α : Type} (f : α → ℚ) (l : List α) : (sortByQ f l).Perm l := by
  have := sortByQ_fold_perm f l []
  simpa [sortByQ] using this

theorem mem_dedupTempoLoop {c : TempoChange} :
    ∀ {slider : ℚ} {l : List TempoChange}, c ∈ dedupTempoLoop slider l → c ∈ l := by
  intro slider l
  induction l generalizing slider with
  | nil => intro h; exact absurd h (List.not_mem_nil c)
  | cons tc rest ih =>
    intro h
    rw [dedupTempoLoop] at h
    by_cases hc : slider ≠ tc.new_bpm
    · rw [if_pos hc] at h
      rcases List.mem_cons.mp h with rfl | h2
      · exact List.mem_cons_self _ _
      · exact List.mem_cons_of_mem _ (ih h2)
    · rw [if_neg hc] at h
      exact List.mem_cons_of_mem _ (ih h)

theorem getTempoChangesLoop_mem (tpb : ℤ) :
    ∀ (msgs : List TimedMsg) (t : ℤ) (acc : List TempoChange) (c : TempoChange),
      c ∈ getTempoChangesLoop tpb t acc msgs →
      c ∈ acc ∨ ∃ p ∈ collectTempoAux t msgs,
        c.beat = ((augment_total_time p.1 : ℤ) : ℚ) / (tpb : ℚ) ∧ c.new_bpm = tempo2bpm p.2 := by
  intro msgs
  induction msgs with
  | nil => exact fun t acc c h => Or.inl h
  | cons m rest ih =>
    intro t acc c h
    obtain ⟨dt, msg⟩ := m
    cases msg with
    | set_tempo tmp =>
      rw [getTempoChangesLoop] at h
      rcases ih (t + dt) _ c h with hacc | ⟨p, hp, hbeat, hbpm⟩
      · by_cases hdup : (acc.any (fun c2 => decide (c2.beat =
            ((augment_total_time (t + dt) : ℤ) : ℚ) / (tpb : ℚ)) &&
            decide (c2.new_bpm = tempo2bpm tmp))) = true
        · rw [if_pos hdup] at hacc
          exact Or.inl hacc
        · rw [if_neg hdup] at hacc
          rcases List.mem_append.mp hacc with h1 | h2
          · exact Or.inl h1
          · have : c = (⟨((augment_total_time (t + dt) : ℤ) : ℚ) / (tpb : ℚ),
                tempo2bpm tmp⟩ : TempoChange) := by simpa using h2
            subst this
            exact Or.inr ⟨(t + dt, tmp), by rw [collectTempoAux]; exact List.mem_cons_self _ _,
              rfl, rfl⟩
      · exact Or.inr ⟨p, by rw [collectTempoAux]; exact List.mem_cons_of_mem _ hp, hbeat, hbpm⟩
    | note_on c2 n2 v2 =>
      rw [getTempoChangesLoop] at h
      rcases ih (t + dt) acc c h with hacc | ⟨p, hp, hbeat, hbpm⟩
      · exact Or.inl hacc
      · exact Or.inr ⟨p, by rw [collectTempoAux]; exact hp, hbeat, hbpm⟩
    | note_off c2 n2 v2 =>
      rw [getTempoChangesLoop] at h
      rcases ih (t + dt) acc c h with hacc | ⟨p, hp, hbeat, hbpm⟩
      · exact Or.inl hacc
      · exact Or.inr ⟨p, by rw [collectTempoAux]; exact hp, hbeat, hbpm⟩
    | time_signature n2 d2 =>
      rw [getTempoChangesLoop] at h
      rcases ih (t + dt) acc c h with hacc | ⟨p, hp, hbeat, hbpm⟩
      · exact Or.inl hacc
      · exact Or.inr ⟨p, by rw [collectTempoAux]; exact hp, hbeat, hbpm⟩
    | track_name s =>
      rw [getTempoChangesLoop] at h
      rcases ih (t + dt) acc c h with hacc | ⟨p, hp, hbeat, hbpm⟩
      · exact Or.inl hacc
      · exact Or.inr ⟨p, by rw [collectTempoAux]; exact hp, hbeat, hbpm⟩
    | program_change c2 pr =>
      rw [getTempoChangesLoop] at h
      rcases ih (t + dt) acc c h with hacc | ⟨p, hp, hbeat, hbpm⟩
      · exact Or.inl hacc
      · exact Or.inr ⟨p, by rw [collectTempoAux]; exact hp, hbeat, hbpm⟩

/-- C10: every tempo change produced by the importer comes from a set-tempo
event at some accumulated tick `t` and carries beat
`augment_total_time t / ticks_per_beat`; since `augment_total_time t` is
`t + 1` for `t ≠ 0` and `0` for `t = 0`, the position is shifted one tick
late except at tick zero. -/
theorem C10_tempo_beats_shifted (f : MidiFileRep) (c : TempoChange)
    (hc : c ∈ midiGetTempoChanges f) :
    ∃ p ∈ collectTempoAux 0 f.tracks.flatten,
      c.beat = ((augment_total_time p.1 : ℤ) : ℚ) / (f.ticks_per_beat : ℚ) ∧
      c.new_bpm = tempo2bpm p.2 ∧
      (p.1 = 0 → c.beat = 0) ∧
      (p.1 ≠ 0 → c.beat = ((p.1 : ℚ) + 1) / (f.ticks_per_beat : ℚ)) := by
  have h1 := mem_dedupTempoLoop hc
  have h2 : c ∈ getTempoChangesLoop f.ticks_per_beat 0 [] f.tracks.flatten :=
    (sortByQ_perm (fun s => s.beat) _).mem_iff.mp h1
  rcases getTempoChangesLoop_mem f.ticks_per_beat f.tracks.flatten 0 [] c h2 with hin | hex
  · exact absurd hin (List.not_mem_nil c)
  · obtain ⟨p, hp, hbeat, hbpm⟩ := hex
    refine ⟨p, hp, hbeat, hbpm, ?_, ?_⟩
    · intro h0
      rw [hbeat, augment_total_time, if_pos h0, h0]
      simp
    · intro h0
      rw [hbeat, augment_total_time, if_neg h0]
      push_cast
      ring_nf

theorem C10_tempo_beats_shifted_witness :
    ((⟨1/16, 120⟩ : TempoChange) ∈
        midiGetTempoChanges ⟨96, [[⟨5, MidiMsg.set_tempo 500000⟩]]⟩) ∧
    (∃ p ∈ collectTempoAux 0 ([[(⟨5, MidiMsg.set_tempo 500000⟩ : TimedMsg)]] :
          List (List TimedMsg)).flatten,
      (⟨1/16, 120⟩ : TempoChange).beat =
        ((augment_total_time p.1 : ℤ) : ℚ) / ((96 : ℤ) : ℚ) ∧
      (⟨1/16, 120⟩ : TempoChange).new_bpm = tempo2bpm p.2 ∧
      (p.1 = 0 → (⟨1/16, 120⟩ : TempoChange).beat = 0) ∧
      (p.1 ≠ 0 → (⟨1/16, 120⟩ : TempoChange).beat = ((p.1 : ℚ) + 1) / ((96 : ℤ) : ℚ))) :=
  ⟨by decide, C10_tempo_beats_shifted ⟨96, [[⟨5, MidiMsg.set_tempo 500000⟩]]⟩
    ⟨1/16, 120⟩ (by decide)⟩

/-! ## Tempo integrator (tempo_integrator.py)

`arg_first` reads `loop_note.key` and `cur_note.key` — but the `Note` class
(both variants in the repository) has no `key` attribute — so the very first
loop iteration raises `AttributeError` whenever the scanned range is
non-empty; with an empty range the loop body never runs and it returns -1.
`none` models the raised error.  Likewise `tempo_integrator` iterates
`for track in m.tracks:` over a `dict[int, Track]`, which yields the integer
keys, and `track.notes` then raises `AttributeError` unless the dict is
empty. -/

def spb (tempo : ℚ) : ℚ := 60 / tempo

def arg_first (start : ℕ) (l : List Note) (cur : Note) : Option ℤ :=
  if start < l.length then none else some (-1)

def povGo (notes : List Note) : List Note → ℕ → Option (List Note)
  | [], _ => some []
  | n :: rest, i =>
    if i < notes.length - 1 then
      match arg_first (i + 1) notes n with
      | none => none
      | some idx =>
        if idx ≠ -1 then
          let nn := notes.getD idx.toNat n
          (povGo notes rest (i + 1)).map
            (fun l => { n with duration := min n.duration (nn.beat - n.beat - 1/100000) } :: l)
        else (povGo notes rest (i + 1)).map (fun l => n :: l)
    else (povGo notes rest (i + 1)).map (fun l => n :: l)

def prevent_overlapping_notes (ns : List Note) : Option (List Note) :=
  let notes := sortByQ (fun s => s.beat) ns
  povGo notes notes 0

/-- The per-note conversion of `augment_note_list`: re-base the beat on the
current tempo segment and scale the duration by the segment's
seconds-per-beat. -/
def convNoteTI (count_from offset pb : ℚ) (n : Note) : Note :=
  { n with
    beat := offset + (n.beat - count_from) * spb pb,
    duration := n.duration * spb pb }

/-- The main loop of `augment_note_list`.  The tempo list carries `none` as
the synthetic `math.inf` sentinel appended by the Python code (its beat
compares greater than every note beat and its fields are never read, because
the loop breaks once all notes are consumed). -/
def augLoop : List (Option TempoChange) → List Note → ℚ → ℚ → ℚ → Option TempoChange →
    List Note
  | [], _, _, _, _, _ => []
  | otc :: rest, notes, count_from, offset, previous_bpm, prev =>
    let beatLt : Note → Bool := fun n =>
      match otc with
      | some tc => decide (n.beat < tc.beat)
      | none => true
    let emitted := (notes.takeWhile beatLt).map (convNoteTI count_from offset previous_bpm)
    let remaining := notes.dropWhile beatLt
    if remaining = [] then emitted
    else
      match otc with
      | none => emitted
      | some tc =>
        let offset2 :=
          match prev with
          | none => offset
          | some p => offset + (tc.beat - p.beat) * spb p.new_bpm
        emitted ++ augLoop rest remaining tc.beat offset2 tc.new_bpm (some tc)

def augment_note_list (tcs : List TempoChange) (ns : List Note) : Option (List Note) :=
  let tempo_changes := sortByQ (fun s => s.beat) tcs
  let notes := sortByQ (fun s => s.beat) ns
  let tempo_changes2 := if tempo_changes = [] then [(⟨0, 120⟩ : TempoChange)] else tempo_changes
  let seq : List (Option TempoChange) := tempo_changes2.map some ++ [none]
  prevent_overlapping_notes (augLoop seq notes 0 0 120 none)

/-- `naive_tempo_change_to_seconds`.  At the `break`, the returned value uses
the *current* loop element `tempo_change` — the upcoming segment — for its
`spb`, not the previous one. -/
def naiveLoop : List TempoChange → ℚ → ℚ → ℚ → Option TempoChange → ℚ
  | [], beat, count_from, offset, prev =>
    match prev with
    | some tc => offset + (beat - count_from) * spb tc.new_bpm
    | none => 0
  | tc :: rest, beat, count_from, offset, prev =>
    if beat < tc.beat then offset + (beat - count_from) * spb tc.new_bpm
    else
      let offset2 :=
        match prev with
        | none => offset
        | some p => offset + (tc.beat - p.beat) * spb p.new_bpm
      naiveLoop rest beat tc.beat offset2 (some tc)

def naive_tempo_change_to_seconds (tcs : List TempoChange) (beat : ℚ) : ℚ :=
  let tempo_changes := sortByQ (fun s => s.beat) tcs
  let tempo_changes2 := if tempo_changes = [] then [(⟨0, 120⟩ : TempoChange)] else tempo_changes
  naiveLoop tempo_changes2 beat 0 0 none

def tempo_integrator (m : MidiRepresentation) : Option MidiRepresentation :=
  if m.tracks = [] then some { m with bpm_changes := [⟨0, 60⟩] } else none

/-- C3: the overlap-repair pass crashes on any track with at least two
notes: `arg_first` dereferences the non-existent `Note.key` attribute, so
`prevent_overlapping_notes` (and hence `augment_note_list`, which ends by
calling it) raises `AttributeError`; `tempo_integrator` additionally
iterates the tracks dict's keys and crashes on any non-empty tracks dict.
The theorem evaluates the embedded pipeline at a two-note failing input. -/
theorem C3_tempo_integration_crashes :
    prevent_overlapping_notes [⟨0, 60, 64, 0, 2⟩, ⟨0, 60, 64, 1, 1⟩] = none ∧
    augment_note_list [] [⟨0, 60, 64, 0, 2⟩, ⟨0, 60, 64, 1, 1⟩] = none ∧
    tempo_integrator ⟨[(0, ⟨[⟨0, 60, 64, 0, 2⟩], "piano"⟩)], [], [], []⟩ = none := by
  refine ⟨by decide, by decide, by decide⟩

/-- C4: the standalone single-point mapping disagrees with the per-note
conversion of `augment_note_list` at a note onset.  With tempo changes
[(0, 60), (2, 120)] and a note at beat 1, `augment_note_list` converts the
onset to second 1 (using the segment's own 60 BPM), while
`naive_tempo_change_to_seconds` returns 1/2 because its `break` path applies
the *next* segment's 120 BPM to the elapsed beats. -/
theorem C4_naive_disagrees_with_augment :
    augment_note_list [⟨0, 60⟩, ⟨2, 120⟩] [⟨0, 60, 64, 1, 1⟩] =
      some [⟨0, 60, 64, 1, 1⟩] ∧
    naive_tempo_change_to_seconds [⟨0, 60⟩, ⟨2, 120⟩] 1 = 1/2 ∧
    ((1 : ℚ) ≠ 1/2) := by
  refine ⟨by decide, by decide, by norm_num⟩

/-! ## Bar decomposition (MidiRepresentation.generate_bars)

The `while float_lt(b, song_length_safe)` loop is modelled with an explicit
fuel parameter (`none` when the fuel runs out, which also covers the
non-terminating degenerate inputs with non-positive bar lengths, and the
`ZeroDivisionError` for a zero denominator, since the bar start then never
advances).  The initial `current_tempo` expression
`local_tempo_changes[0].new_bpm if local_tempo_changes == [] else 120`
indexes into the *empty* list when there are no tempo changes — an
`IndexError`, modelled by `none` — and yields the constant 120 otherwise. -/

/-- Python's `round`: round half to even. -/
def pyRound (q : ℚ) : ℤ :=
  let f := ⌊q⌋
  let r := q - (f : ℚ)
  if r < 1/2 then f else if 1/2 < r then f + 1 else if f % 2 = 0 then f else f + 1

/-- The inner `while` that advances `time_sig_index`; fuel `sigs.length`
always suffices because the index grows towards `sigs.length - 1`. -/
def nudgeIdx (sigs : List TimeSignature) (b : ℚ) : ℕ → ℕ → ℕ
  | 0, idx => idx
  | fuel + 1, idx =>
    if idx < sigs.length - 1 then
      match sigs.get? (idx + 1) with
      | some ts =>
        if float_gte b ((pyRound ts.beat : ℤ) : ℚ) then nudgeIdx sigs b fuel (idx + 1) else idx
      | none => idx
    else idx

def genBarsLoop (tracks : List (ℕ × Track)) (sigs : List TimeSignature)
    (ltcs : List TempoChange) (tBeats : List ℚ) (sls : ℚ) :
    ℕ → ℚ → ℕ → ℚ → Option (List Bar)
  | 0, b, _, _ => if float_lt b sls then none else some []
  | fuel + 1, b, idx, cur =>
    if float_lt b sls then
      let idx2 := nudgeIdx sigs b sigs.length idx
      match sigs.get? idx2 with
      | none => none
      | some sig =>
        let e := b + sig.get_absolute_bar_length
        let newTracks := tracks.map (fun pr => (pr.1, pr.2.slice_with_time_signature b e sig))
        match clamp_sorted tBeats b e with
        | none => none
        | some pq =>
          let tcs := ((ltcs.drop pq.1).take (pq.2 - pq.1)).map
            (fun tc =>
              { tc with beat := max 0 (tc.beat - b) * sig.get_absolute_tempo_squish_factor })
          let bar : Bar := ⟨newTracks, sig, tcs, cur⟩
          let cur2 :=
            match tcs.getLast? with
            | some t2 => t2.new_bpm
            | none => cur
          (genBarsLoop tracks sigs ltcs tBeats sls fuel e idx2 cur2).map (fun bs => bar :: bs)
    else some []

def sigDenBound (mr : MidiRepresentation) : ℕ :=
  mr.time_signature_changes.foldl (fun a ts => max a ts.denominator.natAbs) 1

/-- Generous fuel: with positive bar lengths at least `4 / maxDenominator`
per iteration, `(songLength + 2) * maxDenominator` bars more than cover
`song_length_safe`. -/
def barFuel (mr : MidiRepresentation) : ℕ :=
  (mr.get_song_length.toNat + 2) * sigDenBound mr + mr.time_signature_changes.length + 4

def MidiRepresentation.generate_bars (mr : MidiRepresentation) : Option (List Bar) :=
  let local_tempo_changes := sortByQ (fun s => s.beat) mr.bpm_changes
  let tempos_as_beats := local_tempo_changes.map (fun t => t.beat)
  let time_sig_changes0 := sortByQ (fun s => s.beat) mr.time_signature_changes
  let time_sig_changes :=
    if time_sig_changes0 = [] then [generate_4_4_time_sig] else time_sig_changes0
  let song_length_safe : ℚ := ((mr.get_song_length : ℤ) : ℚ) + 1
  match local_tempo_changes with
  | [] => none
  | _ :: _ =>
    genBarsLoop mr.tracks time_sig_changes local_tempo_changes tempos_as_beats
      song_length_safe (barFuel mr) 0 0 120

def generate_bar_midi_representation (mr : MidiRepresentation) :
    Option BarMidiRepresentation :=
  (mr.generate_bars).map (fun bars =>
    ⟨bars, mr.channel_instrument_map, mr.bpm_changes, mr.time_signature_changes⟩)

/-- `aggregate_tracks[i].append(track2)` with the `if i not in ...` guard. -/
def aggAdd (agg : List (ℕ × List Track)) (i : ℕ) (t : Track) : List (ℕ × List Track) :=
  if (agg.map Prod.fst).contains i then
    agg.map (fun pr => if pr.1 = i then (pr.1, pr.2 ++ [t]) else pr)
  else agg ++ [(i, [t])]

def BarMidiRepresentation.to_regular_midi_representation (bmr : BarMidiRepresentation) :
    MidiRepresentation :=
  let step := fun (st : List (ℕ × List Track) × ℚ) (b : Bar) =>
    (b.tracks.foldl
      (fun agg pr =>
        aggAdd agg pr.1
          ((pr.2.scale (1 / b.time_signature.get_absolute_tempo_squish_factor)).offset st.2))
      st.1,
     st.2 + b.time_signature.get_absolute_bar_length)
  let aggState := bmr.bars.foldl step ([], 0)
  let final_tracks := aggState.1.map (fun pr =>
    (pr.1, pr.2.foldl (fun acc t => (⟨acc.notes ++ t.notes, t.track_name⟩ : Track))
      (⟨[], ""⟩ : Track)))
  ⟨final_tracks, bmr.channel_instrument_map, bmr.bpm_changes, bmr.time_signature_changes⟩

/-- C5: `generate_bars` crashes on a representation with no tempo changes:
the initialiser of `current_tempo` reads `local_tempo_changes[0]` exactly
when the list is empty (the conditional is inverted), raising `IndexError`,
so the first bar never gets the claimed default `starting_tempo` of 120. -/
theorem C5_generate_bars_crashes_without_tempo :
    MidiRepresentation.generate_bars ⟨[(0, ⟨[⟨0, 60, 64, 0, 1⟩], ""⟩)], [], [], []⟩ = none := by
  decide

/-! ## Bar decomposition/reassembly analysis (C1) -/

/-- The shape of the bar list produced by `genBarsLoop`: starting at `b`,
each bar records a signature drawn from the pool, its tracks are the slices
of the representation's tracks over `[b, b + barLength)`, and the next bar
starts at `b + barLength`; the loop stops at the first `b` with
`¬ float_lt b sls`. -/
def BarsChain (tracks : List (ℕ × Track)) (sigs : List TimeSignature) (sls : ℚ) :
    ℚ → List Bar → Prop
  | b, [] => ¬ float_lt b sls
  | b, bar :: rest =>
    float_lt b sls ∧
    bar.time_signature ∈ sigs ∧
    bar.tracks = tracks.map (fun pr => (pr.1,
      pr.2.slice_with_time_signature b (b + bar.time_signature.get_absolute_bar_length)
        bar.time_signature)) ∧
    BarsChain tracks sigs sls (b + bar.time_signature.get_absolute_bar_length) rest

def barsWithStarts : ℚ → List Bar → List (ℚ × Bar)
  | _, [] => []
  | b, bar :: rest =>
    (b, bar) :: barsWithStarts (b + bar.time_signature.get_absolute_bar_length) rest

def barsEnd : ℚ → List Bar → ℚ
  | b, [] => b
  | b, bar :: rest => barsEnd (b + bar.time_signature.get_absolute_bar_length) rest

theorem nudgeIdx_lt (sigs : List TimeSignature) (b : ℚ) :
    ∀ (fuel idx : ℕ), idx < sigs.length → nudgeIdx sigs b fuel idx < sigs.length := by
  intro fuel
  induction fuel with
  | zero => intro idx h; exact h
  | succ fuel ih =>
    intro idx h
    rw [nudgeIdx]
    by_cases hc : idx < sigs.length - 1
    · rw [if_pos hc]
      cases hget : sigs.get? (idx + 1) with
      | none => exact h
      | some ts =>
        show (if float_gte b ((pyRound ts.beat : ℤ) : ℚ) then
          nudgeIdx sigs b fuel (idx + 1) else idx) < sigs.length
        by_cases hge : float_gte b ((pyRound ts.beat : ℤ) : ℚ)
        · rw [if_pos hge]
          exact ih (idx + 1) (by omega)
        · rw [if_neg hge]
          exact h
    · rw [if_neg hc]
      exact h

theorem genBarsLoop_chain (tracks : List (ℕ × Track)) (sigs : List TimeSignature)
    (ltcs : List TempoChange) (tBeats : List ℚ) (sls : ℚ) :
    ∀ (fuel : ℕ) (b : ℚ) (idx : ℕ) (cur : ℚ) (bars : List Bar),
      genBarsLoop tracks sigs ltcs tBeats sls fuel b idx cur = some bars →
      idx < sigs.length →
      BarsChain tracks sigs sls b bars := by
  intro fuel
  induction fuel with
  | zero =>
    intro b idx cur bars h hidx
    rw [genBarsLoop] at h
    by_cases hc : float_lt b sls
    · rw [if_pos hc] at h
      exact Option.noConfusion h
    · rw [if_neg hc] at h
      have hb : bars = [] := (Option.some.inj h).symm
      subst hb
      exact hc
  | succ fuel ih =>
    intro b idx cur bars h hidx
    simp only [genBarsLoop] at h
    by_cases hc : float_lt b sls
    · rw [if_pos hc] at h
      have hidx2 := nudgeIdx_lt sigs b sigs.length idx hidx
      cases hget : sigs.get? (nudgeIdx sigs b sigs.length idx) with
      | none =>
        rw [hget] at h
        exact Option.noConfusion h
      | some sig =>
        simp only [hget] at h
        cases hclamp : clamp_sorted tBeats b (b + sig.get_absolute_bar_length) with
        | none =>
          simp only [hclamp] at h
          exact Option.noConfusion h
        | some pq =>
          simp only [hclamp] at h
          obtain ⟨bs, hbs, hbars⟩ := Option.map_eq_some'.mp h
          subst hbars
          refine ⟨hc, List.get?_mem hget, rfl, ?_⟩
          exact ih _ _ _ bs hbs hidx2
    · rw [if_neg hc] at h
      have hb : bars = [] := (Option.some.inj h).symm
      subst hb
      exact hc

/-- With both magnitudes below 1.1e6, the `math.isclose` tolerance is at most
1.1e-3, so close numbers differ by at most 11/10000. -/
theorem isclose_small {x y : ℚ} (hx : |x| ≤ 1100000) (hy : |y| ≤ 1100000)
    (h : isclose x y) : |x - y| ≤ 11 / 10000 := by
  unfold isclose at h
  have h1 : relTol * max |x| |y| ≤ 11 / 10000 := by
    have h2 : max |x| |y| ≤ 1100000 := max_le hx hy
    calc relTol * max |x| |y| ≤ relTol * 1100000 := by
          apply mul_le_mul_of_nonneg_left h2
          norm_num [relTol]
      _ ≤ 11 / 10000 := by norm_num [relTol]
  have h3 : max (relTol * max |x| |y|) absTol ≤ 11 / 10000 := by
    apply max_le h1
    norm_num [absTol]
  linarith [h.trans h3]

/-- Conversely, two bounded numbers at distance at least 1/32 are never
`isclose`. -/
theorem isclose_far {x y : ℚ} (hx : |x| ≤ 1100000) (hy : |y| ≤ 1100000)
    (hfar : 1 / 32 ≤ |x - y|) : ¬ isclose x y := by
  intro h
  have := isclose_small hx hy h
  linarith

/-- Bounds on the signature fields assumed by the round-trip theorem. -/
def SigPool (sigs : List TimeSignature) : Prop :=
  ∀ ts ∈ sigs, 1 ≤ ts.numerator ∧ ts.numerator ≤ 10000 ∧
    1 ≤ ts.denominator ∧ ts.denominator ≤ 128

theorem barLen_bounds {ts : TimeSignature}
    (h1 : 1 ≤ ts.numerator) (h2 : ts.numerator ≤ 10000)
    (h3 : 1 ≤ ts.denominator) (h4 : ts.denominator ≤ 128) :
    1 / 32 ≤ ts.get_absolute_bar_length ∧ ts.get_absolute_bar_length ≤ 40000 := by
  unfold TimeSignature.get_absolute_bar_length
  have hn1 : (1 : ℚ) ≤ (ts.numerator : ℚ) := by exact_mod_cast h1
  have hn2 : (ts.numerator : ℚ) ≤ 10000 := by exact_mod_cast h2
  have hd1 : (1 : ℚ) ≤ (ts.denominator : ℚ) := by exact_mod_cast h3
  have hd2 : (ts.denominator : ℚ) ≤ 128 := by exact_mod_cast h4
  have hdpos : (0 : ℚ) < (ts.denominator : ℚ) := by linarith
  constructor
  · have hq : (1 : ℚ) / 32 ≤ 4 / (ts.denominator : ℚ) := by
      rw [div_le_div_iff (by norm_num) hdpos]
      linarith
    calc (1 : ℚ) / 32 ≤ 4 / (ts.denominator : ℚ) := hq
      _ = 1 * (4 / (ts.denominator : ℚ)) := (one_mul _).symm
      _ ≤ (ts.numerator : ℚ) * (4 / (ts.denominator : ℚ)) := by
          apply mul_le_mul_of_nonneg_right hn1
          positivity
  · have hq : 4 / (ts.denominator : ℚ) ≤ 4 := by
      rw [div_le_iff hdpos]
      linarith
    calc (ts.numerator : ℚ) * (4 / (ts.denominator : ℚ)) ≤ 10000 * 4 := by
          apply mul_le_mul hn2 hq (by positivity) (by norm_num)
      _ ≤ 40000 := by norm_num

theorem squish_ne_zero {ts : TimeSignature} (h3 : 1 ≤ ts.denominator) :
    ts.get_absolute_tempo_squish_factor ≠ 0 := by
  unfold TimeSignature.get_absolute_tempo_squish_factor
  have hd1 : (1 : ℚ) ≤ (ts.denominator : ℚ) := by exact_mod_cast h3
  positivity

theorem chain_starts {tracks : List (ℕ × Track)} {sigs : List TimeSignature} {sls : ℚ}
    (hpool : SigPool sigs) :
    ∀ (bars : List Bar) (b : ℚ), BarsChain tracks sigs sls b bars → 0 ≤ b →
      ∀ p ∈ barsWithStarts b bars, 0 ≤ p.1 ∧ p.1 < sls ∧ p.2.time_signature ∈ sigs := by
  intro bars
  induction bars with
  | nil => intro b _ _ p hp; exact absurd hp (List.not_mem_nil p)
  | cons bar rest ih =>
    intro b hchain hb p hp
    obtain ⟨hlt, hmem, _, hrest⟩ := hchain
    rw [barsWithStarts] at hp
    rcases List.mem_cons.mp hp with heq | hp2
    · subst heq
      exact ⟨hb, hlt.1, hmem⟩
    · obtain ⟨hts1, _, hts3, _⟩ := hpool bar.time_signature hmem
      have hL := (barLen_bounds hts1 (hpool bar.time_signature hmem).2.1 hts3
        (hpool bar.time_signature hmem).2.2.2).1
      exact ih _ hrest (by linarith) p hp2

/-- The membership predicate: the note beat `β` falls in the bar starting at
`p.1` (with the tolerant boundary comparisons used by the slicer). -/
def barPred (β : ℚ) (p : ℚ × Bar) : Bool :=
  decide (sandwiched p.1 β (p.1 + p.2.time_signature.get_absolute_bar_length))

theorem chain_countP_zero {tracks : List (ℕ × Track)} {sigs : List TimeSignature} {sls : ℚ}
    (hpool : SigPool sigs) (hsls : sls ≤ 1000001) {β : ℚ} (hβ0 : 0 ≤ β) (hβ1 : β ≤ sls - 1) :
    ∀ (bars : List Bar) (s : ℚ), BarsChain tracks sigs sls s bars →
      0 ≤ s → float_lt β s →
      (barsWithStarts s bars).countP (barPred β) = 0 := by
  intro bars
  induction bars with
  | nil => intro s _ _ _; rfl
  | cons bar rest ih =>
    intro s hchain hs hlt
    obtain ⟨hslt, hmem, _, hrest⟩ := hchain
    obtain ⟨hts1, hts2, hts3, hts4⟩ := hpool bar.time_signature hmem
    obtain ⟨hL1, hL2⟩ := barLen_bounds hts1 hts2 hts3 hts4
    rw [barsWithStarts, List.countP_cons]
    have hhead : barPred β (s, bar) = false := by
      rw [barPred, decide_eq_false_iff_not]
      intro hsand
      rcases hsand.1 with h1 | h1
      · exact absurd hlt.1 (not_lt.mpr h1)
      · exact hlt.2 (isclose_symm h1)
    rw [hhead]
    simp only [Bool.false_eq_true, if_false, Nat.add_zero]
    apply ih _ hrest (by linarith)
    constructor
    · linarith [hlt.1]
    · apply isclose_far
      · rw [abs_of_nonneg hβ0]; linarith
      · rw [abs_of_nonneg (by linarith : (0:ℚ) ≤ s + bar.time_signature.get_absolute_bar_length)]
        linarith [hslt.1]
      · rw [abs_of_nonpos (by linarith [hlt.1] :
          β - (s + bar.time_signature.get_absolute_bar_length) ≤ 0)]
        linarith [hlt.1]

theorem chain_countP_one {tracks : List (ℕ × Track)} {sigs : List TimeSignature} {sls : ℚ}
    (hpool : SigPool sigs) (hsls1 : 1 ≤ sls) (hsls : sls ≤ 1000001)
    {β : ℚ} (hβ0 : 0 ≤ β) (hβ1 : β ≤ sls - 1) :
    ∀ (bars : List Bar) (b : ℚ), BarsChain tracks sigs sls b bars →
      0 ≤ b → b ≤ sls + 40000 → float_lte b β →
      (barsWithStarts b bars).countP (barPred β) = 1 := by
  intro bars
  induction bars with
  | nil =>
    intro b hchain hb0 hb1 hlte
    exfalso
    have hend : float_lte sls b := not_float_lt_iff.mp hchain
    have habs_b : |b| ≤ 1100000 := by rw [abs_of_nonneg hb0]; linarith
    have habs_β : |β| ≤ 1100000 := by rw [abs_of_nonneg hβ0]; linarith
    have habs_sls : |sls| ≤ 1100000 := by
      rw [abs_of_nonneg (by linarith)]; linarith
    have h1 : sls ≤ b + 11 / 10000 := by
      rcases hend with h | h
      · linarith
      · have := (abs_le.mp (isclose_small habs_sls habs_b h)).2
        linarith
    have h2 : b ≤ β + 11 / 10000 := by
      rcases hlte with h | h
      · linarith
      · have := (abs_le.mp (isclose_small habs_b habs_β h)).2
        linarith
    linarith
  | cons bar rest ih =>
    intro b hchain hb0 hb1 hlte
    obtain ⟨hblt, hmem, _, hrest⟩ := hchain
    obtain ⟨hts1, hts2, hts3, hts4⟩ := hpool bar.time_signature hmem
    obtain ⟨hL1, hL2⟩ := barLen_bounds hts1 hts2 hts3 hts4
    rw [barsWithStarts, List.countP_cons]
    by_cases hend : float_lt β (b + bar.time_signature.get_absolute_bar_length)
    · have hhead : barPred β (b, bar) = true := by
        rw [barPred, decide_eq_true_eq]
        exact ⟨hlte, hend⟩
      rw [hhead]
      rw [chain_countP_zero hpool hsls hβ0 hβ1 rest _ hrest (by linarith) hend]
      rfl
    · have hhead : barPred β (b, bar) = false := by
        rw [barPred, decide_eq_false_iff_not]
        intro hsand
        exact hend hsand.2
      rw [hhead]
      simp only [Bool.false_eq_true, if_false, Nat.add_zero]
      exact ih _ hrest (by linarith) (by linarith [hblt.1]) (not_float_lt_iff.mp hend)

def barTransform (pr : ℕ × Track) (p : ℚ × Bar) : Track :=
  ((pr.2.slice_with_time_signature p.1 (p.1 + p.2.time_signature.get_absolute_bar_length)
    p.2.time_signature).scale
      (1 / p.2.time_signature.get_absolute_tempo_squish_factor)).offset p.1

def regStep (st : List (ℕ × List Track) × ℚ) (b : Bar) : List (ℕ × List Track) × ℚ :=
  (b.tracks.foldl
    (fun agg pr =>
      aggAdd agg pr.1
        ((pr.2.scale (1 / b.time_signature.get_absolute_tempo_squish_factor)).offset st.2))
    st.1,
   st.2 + b.time_signature.get_absolute_bar_length)

def collapseTracks (l : List Track) : Track :=
  l.foldl (fun acc t => (⟨acc.notes ++ t.notes, t.track_name⟩ : Track)) (⟨[], ""⟩ : Track)

theorem to_regular_eq (bmr : BarMidiRepresentation) :
    bmr.to_regular_midi_representation =
      ⟨((bmr.bars.foldl regStep ([], 0)).1).map (fun pr => (pr.1, collapseTracks pr.2)),
       bmr.channel_instrument_map, bmr.bpm_changes, bmr.time_signature_changes⟩ := rfl

theorem keyed_unique {α β : Type} {l : List (α × β)}
    (hnd : (l.map Prod.fst).Nodup) {x y : α × β} (hx : x ∈ l) (hy : y ∈ l)
    (hk : x.1 = y.1) : x = y := by
  induction l with
  | nil => exact absurd hx (List.not_mem_nil x)
  | cons a l ih =>
    rw [List.map_cons, List.nodup_cons] at hnd
    rcases List.mem_cons.mp hx with hx1 | hx1 <;> rcases List.mem_cons.mp hy with hy1 | hy1
    · rw [hx1, hy1]
    · exfalso
      apply hnd.1
      rw [← hx1, hk]
      exact List.mem_map_of_mem Prod.fst hy1
    · exfalso
      apply hnd.1
      rw [← hy1, ← hk]
      exact List.mem_map_of_mem Prod.fst hx1
    · exact ih hnd.2 hx1 hy1

theorem foldl_aggAdd_present (ts : List (ℕ × Track)) (hnd : (ts.map Prod.fst).Nodup)
    (F : ℕ × Track → Track) :
    ∀ (toProc : List (ℕ × Track)) (h : ℕ × Track → List Track),
      (∀ pr ∈ toProc, pr ∈ ts) → (toProc.map Prod.fst).Nodup →
      toProc.foldl (fun agg pr => aggAdd agg pr.1 (F pr))
          (ts.map (fun pr => (pr.1, h pr))) =
        ts.map (fun pr =>
          (pr.1, if pr.1 ∈ toProc.map Prod.fst then h pr ++ [F pr] else h pr)) := by
  intro toProc
  induction toProc with
  | nil =>
    intro h _ _
    simp only [List.foldl_nil, List.map_nil, List.not_mem_nil, if_false]
  | cons q rest ih =>
    intro h hsub hpnd
    rw [List.foldl_cons]
    have hq : q ∈ ts := hsub q (List.mem_cons_self q rest)
    have hqmem : q.1 ∈ ts.map Prod.fst := List.mem_map_of_mem Prod.fst hq
    rw [List.map_cons, List.nodup_cons] at hpnd
    have hstep : aggAdd (ts.map (fun pr => (pr.1, h pr))) q.1 (F q) =
        ts.map (fun pr =>
          (pr.1, if pr.1 = q.1 then h pr ++ [F q] else h pr)) := by
      rw [aggAdd]
      have hcont : ((ts.map (fun pr => (pr.1, h pr))).map Prod.fst).contains q.1 = true := by
        apply List.elem_eq_true_of_mem
        rw [List.map_map]
        exact hqmem
      rw [if_pos hcont, List.map_map]
      apply List.map_congr_left
      intro pr _
      by_cases hc : pr.1 = q.1
      · rw [Function.comp_apply, if_pos hc, if_pos hc]
      · rw [Function.comp_apply, if_neg hc, if_neg hc]
    rw [hstep]
    rw [ih (fun pr => if pr.1 = q.1 then h pr ++ [F q] else h pr)
      (fun pr hpr => hsub pr (List.mem_cons_of_mem q hpr)) hpnd.2]
    apply List.map_congr_left
    intro pr hpr
    by_cases hc : pr.1 = q.1
    · have hpq : pr = q := keyed_unique hnd hpr hq hc
      have hnr : pr.1 ∉ rest.map Prod.fst := by rw [hc]; exact hpnd.1
      rw [if_neg hnr, if_pos hc,
        if_pos (by rw [List.map_cons]; exact List.mem_cons.mpr (Or.inl hc))]
      rw [hpq]
    · rw [if_neg hc]
      have hiff : pr.1 ∈ (q :: rest).map Prod.fst ↔ pr.1 ∈ rest.map Prod.fst := by
        rw [List.map_cons, List.mem_cons]
        exact ⟨fun hor => hor.resolve_left hc, Or.inr⟩
      by_cases hm : pr.1 ∈ rest.map Prod.fst
      · rw [if_pos hm, if_pos (hiff.mpr hm)]
      · rw [if_neg hm, if_neg (fun hx => hm (hiff.mp hx))]

theorem foldl_aggAdd_absent (F : ℕ × Track → Track) :
    ∀ (toProc : List (ℕ × Track)) (done : List (ℕ × List Track)),
      (toProc.map Prod.fst).Nodup →
      (∀ pr ∈ toProc, pr.1 ∉ done.map Prod.fst) →
      toProc.foldl (fun agg pr => aggAdd agg pr.1 (F pr)) done =
        done ++ toProc.map (fun pr => (pr.1, [F pr])) := by
  intro toProc
  induction toProc with
  | nil =>
    intro done _ _
    rw [List.foldl_nil, List.map_nil, List.append_nil]
  | cons q rest ih =>
    intro done hnd hdis
    rw [List.foldl_cons]
    rw [List.map_cons, List.nodup_cons] at hnd
    have hstep : aggAdd done q.1 (F q) = done ++ [(q.1, [F q])] := by
      rw [aggAdd]
      have hcont : (done.map Prod.fst).contains q.1 = false := by
        simp [List.contains, hdis q (List.mem_cons_self q rest)]
      rw [hcont]
      simp only [Bool.false_eq_true, if_false]
    rw [hstep]
    rw [ih (done ++ [(q.1, [F q])]) hnd.2 ?_]
    · rw [List.map_cons, List.append_assoc, List.singleton_append]
    · intro pr hpr hmem
      rw [List.map_append, List.mem_append] at hmem
      rcases hmem with hm | hm
      · exact hdis pr (List.mem_cons_of_mem q hpr) hm
      · apply hnd.1
        have : pr.1 = q.1 := by
          simpa using hm
        rw [← this]
        exact List.mem_map_of_mem Prod.fst hpr

theorem barsFold_map (tracks : List (ℕ × Track)) (hnd : (tracks.map Prod.fst).Nodup)
    {sigs : List TimeSignature} {sls : ℚ} :
    ∀ (bars : List Bar) (b : ℚ), BarsChain tracks sigs sls b bars →
      ∀ (g : ℕ × Track → List Track),
      bars.foldl regStep (tracks.map (fun pr => (pr.1, g pr)), b) =
        (tracks.map (fun pr =>
          (pr.1, g pr ++ (barsWithStarts b bars).map (barTransform pr))),
         barsEnd b bars) := by
  intro bars
  induction bars with
  | nil =>
    intro b _ g
    rw [List.foldl_nil, barsWithStarts, barsEnd]
    simp only [List.map_nil, List.append_nil]
  | cons bar rest ih =>
    intro b hchain g
    obtain ⟨_, _, htr, hrest⟩ := hchain
    rw [List.foldl_cons]
    have hstep : regStep (tracks.map (fun pr => (pr.1, g pr)), b) bar =
        (tracks.map (fun pr => (pr.1, g pr ++ [barTransform pr (b, bar)])),
         b + bar.time_signature.get_absolute_bar_length) := by
      rw [regStep, htr, List.foldl_map]
      refine Prod.ext ?_ rfl
      have := foldl_aggAdd_present tracks hnd
        (fun pr => barTransform pr (b, bar)) tracks g (fun pr hpr => hpr) hnd
      refine Eq.trans ?_ (this.trans ?_)
      · rfl
      · apply List.map_congr_left
        intro pr hpr
        rw [if_pos (List.mem_map_of_mem Prod.fst hpr)]
    rw [hstep]
    rw [ih _ hrest (fun pr => g pr ++ [barTransform pr (b, bar)])]
    rw [barsWithStarts, barsEnd]
    refine Prod.ext ?_ rfl
    apply List.map_congr_left
    intro pr _
    rw [List.map_cons, List.append_assoc, List.singleton_append]

theorem barsFold_full (tracks : List (ℕ × Track)) (hnd : (tracks.map Prod.fst).Nodup)
    {sigs : List TimeSignature} {sls : ℚ} (bar : Bar) (rest : List Bar)
    (hchain : BarsChain tracks sigs sls 0 (bar :: rest)) :
    ((bar :: rest).foldl regStep ([], 0)).1 =
      tracks.map (fun pr =>
        (pr.1, (barsWithStarts 0 (bar :: rest)).map (barTransform pr))) := by
  obtain ⟨_, _, htr, hrest⟩ := hchain
  rw [List.foldl_cons]
  have hstep : regStep ([], 0) bar =
      (tracks.map (fun pr => (pr.1, [barTransform pr (0, bar)])),
       0 + bar.time_signature.get_absolute_bar_length) := by
    rw [regStep, htr, List.foldl_map]
    refine Prod.ext ?_ rfl
    have := foldl_aggAdd_absent (fun pr => barTransform pr (0, bar)) tracks [] hnd
      (fun pr _ hm => absurd hm (by simp))
    refine Eq.trans ?_ (this.trans ?_)
    · rfl
    · rw [List.nil_append]
  rw [hstep]
  rw [barsFold_map tracks hnd _ _ hrest (fun pr => [barTransform pr (0, bar)])]
  rw [barsWithStarts]
  apply List.map_congr_left
  intro pr _
  rw [List.map_cons, List.singleton_append]

theorem collapseTracks_notes (l : List Track) :
    (collapseTracks l).notes = (l.map Track.notes).flatten := by
  have aux : ∀ (l2 : List Track) (acc : Track),
      (l2.foldl (fun acc t => (⟨acc.notes ++ t.notes, t.track_name⟩ : Track)) acc).notes =
        acc.notes ++ (l2.map Track.notes).flatten := by
    intro l2
    induction l2 with
    | nil => intro acc; simp
    | cons t l2 ih =>
      intro acc
      rw [List.foldl_cons, ih, List.map_cons, List.flatten]
      simp [List.append_assoc]
  rw [collapseTracks, aux]
  rfl

theorem clamp_beat {sq : ℚ} (hsq : sq ≠ 0) (s β : ℚ) :
    (max 0 (β - s) * sq) * (1 / sq) + s = max s β := by
  rw [mul_assoc, mul_one_div, div_self hsq, mul_one]
  rcases le_total s β with h | h
  · rw [max_eq_right (by linarith : (0:ℚ) ≤ β - s), max_eq_right h]
    ring
  · rw [max_eq_left (by linarith : β - s ≤ 0), max_eq_left h]
    ring

theorem barTransform_notes (pr : ℕ × Track) (s : ℚ) (bar : Bar)
    (hsq : bar.time_signature.get_absolute_tempo_squish_factor ≠ 0) :
    (barTransform pr (s, bar)).notes =
      (pr.2.notes.filter (fun n => decide (sandwiched s n.beat
        (s + bar.time_signature.get_absolute_bar_length)))).map
        (fun n => { n with beat := max s n.beat }) := by
  rw [barTransform, Track.offset, Track.scale, Track.slice_with_time_signature]
  simp only [List.map_map]
  apply List.map_congr_left
  intro n _
  simp only [Function.comp_apply]
  rw [Note.mk.injEq]
  refine ⟨rfl, rfl, rfl, ?_, rfl⟩
  exact clamp_beat hsq s n.beat

theorem countP_one_decomp {α : Type} (p : α → Bool) (l : List α) (h : l.countP p = 1) :
    ∃ l1 c l2, l = l1 ++ c :: l2 ∧ p c = true ∧
      (∀ x ∈ l1, ¬ p x = true) ∧ (∀ x ∈ l2, ¬ p x = true) := by
  rcases exists_first_decompP (fun x => p x = true) l with hall | ⟨l1, c, l2, heq, hl1, hc⟩
  · exfalso
    rw [List.countP_eq_zero.mpr hall] at h
    exact Nat.noConfusion h
  · refine ⟨l1, c, l2, heq, hc, hl1, ?_⟩
    rw [heq, List.countP_append, List.countP_cons, List.countP_eq_zero.mpr hl1, hc] at h
    simp only [if_true, Nat.zero_add] at h
    exact List.countP_eq_zero.mp (by omega)

theorem forall₂_split_right {α β : Type} {R : α → β → Prop} :
    ∀ (a b : List β) (u : List α), List.Forall₂ R u (a ++ b) →
      ∃ u1 u2, u = u1 ++ u2 ∧ List.Forall₂ R u1 a ∧ List.Forall₂ R u2 b := by
  intro a
  induction a with
  | nil =>
    intro b u h
    exact ⟨[], u, rfl, List.Forall₂.nil, h⟩
  | cons x a ih =>
    intro b u h
    cases h with
    | cons hrel htail =>
      obtain ⟨u1, u2, hu, h1, h2⟩ := ih b _ htail
      exact ⟨_ :: u1, u2, by rw [hu]; rfl, List.Forall₂.cons hrel h1, h2⟩

theorem join_filter_map_rel {α β γ : Type} (R : α → β → Prop)
    (p : γ → α → Bool) (f : γ → α → β) :
    ∀ (l : List α) (ps : List γ),
      (∀ x ∈ l, ps.countP (fun c => p c x) = 1) →
      (∀ c ∈ ps, ∀ x ∈ l, p c x = true → R x (f c x)) →
      ∃ l2, l.Perm l2 ∧
        List.Forall₂ R l2 ((ps.map (fun c => (l.filter (p c)).map (f c))).flatten) := by
  intro l
  induction l with
  | nil =>
    intro ps _ _
    refine ⟨[], List.Perm.refl [], ?_⟩
    have : ps.map (fun c => (([] : List α).filter (p c)).map (f c)) =
        ps.map (fun _ => ([] : List β)) := by
      apply List.map_congr_left
      intro c _
      rw [List.filter_nil, List.map_nil]
    rw [this]
    have hjoin : (ps.map (fun _ => ([] : List β))).flatten = [] := by simp
    rw [hjoin]
    exact List.Forall₂.nil
  | cons x l ih =>
    intro ps hcount hR
    obtain ⟨ps1, cs, ps2, hps, hpcs, hps1, hps2⟩ :=
      countP_one_decomp (fun c => p c x) ps (hcount x (List.mem_cons_self x l))
    have hcount2 : ∀ y ∈ l, ps.countP (fun c => p c y) = 1 :=
      fun y hy => hcount y (List.mem_cons_of_mem x hy)
    have hR2 : ∀ c ∈ ps, ∀ y ∈ l, p c y = true → R y (f c y) :=
      fun c hc y hy hp => hR c hc y (List.mem_cons_of_mem x hy) hp
    obtain ⟨l2, hperm, hfa⟩ := ih ps hcount2 hR2
    rw [hps] at hfa
    rw [List.map_append, List.map_cons, List.flatten_append, List.flatten_cons] at hfa
    obtain ⟨u1, u2, hu, h1, h2⟩ := forall₂_split_right _ _ _ hfa
    subst hu
    refine ⟨u1 ++ x :: u2, ?_, ?_⟩
    · exact (hperm.cons x).trans List.perm_middle.symm
    · rw [hps, List.map_append, List.map_cons, List.flatten_append, List.flatten_cons]
      have e1 : ps1.map (fun c => ((x :: l).filter (p c)).map (f c)) =
          ps1.map (fun c => (l.filter (p c)).map (f c)) := by
        apply List.map_congr_left
        intro c hc
        rw [List.filter_cons_of_neg (hps1 c hc)]
      have e2 : ps2.map (fun c => ((x :: l).filter (p c)).map (f c)) =
          ps2.map (fun c => (l.filter (p c)).map (f c)) := by
        apply List.map_congr_left
        intro c hc
        rw [List.filter_cons_of_neg (hps2 c hc)]
      rw [e1, e2, List.filter_cons_of_pos hpcs, List.map_cons]
      apply List.rel_append h1
      exact List.Forall₂.cons
        (hR cs (by rw [hps]; exact List.mem_append.mpr (Or.inr (List.mem_cons_self cs ps2)))
          x (List.mem_cons_self x l) hpcs) h2

theorem notes_max_fold_bound (notes : List Note) :
    ∀ acc : ℤ, acc ≤ notes.foldl (fun h n => max h ⌈n.beat + n.duration⌉) acc ∧
      ∀ n ∈ notes, ⌈n.beat + n.duration⌉ ≤
        notes.foldl (fun h n => max h ⌈n.beat + n.duration⌉) acc := by
  induction notes with
  | nil =>
    intro acc
    exact ⟨le_refl acc, fun n hn => absurd hn (List.not_mem_nil n)⟩
  | cons m notes ih =>
    intro acc
    rw [List.foldl_cons]
    refine ⟨le_trans (le_max_left _ _) (ih _).1, ?_⟩
    intro n hn
    rcases List.mem_cons.mp hn with heq | hn2
    · subst heq
      exact le_trans (le_max_right _ _) (ih _).1
    · exact (ih _).2 n hn2

theorem song_length_bounds (mr : MidiRepresentation) :
    0 ≤ mr.get_song_length ∧
      ∀ pr ∈ mr.tracks, ∀ n ∈ pr.2.notes, ⌈n.beat + n.duration⌉ ≤ mr.get_song_length := by
  rw [MidiRepresentation.get_song_length]
  have main : ∀ (trs : List (ℕ × Track)) (acc : ℤ),
      acc ≤ trs.foldl
        (fun acc p => p.2.notes.foldl (fun h n => max h ⌈n.beat + n.duration⌉) acc) acc ∧
      ∀ pr ∈ trs, ∀ n ∈ pr.2.notes, ⌈n.beat + n.duration⌉ ≤
        trs.foldl
          (fun acc p => p.2.notes.foldl (fun h n => max h ⌈n.beat + n.duration⌉) acc) acc := by
    intro trs
    induction trs with
    | nil =>
      intro acc
      exact ⟨le_refl acc, fun pr hpr => absurd hpr (List.not_mem_nil pr)⟩
    | cons q trs ih =>
      intro acc
      rw [List.foldl_cons]
      refine ⟨le_trans (notes_max_fold_bound q.2.notes acc).1 (ih _).1, ?_⟩
      intro pr hpr n hn
      rcases List.mem_cons.mp hpr with heq | hpr2
      · subst heq
        exact le_trans ((notes_max_fold_bound pr.2.notes acc).2 n hn) (ih _).1
      · exact (ih _).2 pr hpr2 n hn
  exact ⟨(main mr.tracks 0).1, (main mr.tracks 0).2⟩

theorem forall₂_map_self {α β : Type} (R : α → β → Prop) (f : α → β) :
    ∀ (l : List α), (∀ x ∈ l, R x (f x)) → List.Forall₂ R l (l.map f) := by
  intro l
  induction l with
  | nil => intro _; exact List.Forall₂.nil
  | cons x l ih =>
    intro h
    rw [List.map_cons]
    exact List.Forall₂.cons (h x (List.mem_cons_self x l))
      (ih fun y hy => h y (List.mem_cons_of_mem x hy))

/-- C1 (amended): provided `generate_bars` succeeds (it crashes when there are
no tempo changes), track keys are distinct, the signature fields are in sane
ranges, notes have nonnegative beats and durations, and the song is at most
10^6 beats long, reassembling the bar decomposition reproduces every track:
the reassembled representation has the same track keys, and each track's note
list is a permutation of the original with channel, pitch, velocity and
duration preserved exactly and each beat moved by at most 1/96 (the note
captured across a bar boundary by the tolerant comparison is clamped up to
the bar start, a shift below the float-comparison tolerance). -/
theorem C1_bar_roundtrip (mr : MidiRepresentation) (bmr : BarMidiRepresentation)
    (hnd : (mr.tracks.map Prod.fst).Nodup)
    (hsig : ∀ ts ∈ mr.time_signature_changes,
      1 ≤ ts.numerator ∧ ts.numerator ≤ 10000 ∧ 1 ≤ ts.denominator ∧ ts.denominator ≤ 128)
    (hnotes : ∀ pr ∈ mr.tracks, ∀ n ∈ pr.2.notes, 0 ≤ n.beat ∧ 0 ≤ n.duration)
    (hlen : mr.get_song_length ≤ 1000000)
    (hgen : generate_bar_midi_representation mr = some bmr) :
    bmr.to_regular_midi_representation.tracks.map Prod.fst = mr.tracks.map Prod.fst ∧
    List.Forall₂ (fun pr qr : ℕ × Track =>
      ∃ l2, pr.2.notes.Perm l2 ∧
        List.Forall₂ (fun n n2 : Note =>
          n2.channel = n.channel ∧ n2.note = n.note ∧ n2.velocity = n.velocity ∧
          n2.duration = n.duration ∧ |n2.beat - n.beat| ≤ 1 / 96) l2 qr.2.notes)
      mr.tracks bmr.to_regular_midi_representation.tracks := by
  rw [generate_bar_midi_representation] at hgen
  obtain ⟨bars, hbars, hbmr⟩ := Option.map_eq_some'.mp hgen
  subst hbmr
  simp only [MidiRepresentation.generate_bars] at hbars
  rcases hsortEq : sortByQ (fun s => s.beat) mr.bpm_changes with _ | ⟨t, ts⟩
  · rw [hsortEq] at hbars
    exact Option.noConfusion hbars
  rw [hsortEq] at hbars
  -- the signature pool and its bounds
  have hpool : SigPool (if sortByQ (fun s => s.beat) mr.time_signature_changes = []
      then [generate_4_4_time_sig] else sortByQ (fun s => s.beat) mr.time_signature_changes) := by
    intro ts2 hts2
    by_cases hsc : sortByQ (fun s => s.beat) mr.time_signature_changes = []
    · rw [if_pos hsc] at hts2
      rcases List.mem_singleton.mp hts2 with rfl
      exact ⟨by norm_num [generate_4_4_time_sig], by norm_num [generate_4_4_time_sig],
        by norm_num [generate_4_4_time_sig], by norm_num [generate_4_4_time_sig]⟩
    · rw [if_neg hsc] at hts2
      exact hsig ts2 ((sortByQ_perm (fun s => s.beat) mr.time_signature_changes).mem_iff.mp hts2)
  have hsiglen : 0 < (if sortByQ (fun s => s.beat) mr.time_signature_changes = []
      then [generate_4_4_time_sig] else sortByQ (fun s => s.beat)
        mr.time_signature_changes).length := by
    by_cases hsc : sortByQ (fun s => s.beat) mr.time_signature_changes = []
    · rw [if_pos hsc]; exact Nat.zero_lt_one
    · rw [if_neg hsc]
      exact List.length_pos.mpr hsc
  have hchain := genBarsLoop_chain mr.tracks _ _ _ _ _ _ _ _ _ hbars hsiglen
  -- song-length facts
  obtain ⟨hsl0, hslmem⟩ := song_length_bounds mr
  have hsls1 : (1 : ℚ) ≤ ((mr.get_song_length : ℤ) : ℚ) + 1 := by
    have : (0 : ℚ) ≤ ((mr.get_song_length : ℤ) : ℚ) := by exact_mod_cast hsl0
    linarith
  have hsls2 : ((mr.get_song_length : ℤ) : ℚ) + 1 ≤ 1000001 := by
    have : ((mr.get_song_length : ℤ) : ℚ) ≤ 1000000 := by exact_mod_cast hlen
    linarith
  -- the produced bar list is nonempty
  rcases bars with _ | ⟨bar, rest⟩
  · exfalso
    apply hchain
    constructor
    · linarith
    · intro hclose
      have := isclose_small (by norm_num) (by
        rw [abs_of_nonneg (by linarith)]; linarith) hclose
      rw [zero_sub, abs_neg, abs_of_nonneg (by linarith)] at this
      linarith
  -- reassembly: fold characterization
  have hfold := barsFold_full mr.tracks hnd bar rest hchain
  rw [to_regular_eq]
  have htracks : ((((bar :: rest).foldl regStep ([], 0)).1).map
      (fun pr => (pr.1, collapseTracks pr.2))) =
      mr.tracks.map (fun pr => (pr.1,
        collapseTracks ((barsWithStarts 0 (bar :: rest)).map (barTransform pr)))) := by
    rw [hfold, List.map_map]
    rfl
  rw [htracks]
  constructor
  · rw [List.map_map]
    rfl
  · apply forall₂_map_self
    intro pr hpr
    -- per-track: notes of the collapsed reassembled track
    have hsq : ∀ p ∈ barsWithStarts 0 (bar :: rest),
        p.2.time_signature.get_absolute_tempo_squish_factor ≠ 0 := by
      intro p hp
      have hmem := (chain_starts hpool _ _ hchain (le_refl 0) p hp).2.2
      exact squish_ne_zero (hpool _ hmem).2.2.1
    have hnotes2 : (collapseTracks ((barsWithStarts 0 (bar :: rest)).map (barTransform pr))).notes
        = ((barsWithStarts 0 (bar :: rest)).map (fun sb =>
            (pr.2.notes.filter (fun n => decide (sandwiched sb.1 n.beat
              (sb.1 + sb.2.time_signature.get_absolute_bar_length)))).map
              (fun n => { n with beat := max sb.1 n.beat }))).flatten := by
      rw [collapseTracks_notes, List.map_map]
      congr 1
      apply List.map_congr_left
      intro sb hsb
      have := barTransform_notes pr sb.1 sb.2 (hsq sb hsb)
      rw [Function.comp_apply, ← this]
    rw [hnotes2]
    apply join_filter_map_rel
      (fun n n2 : Note =>
        n2.channel = n.channel ∧ n2.note = n.note ∧ n2.velocity = n.velocity ∧
        n2.duration = n.duration ∧ |n2.beat - n.beat| ≤ 1 / 96)
      (fun sb n => decide (sandwiched sb.1 n.beat
        (sb.1 + sb.2.time_signature.get_absolute_bar_length)))
      (fun sb n => { n with beat := max sb.1 n.beat })
      pr.2.notes (barsWithStarts 0 (bar :: rest))
    · -- every note lands in exactly one bar
      intro n hn
      obtain ⟨hb0, hd0⟩ := hnotes pr hpr n hn
      have hble : n.beat ≤ ((mr.get_song_length : ℤ) : ℚ) := by
        have h1 := hslmem pr hpr n hn
        have h2 : ((⌈n.beat + n.duration⌉ : ℤ) : ℚ) ≤ ((mr.get_song_length : ℤ) : ℚ) := by
          exact_mod_cast h1
        have h3 := Int.le_ceil (n.beat + n.duration)
        linarith
      exact chain_countP_one hpool hsls1 hsls2 hb0 (by linarith) _ _ hchain
        (le_refl 0) (by linarith) (Or.inl hb0)
    · -- the clamped note is within tolerance
      intro sb hsb n hn hpn
      refine ⟨rfl, rfl, rfl, rfl, ?_⟩
      obtain ⟨hs0, hslt, _⟩ := chain_starts hpool _ _ hchain (le_refl 0) sb hsb
      obtain ⟨hb0, hd0⟩ := hnotes pr hpr n hn
      have hble : n.beat ≤ ((mr.get_song_length : ℤ) : ℚ) := by
        have h1 := hslmem pr hpr n hn
        have h2 : ((⌈n.beat + n.duration⌉ : ℤ) : ℚ) ≤ ((mr.get_song_length : ℤ) : ℚ) := by
          exact_mod_cast h1
        have h3 := Int.le_ceil (n.beat + n.duration)
        linarith
      rcases le_total sb.1 n.beat with hc | hc
      · rw [max_eq_right hc]
        simp only [sub_self, abs_zero]
        norm_num
      · rw [max_eq_left hc]
        have hsand := of_decide_eq_true hpn
        rcases hsand.1 with h | h
        · have : sb.1 = n.beat := le_antisymm h hc
          rw [this, sub_self, abs_zero]
          norm_num
        · have hd := isclose_small
            (by rw [abs_of_nonneg hs0]; linarith)
            (by rw [abs_of_nonneg hb0]; linarith) h
          have := (abs_le.mp hd).2
          rw [abs_of_nonneg (by linarith)]
          linarith

/-- C1 (counterexample): the unguarded claim fails because the decomposition
itself crashes on a representation with no tempo changes, so reassembly
cannot reproduce the notes of every well-formed representation. -/
theorem C1_counterexample :
    generate_bar_midi_representation ⟨[(0, ⟨[⟨0, 60, 64, 0, 1⟩], ""⟩)], [], [], []⟩ = none := by
  decide

def mrC1 : MidiRepresentation := ⟨[(0, ⟨[⟨0, 60, 64, 0, 1⟩], "x"⟩)], [], [⟨0, 100⟩], []⟩

def bmrC1 : BarMidiRepresentation :=
  ⟨[⟨[(0, ⟨[⟨0, 60, 64, 0, 1⟩], "x"⟩)], generate_4_4_time_sig, [⟨0, 100⟩], 120⟩],
   [], [⟨0, 100⟩], []⟩

theorem C1_bar_roundtrip_witness :
    (mrC1.tracks.map Prod.fst).Nodup ∧
    (∀ ts ∈ mrC1.time_signature_changes,
      1 ≤ ts.numerator ∧ ts.numerator ≤ 10000 ∧
      1 ≤ ts.denominator ∧ ts.denominator ≤ 128) ∧
    (∀ pr ∈ mrC1.tracks, ∀ n ∈ pr.2.notes, 0 ≤ n.beat ∧ 0 ≤ n.duration) ∧
    mrC1.get_song_length ≤ 1000000 ∧
    generate_bar_midi_representation mrC1 = some bmrC1 ∧
    (bmrC1.to_regular_midi_representation.tracks.map Prod.fst = mrC1.tracks.map Prod.fst ∧
     List.Forall₂ (fun pr qr : ℕ × Track =>
       ∃ l2, pr.2.notes.Perm l2 ∧
         List.Forall₂ (fun n n2 : Note =>
           n2.channel = n.channel ∧ n2.note = n.note ∧ n2.velocity = n.velocity ∧
           n2.duration = n.duration ∧ |n2.beat - n.beat| ≤ 1 / 96) l2 qr.2.notes)
       mrC1.tracks bmrC1.to_regular_midi_representation.tracks) :=
  ⟨by decide, by decide, by decide, by decide, by decide,
   C1_bar_roundtrip mrC1 bmrC1 (by decide) (by decide) (by decide) (by decide) (by decide)⟩

/-! ## The exporter (representation_to_midi_file, lines 375-443) and the
file-level importer (midi_to_representation, lines 446-509) -/

/-- Python `int()` on a float: truncation toward zero. -/
def pyInt (q : ℚ) : ℤ := if 0 ≤ q then ⌊q⌋ else ⌈q⌉

def string_empty_fallback (s fallback : String) : String :=
  if s = "" then fallback else s

/-- `Counter(channels).most_common(1)[0]`: the channel with the highest
count; `Counter` iterates in first-insertion order and `most_common`'s sort
is stable, so the earliest-seen channel wins ties. -/
def Track.most_used_channel (t : Track) : ℤ :=
  match t.notes with
  | [] => -1
  | _ =>
    let channels := t.notes.map (fun n => n.channel)
    let uniq := channels.foldl (fun acc c => if acc.contains c then acc else acc ++ [c]) []
    match uniq with
    | [] => -1
    | u :: us =>
      us.foldl (fun best c => if channels.count best < channels.count c then c else best) u

/-- `dict.get(k, d)` over the insertion-ordered association list. -/
def assocGetD (m : List (ℤ × ℤ)) (k d : ℤ) : ℤ :=
  match m with
  | [] => d
  | (k2, v) :: rest => if k2 = k then v else assocGetD rest k d

/-- `d[k] = v` on a Python dict: overwrite in place if present, else append. -/
def dictSet (m : List (ℤ × ℤ)) (k v : ℤ) : List (ℤ × ℤ) :=
  if (m.map Prod.fst).contains k then
    m.map (fun p => if p.1 = k then (p.1, v) else p)
  else m ++ [(k, v)]

/-- The set-tempo messages of the exported tempo track (lines 394-402). -/
def tempoLoop : ℤ → List TempoChange → List TimedMsg
  | _, [] => []
  | prev, tc :: rest =>
    let tempo_us := pyInt (60000000 / tc.new_bpm)
    let now := pyInt (tc.beat * 96)
    ⟨now - prev, MidiMsg.set_tempo tempo_us⟩ :: tempoLoop now rest

def tempoTrackMsgs (bpm_changes : List TempoChange) : List TimedMsg :=
  ⟨0, MidiMsg.track_name "Tempo changes"⟩ ::
    tempoLoop 0 (sortByQ (fun s => s.beat) bpm_changes)

/-- The two `MidiEvent`s generated for one note (lines 427-429). -/
def evBlock (n : Note) : List MidiEvent :=
  [⟨n, n.beat, true⟩, ⟨n, n.beat + n.duration, false⟩]

/-- The delta-timed note messages for the time-sorted event list
(lines 432-440). -/
def eventMsgs : ℤ → List MidiEvent → List TimedMsg
  | _, [] => []
  | prev, e :: rest =>
    let time := pyInt (e.event_time * 96)
    ⟨time - prev,
      if e.is_on then MidiMsg.note_on e.note.channel e.note.note e.note.velocity
      else MidiMsg.note_off e.note.channel e.note.note e.note.velocity⟩ ::
      eventMsgs time rest

/-- One exported note track (lines 410-441). -/
def exportNoteTrack (cim : List (ℤ × ℤ)) (track_no : ℕ) (track : Track) : List TimedMsg :=
  let name_msg : TimedMsg := ⟨0, MidiMsg.track_name
    (string_empty_fallback track.track_name ("Unknown Track " ++ toString track_no))⟩
  let ch := track.most_used_channel
  let prog_msgs : List TimedMsg :=
    if 0 ≤ ch then
      let ins := assocGetD cim ch 0
      if 0 ≤ ins then [⟨0, MidiMsg.program_change ch ins⟩] else []
    else []
  let sorted_notes := sortByQ (fun n => n.beat) track.notes
  let sortedEvents := sortByQ (fun e => e.event_time) (sorted_notes.map evBlock).flatten
  name_msg :: (prog_msgs ++ eventMsgs 0 sortedEvents)

/-- `representation_to_midi_file`: tempo track first, then the note tracks
sorted by track index, all re-quantized at 96 ticks per beat. -/
def representation_to_midi_file (mr : MidiRepresentation) : MidiFileRep :=
  ⟨96, tempoTrackMsgs mr.bpm_changes ::
    (sortByQ (fun p => ((p.1 : ℕ) : ℚ)) mr.tracks).map
      (fun p => exportNoteTrack mr.channel_instrument_map p.1 p.2)⟩

/-- `_get_track_names` restricted to one track: the last track-name message
wins (the dict entry for track `i` is overwritten in file order). -/
def trackNameOf (msgs : List TimedMsg) : Option String :=
  msgs.foldl (fun acc tm =>
    match tm.msg with
    | MidiMsg.track_name s => some s
    | _ => acc) none

/-- `_get_channel_to_instrument_mapping` (lines 573-581). -/
def channelToInstrumentMapping (f : MidiFileRep) : List (ℤ × ℤ) :=
  f.tracks.flatten.foldl (fun acc tm =>
    match tm.msg with
    | MidiMsg.program_change ch prog => dictSet acc ch prog
    | _ => acc) []

/-- `_get_time_signature` (lines 544-554): the total time accumulates across
track boundaries. -/
def getTimeSigLoop (tpb : ℤ) : ℤ → List TimedMsg → List TimeSignature
  | _, [] => []
  | tt, tm :: rest =>
    let tt2 := tt + tm.time
    match tm.msg with
    | MidiMsg.time_signature num den =>
      ⟨num, den, (tt2 : ℚ) / (tpb : ℚ)⟩ :: getTimeSigLoop tpb tt2 rest
    | _ => getTimeSigLoop tpb tt2 rest

def getTimeSignature (f : MidiFileRep) : List TimeSignature :=
  getTimeSigLoop f.ticks_per_beat 0 f.tracks.flatten

/-- The per-track import loop of `midi_to_representation` over the enumerated
tracks (`none` models its internal assertions). -/
def importTracksFrom (tpb : ℤ) : ℕ → List (List TimedMsg) → Option (List (ℕ × Track))
  | _, [] => some []
  | i, t :: ts =>
    match importTrackNotes tpb t, importTracksFrom tpb (i + 1) ts with
    | some ns, some rest => some ((i, ⟨ns, (trackNameOf t).getD ""⟩) :: rest)
    | _, _ => none

/-- `midi_to_representation` (lines 446-509), including the final
`clear_empty_tracks`. -/
def midi_to_representation (f : MidiFileRep) : Option MidiRepresentation :=
  (importTracksFrom f.ticks_per_beat 0 f.tracks).map (fun trs =>
    ⟨trs.filter (fun pr => decide (pr.2.notes ≠ [])),
     channelToInstrumentMapping f, midiGetTempoChanges f, getTimeSignature f⟩)

/-- The quantization applied by exporting at 96 ticks per beat and importing
back: the on tick is `int(96*beat)` and the off tick `int(96*(beat+duration))`. -/
def qNote (n : Note) : Note :=
  ⟨n.channel, n.note, n.velocity, ((pyInt (n.beat * 96) : ℤ) : ℚ) / 96,
    ((pyInt ((n.beat + n.duration) * 96) - pyInt (n.beat * 96) : ℤ) : ℚ) / 96⟩

def fileC2 : MidiFileRep :=
  ⟨9600, [[⟨0, MidiMsg.note_on 0 60 64⟩, ⟨1, MidiMsg.note_off 0 60 64⟩,
    ⟨4, MidiMsg.note_on 0 60 64⟩, ⟨9595, MidiMsg.note_off 0 60 64⟩]]⟩

def mrC2A : MidiRepresentation :=
  ⟨[(0, ⟨[⟨0, 60, 64, 0, 1/9600⟩, ⟨0, 60, 64, 5/9600, 9595/9600⟩], ""⟩)], [], [], []⟩

def mrC2B : MidiRepresentation :=
  ⟨[(1, ⟨[⟨0, 60, 64, 0, 0⟩, ⟨0, 60, 64, 0, 1⟩], "Unknown Track 0"⟩)],
   [(0, 0)], [], []⟩

/-- C2 (counterexample): at 9600 ticks per beat, the file importing to notes
(beat 0, duration 1/9600) and (beat 5/9600, duration 9595/9600) has no tempo
or time-signature changes, yet after export (which re-quantizes to 96 ticks
per beat) and re-import the second note becomes (beat 0, duration 1): its
beat moved by 5/9600 and its duration by 5/9600, both beyond the claimed
1/ticks_per_beat = 1/9600 tolerance. -/
theorem C2_counterexample :
    midi_to_representation fileC2 = some mrC2A ∧
    midi_to_representation (representation_to_midi_file mrC2A) = some mrC2B ∧
    fileC2.ticks_per_beat = 9600 ∧
    (∃ n ∈ (mrC2A.tracks.map (fun pr => pr.2.notes)).flatten,
      ∀ n2 ∈ (mrC2B.tracks.map (fun pr => pr.2.notes)).flatten,
        ¬(n2.channel = n.channel ∧ n2.note = n.note ∧ n2.velocity = n.velocity ∧
          |n2.beat - n.beat| ≤ 1 / 9600 ∧ |n2.duration - n.duration| ≤ 1 / 9600)) := by
  refine ⟨by decide, by decide, rfl, ⟨0, 60, 64, 5/9600, 9595/9600⟩, by decide, by decide⟩

theorem insertByQ_pairwise {α : Type} (f : α → ℚ) (x : α) :
    ∀ (l : List α), List.Pairwise (fun a b => f a ≤ f b) l →
      List.Pairwise (fun a b => f a ≤ f b) (insertByQ f x l) := by
  intro l
  induction l with
  | nil => intro _; exact List.pairwise_singleton _ x
  | cons y rest ih =>
    intro hp
    rw [List.pairwise_cons] at hp
    rw [insertByQ]
    by_cases hc : f y ≤ f x
    · rw [if_pos hc]
      rw [List.pairwise_cons]
      refine ⟨?_, ih hp.2⟩
      intro z hz
      rcases List.mem_cons.mp ((insertByQ_perm f x rest).mem_iff.mp hz) with hz1 | hz1
      · subst hz1; exact hc
      · exact hp.1 z hz1
    · rw [if_neg hc]
      rw [List.pairwise_cons]
      refine ⟨?_, List.pairwise_cons.mpr hp⟩
      intro z hz
      rcases List.mem_cons.mp hz with hz1 | hz1
      · subst hz1; linarith [lt_of_not_le hc]
      · linarith [lt_of_not_le hc, hp.1 z hz1]

theorem insertByQ_of_ge {α : Type} (f : α → ℚ) (x : α) :
    ∀ (l : List α), (∀ y ∈ l, f y ≤ f x) → insertByQ f x l = l ++ [x] := by
  intro l
  induction l with
  | nil => intro _; rfl
  | cons y rest ih =>
    intro h
    rw [insertByQ, if_pos (h y (List.mem_cons_self y rest)),
      ih (fun z hz => h z (List.mem_cons_of_mem y hz))]
    rfl

theorem insertByQ_front {α : Type} (f : α → ℚ) (x : α) :
    ∀ (l : List α), (∀ y ∈ l, ¬ (f y ≤ f x)) → insertByQ f x l = x :: l := by
  intro l
  cases l with
  | nil => intro _; rfl
  | cons y rest =>
    intro h
    rw [insertByQ, if_neg (h y (List.mem_cons_self y rest))]

theorem filter_insertByQ {α : Type} (f : α → ℚ) (p : α → Bool) (x : α) :
    ∀ (l : List α), List.Pairwise (fun a b => f a ≤ f b) l →
      (insertByQ f x l).filter p =
        if p x then insertByQ f x (l.filter p) else l.filter p := by
  intro l
  induction l with
  | nil =>
    intro _
    rw [insertByQ, List.filter_nil]
    by_cases hp : p x
    · rw [if_pos hp]
      simp [List.filter, insertByQ, hp]
    · rw [if_neg hp]
      simp only [Bool.not_eq_true] at hp
      simp [List.filter, hp]
  | cons y rest ih =>
    intro hsort
    rw [List.pairwise_cons] at hsort
    rw [insertByQ]
    by_cases hc : f y ≤ f x
    · rw [if_pos hc]
      by_cases hp : p y
      · rw [List.filter_cons_of_pos hp, List.filter_cons_of_pos hp, ih hsort.2]
        by_cases hpx : p x
        · rw [if_pos hpx, if_pos hpx, insertByQ, if_pos hc]
        · rw [if_neg hpx, if_neg hpx]
      · rw [List.filter_cons_of_neg (by simpa using hp),
          List.filter_cons_of_neg (by simpa using hp), ih hsort.2]
    · rw [if_neg hc]
      by_cases hpx : p x
      · rw [List.filter_cons_of_pos hpx, if_pos hpx]
        rw [insertByQ_front f x (List.filter p (y :: rest)) ?_]
        intro z hz
        have hz2 := List.mem_of_mem_filter hz
        rcases List.mem_cons.mp hz2 with hz3 | hz3
        · subst hz3; exact hc
        · intro hle
          exact hc (le_trans (hsort.1 z hz3) hle)
      · rw [List.filter_cons_of_neg (by simpa using hpx), if_neg hpx]

theorem sortByQ_filter {α : Type} (f : α → ℚ) (p : α → Bool) :
    ∀ (l acc : List α), List.Pairwise (fun a b => f a ≤ f b) acc →
      (l.foldl (fun a x => insertByQ f x a) acc).filter p =
        (l.filter p).foldl (fun a x => insertByQ f x a) (acc.filter p) := by
  intro l
  induction l with
  | nil => intro acc _; rfl
  | cons x rest ih =>
    intro acc hsort
    rw [List.foldl_cons, ih (insertByQ f x acc) (insertByQ_pairwise f x acc hsort),
      filter_insertByQ f p x acc hsort]
    by_cases hpx : p x
    · rw [if_pos hpx, List.filter_cons_of_pos hpx, List.foldl_cons]
    · rw [if_neg hpx, List.filter_cons_of_neg (by simpa using hpx)]

theorem filter_sortByQ {α : Type} (f : α → ℚ) (p : α → Bool) (l : List α) :
    (sortByQ f l).filter p = sortByQ f (l.filter p) := by
  rw [sortByQ, sortByQ, sortByQ_filter f p l [] List.Pairwise.nil]
  rfl

theorem sortByQ_eq_self_aux {α : Type} (f : α → ℚ) :
    ∀ (l acc : List α), List.Pairwise (fun a b => f a ≤ f b) (acc ++ l) →
      l.foldl (fun a x => insertByQ f x a) acc = acc ++ l := by
  intro l
  induction l with
  | nil => intro acc _; rw [List.foldl_nil, List.append_nil]
  | cons x rest ih =>
    intro acc hsort
    rw [List.foldl_cons]
    have hins : insertByQ f x acc = acc ++ [x] := by
      apply insertByQ_of_ge
      intro y hy
      exact (List.pairwise_append.mp hsort).2.2 y hy x (List.mem_cons_self x rest)
    rw [hins, ih (acc ++ [x]) (by rw [List.append_assoc, List.singleton_append]; exact hsort)]
    rw [List.append_assoc, List.singleton_append]

theorem sortByQ_eq_self {α : Type} (f : α → ℚ) (l : List α)
    (hsort : List.Pairwise (fun a b => f a ≤ f b) l) : sortByQ f l = l := by
  rw [sortByQ, sortByQ_eq_self_aux f l [] hsort]
  rfl

def eKey (e : MidiEvent) : ℤ × ℤ := (e.note.note, e.note.channel)

/-- The per-key well-formedness carried through the re-import induction:
the notes of one (pitch, channel) key, in order, have nonnegative beats and
durations and each note ends at or before the next one starts (`lb` bounds
the first onset from below). -/
def GoodChain (k : ℤ × ℤ) : ℚ → List Note → Prop
  | _, [] => True
  | lb, n :: rest =>
    (n.note, n.channel) = k ∧ lb ≤ n.beat ∧ 0 ≤ n.beat ∧ 0 ≤ n.duration ∧
      GoodChain k (n.beat + n.duration) rest

theorem goodChain_intro (k : ℤ × ℤ) :
    ∀ (ns : List Note) (lb : ℚ),
      (∀ n ∈ ns, (n.note, n.channel) = k ∧ 0 ≤ n.beat ∧ 0 ≤ n.duration) →
      List.Pairwise (fun m n : Note => m.beat + m.duration ≤ n.beat) ns →
      (∀ n ∈ ns, lb ≤ n.beat) →
      GoodChain k lb ns := by
  intro ns
  induction ns with
  | nil => intro lb _ _ _; trivial
  | cons n rest ih =>
    intro lb hall hpair hlb
    rw [List.pairwise_cons] at hpair
    obtain ⟨hk, hb, hd⟩ := hall n (List.mem_cons_self n rest)
    refine ⟨hk, hlb n (List.mem_cons_self n rest), hb, hd, ?_⟩
    exact ih _ (fun m hm => hall m (List.mem_cons_of_mem n hm)) hpair.2
      (fun m hm => hpair.1 m hm)

theorem filter_isOn_flatten (ns : List Note) :
    ((ns.map evBlock).flatten.filter (fun e => e.is_on)) =
      ns.map (fun n => (⟨n, n.beat, true⟩ : MidiEvent)) := by
  induction ns with
  | nil => rfl
  | cons n rest ih =>
    rw [List.map_cons, List.flatten_cons, List.filter_append, ih, evBlock]
    rfl

theorem filter_key_flatten (k : ℤ × ℤ) (ns : List Note) :
    ((ns.map evBlock).flatten.filter (fun e => decide (eKey e = k))) =
      ((ns.filter (fun n => decide ((n.note, n.channel) = k))).map evBlock).flatten := by
  induction ns with
  | nil => rfl
  | cons n rest ih =>
    rw [List.map_cons, List.flatten_cons, List.filter_append, ih]
    by_cases hk : (n.note, n.channel) = k
    · rw [List.filter_cons_of_pos (by rw [decide_eq_true_eq]; exact hk),
        List.map_cons, List.flatten_cons]
      congr 1
      rw [evBlock]
      rw [List.filter_cons_of_pos (by rw [decide_eq_true_eq]; exact hk),
        List.filter_cons_of_pos (by rw [decide_eq_true_eq]; exact hk)]
      rfl
    · rw [List.filter_cons_of_neg (by rw [decide_eq_true_eq]; exact hk)]
      have hblock : (evBlock n).filter (fun e => decide (eKey e = k)) = [] := by
        rw [evBlock]
        rw [List.filter_cons_of_neg (by rw [decide_eq_true_eq]; exact hk),
          List.filter_cons_of_neg (by rw [decide_eq_true_eq]; exact hk)]
        rfl
      rw [hblock, List.nil_append]

theorem goodChain_flatten_lb (k : ℤ × ℤ) :
    ∀ (ns : List Note) (lb : ℚ), GoodChain k lb ns →
      ∀ e ∈ (ns.map evBlock).flatten, lb ≤ e.event_time := by
  intro ns
  induction ns with
  | nil => intro lb _ e he; exact absurd he (List.not_mem_nil e)
  | cons n rest ih =>
    intro lb hg e he
    obtain ⟨_, hlb, _, hd, hrest⟩ := hg
    rw [List.map_cons, List.flatten_cons, List.mem_append] at he
    rcases he with he | he
    · rw [evBlock] at he
      rcases List.mem_cons.mp he with he1 | he1
      · rw [he1]; exact hlb
      · rcases List.mem_singleton.mp (by simpa using he1) with rfl
        show lb ≤ n.beat + n.duration
        linarith
    · have := ih _ hrest e he
      linarith

theorem goodChain_flatten_sorted (k : ℤ × ℤ) :
    ∀ (ns : List Note) (lb : ℚ), GoodChain k lb ns →
      List.Pairwise (fun e e2 : MidiEvent => e.event_time ≤ e2.event_time)
        ((ns.map evBlock).flatten) := by
  intro ns
  induction ns with
  | nil => intro lb _; exact List.Pairwise.nil
  | cons n rest ih =>
    intro lb hg
    obtain ⟨_, hlb, hb, hd, hrest⟩ := hg
    rw [List.map_cons, List.flatten_cons]
    rw [List.pairwise_append]
    refine ⟨?_, ih _ hrest, ?_⟩
    · rw [evBlock]
      rw [List.pairwise_cons]
      constructor
      · intro e he
        rcases List.mem_singleton.mp he with rfl
        show n.beat ≤ n.beat + n.duration
        linarith
      · exact List.pairwise_singleton _ _
    · intro e1 he1 e2 he2
      have h2 := goodChain_flatten_lb k rest _ hrest e2 he2
      rw [evBlock] at he1
      rcases List.mem_cons.mp he1 with hx | hx
      · rw [hx]
        show n.beat ≤ e2.event_time
        linarith
      · rcases List.mem_singleton.mp hx with rfl
        show n.beat + n.duration ≤ e2.event_time
        linarith

/-! ### Helper lemmas for the re-import induction -/

theorem assocFind_eq_none_iff (lb : List ((ℤ × ℤ) × ℕ)) (k : ℤ × ℤ) :
    assocFind lb k = none ↔ ∀ p ∈ lb, p.1 ≠ k := by
  induction lb with
  | nil => simp [assocFind]
  | cons q rest ih =>
    rw [assocFind]
    by_cases hq : q.1 = k
    · rw [if_pos hq]
      simp only [Option.some_ne_none, false_iff]
      intro hall
      exact hall q (List.mem_cons_self q rest) hq
    · rw [if_neg hq, ih]
      constructor
      · intro hall p hp
        rcases List.mem_cons.mp hp with hp1 | hp1
        · subst hp1; exact hq
        · exact hall p hp1
      · intro hall p hp
        exact hall p (List.mem_cons_of_mem q hp)

theorem assocFind_append (l1 l2 : List ((ℤ × ℤ) × ℕ)) (k : ℤ × ℤ) :
    assocFind (l1 ++ l2) k =
      match assocFind l1 k with
      | some v => some v
      | none => assocFind l2 k := by
  induction l1 with
  | nil => rfl
  | cons q rest ih =>
    rw [List.cons_append, assocFind, assocFind]
    by_cases hq : q.1 = k
    · rw [if_pos hq, if_pos hq]
    · rw [if_neg hq, if_neg hq, ih]

theorem assocFind_some_mem {lb : List ((ℤ × ℤ) × ℕ)} {k : ℤ × ℤ} {i : ℕ}
    (h : assocFind lb k = some i) : (k, i) ∈ lb := by
  induction lb with
  | nil => exact Option.noConfusion h
  | cons q rest ih =>
    rw [assocFind] at h
    by_cases hq : q.1 = k
    · rw [if_pos hq] at h
      have : q = (k, i) := by
        rcases q with ⟨qk, qv⟩
        simp only at hq
        rw [Option.some.injEq] at h
        simp only at h
        rw [hq, h]
      rw [← this]
      exact List.mem_cons_self q rest
    · rw [if_neg hq] at h
      exact List.mem_cons_of_mem q (ih h)

theorem assocFind_of_mem_nodup {lb : List ((ℤ × ℤ) × ℕ)} {k : ℤ × ℤ} {i : ℕ}
    (hnd : (lb.map Prod.fst).Nodup) (hmem : (k, i) ∈ lb) : assocFind lb k = some i := by
  induction lb with
  | nil => exact absurd hmem (List.not_mem_nil _)
  | cons q rest ih =>
    rw [List.map_cons, List.nodup_cons] at hnd
    rw [assocFind]
    rcases List.mem_cons.mp hmem with h1 | h1
    · rw [← h1]
      rw [if_pos rfl]
    · by_cases hq : q.1 = k
      · exfalso
        apply hnd.1
        rw [hq]
        exact List.mem_map_of_mem Prod.fst h1
      · rw [if_neg hq]
        exact ih hnd.2 h1

theorem assocErase_of_none {lb : List ((ℤ × ℤ) × ℕ)} {k : ℤ × ℤ}
    (h : assocFind lb k = none) : assocErase lb k = lb := by
  rw [assocErase]
  apply List.filter_eq_self.mpr
  intro p hp
  rw [decide_eq_true_eq]
  exact (assocFind_eq_none_iff lb k).mp h p hp

theorem assocFind_assocErase_self (lb : List ((ℤ × ℤ) × ℕ)) (k : ℤ × ℤ) :
    assocFind (assocErase lb k) k = none := by
  rw [assocFind_eq_none_iff]
  intro p hp
  have := List.of_mem_filter hp
  rw [decide_eq_true_eq] at this
  exact this

theorem assocFind_assocErase_ne {k k' : ℤ × ℤ} (h : k' ≠ k) (lb : List ((ℤ × ℤ) × ℕ)) :
    assocFind (assocErase lb k) k' = assocFind lb k' := by
  induction lb with
  | nil => rfl
  | cons q rest ih =>
    rw [assocErase, List.filter]
    by_cases hq : q.1 = k
    · have : decide (q.1 ≠ k) = false := by
        rw [decide_eq_false_iff_not]
        intro hx; exact hx hq
      rw [this, assocFind, if_neg (by rw [hq]; intro hx; exact h hx.symm)]
      exact ih
    · have : decide (q.1 ≠ k) = true := by rw [decide_eq_true_eq]; exact hq
      rw [this, assocFind, assocFind]
      by_cases hq2 : q.1 = k'
      · rw [if_pos hq2, if_pos hq2]
      · rw [if_neg hq2, if_neg hq2]
        exact ih

theorem mem_listModify {α : Type} (f : α → α) :
    ∀ (l : List α) (i : ℕ) (r2 : α), r2 ∈ listModify l i f →
      ∃ r1 ∈ l, r2 = f r1 ∨ r2 = r1 := by
  intro l
  induction l with
  | nil => intro i r2 h; exact absurd h (List.not_mem_nil r2)
  | cons x rest ih =>
    intro i r2 h
    cases i with
    | zero =>
      rw [listModify] at h
      rcases List.mem_cons.mp h with h1 | h1
      · exact ⟨x, List.mem_cons_self x rest, Or.inl h1⟩
      · exact ⟨r2, List.mem_cons_of_mem x h1, Or.inr rfl⟩
    | succ j =>
      rw [listModify] at h
      rcases List.mem_cons.mp h with h1 | h1
      · exact ⟨x, List.mem_cons_self x rest, Or.inr h1⟩
      · obtain ⟨r1, hr1, hor⟩ := ih j r2 h1
        exact ⟨r1, List.mem_cons_of_mem x hr1, hor⟩

theorem listModify_eq_append {α : Type} (f : α → α) :
    ∀ (l1 : List α) (r : α) (l2 : List α),
      listModify (l1 ++ r :: l2) l1.length f = l1 ++ f r :: l2 := by
  intro l1
  induction l1 with
  | nil => intro r l2; rfl
  | cons x rest ih =>
    intro r l2
    rw [List.cons_append, List.length_cons, listModify, ih]
    rfl

theorem get?_decomp {α : Type} :
    ∀ (l : List α) (i : ℕ) (r : α), l.get? i = some r →
      ∃ l1 l2, l = l1 ++ r :: l2 ∧ l1.length = i := by
  intro l
  induction l with
  | nil => intro i r h; exact Option.noConfusion h
  | cons x rest ih =>
    intro i r h
    cases i with
    | zero =>
      rw [List.get?] at h
      exact ⟨[], rest, by rw [Option.some.injEq] at h; rw [h]; rfl, rfl⟩
    | succ j =>
      rw [List.get?] at h
      obtain ⟨l1, l2, heq, hlen⟩ := ih j r h
      exact ⟨x :: l1, l2, by rw [heq]; rfl, by rw [List.length_cons, hlen]⟩

theorem find?_filter_agree {α : Type} (p q : α → Bool) :
    ∀ (l : List α), (∀ x ∈ l, p x = true → q x = true) →
      (l.filter q).find? p = l.find? p := by
  intro l
  induction l with
  | nil => intro _; rfl
  | cons x rest ih =>
    intro hall
    by_cases hq : q x
    · rw [List.filter_cons_of_pos hq, List.find?, List.find?]
      cases hp : p x
      · exact ih fun y hy => hall y (List.mem_cons_of_mem x hy)
      · rfl
    · rw [List.filter_cons_of_neg (by simpa using hq), List.find?]
      cases hp : p x
      · exact ih fun y hy => hall y (List.mem_cons_of_mem x hy)
      · exact absurd (hall x (List.mem_cons_self x rest) hp) (by simpa using hq)

theorem find?_eq_some_of_unique {α : Type} (p : α → Bool) :
    ∀ (l : List α) (x : α), x ∈ l → p x = true →
      (∀ y ∈ l, p y = true → y = x) → l.find? p = some x := by
  intro l
  induction l with
  | nil => intro x hx; exact absurd hx (List.not_mem_nil x)
  | cons z rest ih =>
    intro x hx hpx huniq
    rw [List.find?]
    cases hz : p z
    · show List.find? p rest = some x
      rcases List.mem_cons.mp hx with h1 | h1
      · rw [h1] at hpx
        rw [hz] at hpx
        exact Bool.noConfusion hpx
      · exact ih x h1 hpx fun y hy hpy => huniq y (List.mem_cons_of_mem z hy) hpy
    · show some z = some x
      rw [huniq z (List.mem_cons_self z rest) hz]

theorem goodChain_mono (k : ℤ × ℤ) {lb lb' : ℚ} (h : lb' ≤ lb) :
    ∀ {ms : List Note}, GoodChain k lb ms → GoodChain k lb' ms := by
  intro ms hg
  cases ms with
  | nil => trivial
  | cons n rest =>
    obtain ⟨h1, h2, h3, h4, h5⟩ := hg
    exact ⟨h1, le_trans h h2, h3, h4, h5⟩

theorem pyInt_nonneg {q : ℚ} (h : 0 ≤ q) : pyInt q = ⌊q⌋ := by
  rw [pyInt, if_pos h]

theorem pyInt_mono {a b : ℚ} (ha : 0 ≤ a) (hab : a ≤ b) : pyInt a ≤ pyInt b := by
  rw [pyInt_nonneg ha, pyInt_nonneg (le_trans ha hab)]
  exact Int.floor_le_floor hab

/-- The value of one imported note record at the end of the stream: if its
index is an open look-behind entry, its duration will be set by the pending
note-off of that key (the head of that key's remaining events); otherwise it
keeps its current value. -/
def resolveRec (lb : List ((ℤ × ℤ) × ℕ)) (es : List MidiEvent) (i : ℕ) (r : NoteRec) : Note :=
  match lb.find? (fun p => decide (p.2 = i)) with
  | some p =>
    match (es.filter (fun e => decide (eKey e = p.1))).head? with
    | some e => { r.note with duration := ((pyInt (e.event_time * 96) : ℤ) : ℚ) / 96 - r.note.beat }
    | none => r.note
  | none => r.note

def finishRec (lb : List ((ℤ × ℤ) × ℕ)) (es : List MidiEvent) : ℕ → List NoteRec → List Note
  | _, [] => []
  | i, r :: rest => resolveRec lb es i r :: finishRec lb es (i + 1) rest

/-- The note list the importer will have produced once the remaining events
`es` have been replayed on top of state `st`. -/
def finalNotes (st : ImportState) (es : List MidiEvent) : List Note :=
  finishRec st.look_behind es 0 st.notes ++
    (es.filter (fun e => e.is_on)).map (fun e => qNote e.note)

theorem finishRec_append (lb : List ((ℤ × ℤ) × ℕ)) (es : List MidiEvent) :
    ∀ (l1 l2 : List NoteRec) (i : ℕ),
      finishRec lb es i (l1 ++ l2) = finishRec lb es i l1 ++ finishRec lb es (i + l1.length) l2 := by
  intro l1
  induction l1 with
  | nil => intro l2 i; rw [List.nil_append, finishRec, List.nil_append, List.length_nil, Nat.add_zero]
  | cons r rest ih =>
    intro l2 i
    rw [List.cons_append, finishRec, finishRec, ih, List.cons_append, List.length_cons]
    have h : i + 1 + rest.length = i + (rest.length + 1) := by omega
    rw [h]

theorem finishRec_congr (lb lb' : List ((ℤ × ℤ) × ℕ)) (es es' : List MidiEvent) :
    ∀ (l : List NoteRec) (i : ℕ),
      (∀ j r, i ≤ j → j < i + l.length → resolveRec lb es j r = resolveRec lb' es' j r) →
      finishRec lb es i l = finishRec lb' es' i l := by
  intro l
  induction l with
  | nil => intro i _; rfl
  | cons r rest ih =>
    intro i hag
    rw [finishRec, finishRec, hag i r (le_refl i) (by rw [List.length_cons]; omega),
      ih (i + 1) (fun j r2 hj1 hj2 => hag j r2 (by omega) (by rw [List.length_cons]; omega))]

theorem finishRec_nil_events (lb : List ((ℤ × ℤ) × ℕ)) :
    ∀ (l : List NoteRec) (i : ℕ), finishRec lb [] i l = l.map (fun r => r.note) := by
  intro l
  induction l with
  | nil => intro i; rfl
  | cons r rest ih =>
    intro i
    rw [finishRec, List.map_cons, ih]
    congr 1
    rw [resolveRec]
    cases lb.find? (fun p => decide (p.2 = i)) with
    | none => rfl
    | some p => rfl

/-- The re-import invariant: no record is deleted, open keys are distinct,
and for each key the remaining events are exactly the missing note-off of its
open note (if any) followed by the full on/off blocks of its later notes. -/
def ImpInv (st : ImportState) (es : List MidiEvent) : Prop :=
  (∀ r ∈ st.notes, r.deleted = false) ∧
  (st.look_behind.map Prod.fst).Nodup ∧
  (∀ k : ℤ × ℤ,
    match assocFind st.look_behind k with
    | some i => ∃ m : Note,
        st.notes.get? i = some ⟨⟨m.channel, m.note, m.velocity,
          ((pyInt (m.beat * 96) : ℤ) : ℚ) / 96, 0⟩, false⟩ ∧
        (m.note, m.channel) = k ∧ 0 ≤ m.beat ∧ 0 ≤ m.duration ∧
        ∃ ms, es.filter (fun e => decide (eKey e = k)) =
            (⟨m, m.beat + m.duration, false⟩ : MidiEvent) :: (ms.map evBlock).flatten ∧
          GoodChain k (m.beat + m.duration) ms
    | none => ∃ ms, es.filter (fun e => decide (eKey e = k)) = (ms.map evBlock).flatten ∧
        GoodChain k 0 ms)

theorem filter_cons_true {α : Type} (p : α → Bool) (x : α) (l : List α)
    (h : p x = true) : (x :: l).filter p = x :: l.filter p :=
  List.filter_cons_of_pos h

theorem filter_cons_false {α : Type} (p : α → Bool) (x : α) (l : List α)
    (h : p x = false) : (x :: l).filter p = l.filter p :=
  List.filter_cons_of_neg (by simp [h])

theorem impInv_step_on (st : ImportState) (e : MidiEvent) (es : List MidiEvent)
    (hon : e.is_on = true) (hinv : ImpInv st (e :: es)) :
    ∃ st2, processTrackMsg 96 st ⟨pyInt (e.event_time * 96) - st.accumulated_time,
        MidiMsg.note_on e.note.channel e.note.note e.note.velocity⟩ = some st2 ∧
      ImpInv st2 es ∧ st2.accumulated_time = pyInt (e.event_time * 96) ∧
      finalNotes st (e :: es) = finalNotes st2 es := by
  obtain ⟨hdel, hnd, hkey⟩ := hinv
  have hkdec : (decide (eKey e = (e.note.note, e.note.channel))) = true := by
    rw [decide_eq_true_eq]; rfl
  cases hfind : assocFind st.look_behind (e.note.note, e.note.channel) with
  | some i =>
    exfalso
    have hk := hkey (e.note.note, e.note.channel)
    simp only [hfind] at hk
    obtain ⟨m, _, _, _, _, ms, hfilter, _⟩ := hk
    rw [filter_cons_true (fun e2 => decide (eKey e2 = (e.note.note, e.note.channel))) e es hkdec,
      List.cons.injEq] at hfilter
    have : e.is_on = false := by rw [hfilter.1]
    rw [hon] at this
    exact Bool.noConfusion this
  | none =>
  have hk := hkey (e.note.note, e.note.channel)
  simp only [hfind] at hk
  obtain ⟨ms, hfilter, hchain⟩ := hk
  rw [filter_cons_true (fun e2 => decide (eKey e2 = (e.note.note, e.note.channel))) e es
    hkdec] at hfilter
  cases ms with
  | nil => exact absurd hfilter (by simp)
  | cons m₀ ms' =>
  rw [List.map_cons, List.flatten_cons] at hfilter
  simp only [evBlock, List.cons_append, List.nil_append, List.cons.injEq] at hfilter
  obtain ⟨he, hfilter2⟩ := hfilter
  have hnote : e.note = m₀ := by rw [he]
  have het : e.event_time = m₀.beat := by rw [he]
  obtain ⟨hkm, _, hb0, hd0, hchain'⟩ := hchain
  have herase : assocErase st.look_behind (e.note.note, e.note.channel) = st.look_behind :=
    assocErase_of_none hfind
  have hnotin : (e.note.note, e.note.channel) ∉ st.look_behind.map Prod.fst := by
    intro hmem
    obtain ⟨p, hp, hp1⟩ := List.mem_map.mp hmem
    exact (assocFind_eq_none_iff _ _).mp hfind p hp hp1
  have hidxlt : ∀ p ∈ st.look_behind, p.2 < st.notes.length := by
    intro p hp
    have hfp : assocFind st.look_behind p.1 = some p.2 := by
      rcases p with ⟨pk, pv⟩
      exact assocFind_of_mem_nodup hnd hp
    have hk2 := hkey p.1
    simp only [hfp] at hk2
    obtain ⟨m, hget, _⟩ := hk2
    have := List.get?_eq_some.mp hget
    exact this.choose
  refine ⟨⟨st.notes ++ [⟨⟨e.note.channel, e.note.note, e.note.velocity,
      ((pyInt (e.event_time * 96) : ℤ) : ℚ) / 96, 0⟩, false⟩],
    st.look_behind ++ [((e.note.note, e.note.channel), st.notes.length)],
    pyInt (e.event_time * 96)⟩, ?_, ⟨?_, ?_, ?_⟩, rfl, ?_⟩
  · -- the equation
    simp only [processTrackMsg, hfind]
    rw [herase]
    have hacc : st.accumulated_time + (pyInt (e.event_time * 96) - st.accumulated_time) =
        pyInt (e.event_time * 96) := by ring
    rw [hacc]
    norm_num
  · -- all records non-deleted
    intro r hr
    rcases List.mem_append.mp hr with hr1 | hr1
    · exact hdel r hr1
    · rcases List.mem_singleton.mp hr1 with rfl
      rfl
  · -- key nodup
    rw [List.map_append]
    rw [List.nodup_append]
    exact ⟨hnd, List.nodup_singleton _, by
      intro a ha hb
      rcases List.mem_singleton.mp hb with rfl
      exact hnotin ha⟩
  · -- per-key invariant
    intro k
    by_cases hkk : k = (e.note.note, e.note.channel)
    · subst hkk
      have hfind2 : assocFind (st.look_behind ++
          [((e.note.note, e.note.channel), st.notes.length)]) (e.note.note, e.note.channel) =
          some st.notes.length := by
        rw [assocFind_append, hfind]
        show assocFind [((e.note.note, e.note.channel), st.notes.length)]
          (e.note.note, e.note.channel) = some st.notes.length
        rw [assocFind, if_pos rfl]
      simp only [hfind2]
      refine ⟨m₀, ?_, hkm, hb0, hd0, ms', ?_, hchain'⟩
      · rw [List.get?_concat_length]
        rw [hnote, het]
      · rw [← hkm] at hfilter2 ⊢
        rw [← hnote] at hfilter2 ⊢
        exact hfilter2
    · have hstep : assocFind (st.look_behind ++
          [((e.note.note, e.note.channel), st.notes.length)]) k = assocFind st.look_behind k := by
        rw [assocFind_append]
        cases hf3 : assocFind st.look_behind k with
        | some v => rfl
        | none =>
          show assocFind [((e.note.note, e.note.channel), st.notes.length)] k = none
          rw [assocFind, if_neg (fun hx => hkk hx.symm)]
          rfl
      rw [hstep]
      have hfil : es.filter (fun e2 => decide (eKey e2 = k)) =
          (e :: es).filter (fun e2 => decide (eKey e2 = k)) := by
        rw [filter_cons_false (fun e2 => decide (eKey e2 = k)) e es ?_]
        rw [decide_eq_false_iff_not]
        intro hx
        exact hkk (by rw [← hx]; rfl)
      cases hf3 : assocFind st.look_behind k with
      | some i =>
        have hk2 := hkey k
        simp only [hf3] at hk2
        obtain ⟨m, hget, hkm2, hb2, hd2, ms2, hfil2, hch2⟩ := hk2
        refine ⟨m, ?_, hkm2, hb2, hd2, ms2, ?_, hch2⟩
        · rw [List.get?_append (List.get?_eq_some.mp hget).choose]
          exact hget
        · rw [hfil]
          exact hfil2
      | none =>
        have hk2 := hkey k
        simp only [hf3] at hk2
        obtain ⟨ms2, hfil2, hch2⟩ := hk2
        refine ⟨ms2, ?_, hch2⟩
        rw [hfil]
        exact hfil2
  · -- finalNotes preservation
    rw [finalNotes, finalNotes]
    show _ = finishRec (st.look_behind ++ [((e.note.note, e.note.channel), st.notes.length)])
        es 0 (st.notes ++ [_]) ++ _
    rw [finishRec_append]
    have hA : finishRec (st.look_behind ++ [((e.note.note, e.note.channel), st.notes.length)])
        es 0 st.notes = finishRec st.look_behind (e :: es) 0 st.notes := by
      apply finishRec_congr
      intro j r _ hj
      rw [Nat.zero_add] at hj
      rw [resolveRec, resolveRec]
      have hfa : (st.look_behind ++
          [((e.note.note, e.note.channel), st.notes.length)]).find?
            (fun p => decide (p.2 = j)) = st.look_behind.find? (fun p => decide (p.2 = j)) := by
        rw [List.find?_append]
        cases hf4 : st.look_behind.find? (fun p => decide (p.2 = j)) with
        | some p => rfl
        | none =>
          rw [Option.none_or]
          rw [List.find?_eq_none]
          intro x hx
          rcases List.mem_singleton.mp hx with rfl
          intro hdec
          rw [decide_eq_true_eq] at hdec
          omega
      rw [hfa]
      cases hf4 : st.look_behind.find? (fun p => decide (p.2 = j)) with
      | none => simp only [hf4]
      | some p =>
        simp only [hf4]
        have hpmem := List.mem_of_find?_eq_some hf4
        have hkne : ¬ ((e.note.note, e.note.channel) = p.1) := by
          intro hx
          apply hnotin
          rw [hx]
          exact List.mem_map_of_mem Prod.fst hpmem
        rw [filter_cons_false (fun e2 => decide (eKey e2 = p.1)) e es ?_]
        rw [decide_eq_false_iff_not]
        intro hx
        exact hkne (by rw [← hx]; rfl)
    rw [hA]
    have hB : finishRec (st.look_behind ++ [((e.note.note, e.note.channel), st.notes.length)])
        es (0 + st.notes.length)
        [⟨⟨e.note.channel, e.note.note, e.note.velocity,
          ((pyInt (e.event_time * 96) : ℤ) : ℚ) / 96, 0⟩, false⟩] = [qNote e.note] := by
      rw [Nat.zero_add, finishRec, finishRec, resolveRec]
      have hff : (st.look_behind ++
          [((e.note.note, e.note.channel), st.notes.length)]).find?
            (fun p => decide (p.2 = st.notes.length)) =
          some ((e.note.note, e.note.channel), st.notes.length) := by
        rw [List.find?_append]
        have h1 : st.look_behind.find? (fun p => decide (p.2 = st.notes.length)) = none := by
          rw [List.find?_eq_none]
          intro p hp
          rw [decide_eq_true_eq]
          have := hidxlt p hp
          omega
        rw [h1]
        show ([((e.note.note, e.note.channel), st.notes.length)]).find?
          (fun p => decide (p.2 = st.notes.length)) = _
        rw [List.find?]
        rw [show (decide ((((e.note.note, e.note.channel), st.notes.length) : (ℤ × ℤ) × ℕ).2
          = st.notes.length)) = true from by rw [decide_eq_true_eq]]
      rw [hff]
      show [(match (es.filter (fun e2 => decide (eKey e2 = (e.note.note, e.note.channel)))).head?
        with
        | some e2 => { (⟨e.note.channel, e.note.note, e.note.velocity,
            ((pyInt (e.event_time * 96) : ℤ) : ℚ) / 96, 0⟩ : Note) with
            duration := ((pyInt (e2.event_time * 96) : ℤ) : ℚ) / 96 -
              ((pyInt (e.event_time * 96) : ℤ) : ℚ) / 96 }
        | none => (⟨e.note.channel, e.note.note, e.note.velocity,
            ((pyInt (e.event_time * 96) : ℤ) : ℚ) / 96, 0⟩ : Note))] = [qNote e.note]
      rw [hfilter2]
      show [{ (⟨e.note.channel, e.note.note, e.note.velocity,
          ((pyInt (e.event_time * 96) : ℤ) : ℚ) / 96, 0⟩ : Note) with
          duration := ((pyInt ((m₀.beat + m₀.duration) * 96) : ℤ) : ℚ) / 96 -
            ((pyInt (e.event_time * 96) : ℤ) : ℚ) / 96 }] = [qNote e.note]
      rw [hnote, het, qNote]
      rw [List.cons.injEq]
      refine ⟨?_, rfl⟩
      rw [Note.mk.injEq]
      refine ⟨rfl, rfl, rfl, rfl, ?_⟩
      push_cast
      ring
    rw [hB]
    rw [filter_cons_true (fun e2 => e2.is_on) e es hon, List.map_cons]
    rw [List.append_assoc, List.singleton_append]

theorem impInv_step_off (st : ImportState) (e : MidiEvent) (es : List MidiEvent)
    (hoff : e.is_on = false) (hinv : ImpInv st (e :: es)) :
    ∃ st2, processTrackMsg 96 st ⟨pyInt (e.event_time * 96) - st.accumulated_time,
        MidiMsg.note_off e.note.channel e.note.note e.note.velocity⟩ = some st2 ∧
      ImpInv st2 es ∧ st2.accumulated_time = pyInt (e.event_time * 96) ∧
      finalNotes st (e :: es) = finalNotes st2 es := by
  obtain ⟨hdel, hnd, hkey⟩ := hinv
  have hkdec : (decide (eKey e = (e.note.note, e.note.channel))) = true := by
    rw [decide_eq_true_eq]; rfl
  cases hfind : assocFind st.look_behind (e.note.note, e.note.channel) with
  | none =>
    exfalso
    have hk := hkey (e.note.note, e.note.channel)
    simp only [hfind] at hk
    obtain ⟨ms, hfilter, _⟩ := hk
    rw [filter_cons_true (fun e2 => decide (eKey e2 = (e.note.note, e.note.channel))) e es
      hkdec] at hfilter
    cases ms with
    | nil => exact absurd hfilter (by simp)
    | cons m₀ ms' =>
      rw [List.map_cons, List.flatten_cons] at hfilter
      simp only [evBlock, List.cons_append, List.nil_append, List.cons.injEq] at hfilter
      have : e.is_on = true := by rw [hfilter.1]
      rw [hoff] at this
      exact Bool.noConfusion this
  | some i =>
  have hk := hkey (e.note.note, e.note.channel)
  simp only [hfind] at hk
  obtain ⟨m, hget, hkm, hb, hd, ms, hfilter, hchain⟩ := hk
  rw [filter_cons_true (fun e2 => decide (eKey e2 = (e.note.note, e.note.channel))) e es
    hkdec, List.cons.injEq] at hfilter
  obtain ⟨he, hfilter2⟩ := hfilter
  have hnote : e.note = m := by rw [he]
  have het : e.event_time = m.beat + m.duration := by rw [he]
  have hkuniq : ∀ p ∈ st.look_behind, p.2 = i → p = ((e.note.note, e.note.channel), i) := by
    intro p hp hpi
    have hfp : assocFind st.look_behind p.1 = some p.2 := by
      rcases p with ⟨pk, pv⟩
      exact assocFind_of_mem_nodup hnd hp
    have hk2 := hkey p.1
    simp only [hfp] at hk2
    obtain ⟨m', hget', hkm', _⟩ := hk2
    rw [hpi] at hget'
    rw [hget] at hget'
    rw [Option.some.injEq, NoteRec.mk.injEq, Note.mk.injEq] at hget'
    have hp1 : p.1 = (e.note.note, e.note.channel) := by
      rw [← hkm', ← hkm]
      rw [Prod.mk.injEq]
      exact ⟨hget'.1.2.1.symm, hget'.1.1.symm⟩
    rcases p with ⟨pk, pv⟩
    simp only at hp1 hpi
    rw [hp1, hpi]
  obtain ⟨T1, T2, hsplit, hlen⟩ := get?_decomp st.notes i _ hget
  have hmem_i : ((e.note.note, e.note.channel), i) ∈ st.look_behind := assocFind_some_mem hfind
  have hD : (0:ℚ) ≤ ((pyInt ((m.beat + m.duration) * 96) : ℤ) : ℚ) / 96 -
      ((pyInt (m.beat * 96) : ℤ) : ℚ) / 96 := by
    have h1 : pyInt (m.beat * 96) ≤ pyInt ((m.beat + m.duration) * 96) := by
      apply pyInt_mono (by positivity)
      nlinarith
    have h2 : ((pyInt (m.beat * 96) : ℤ) : ℚ) ≤ ((pyInt ((m.beat + m.duration) * 96) : ℤ) : ℚ) := by
      exact_mod_cast h1
    linarith
  refine ⟨⟨listModify st.notes i (fun r2 => { r2 with note := { r2.note with
      duration := ((pyInt ((m.beat + m.duration) * 96) : ℤ) : ℚ) / 96 -
        ((pyInt (m.beat * 96) : ℤ) : ℚ) / 96 } }),
    assocErase st.look_behind (e.note.note, e.note.channel),
    pyInt (e.event_time * 96)⟩, ?_, ⟨?_, ?_, ?_⟩, rfl, ?_⟩
  · -- the equation
    simp only [processTrackMsg, hfind, hget]
    rw [if_neg (fun h => h rfl)]
    have hacc : st.accumulated_time + (pyInt (e.event_time * 96) - st.accumulated_time) =
        pyInt (e.event_time * 96) := by ring
    rw [hacc, het]
    have h96 : ((96 : ℤ) : ℚ) = (96 : ℚ) := by norm_num
    rw [h96]
    rw [max_eq_right hD]
  · -- deleted flags
    intro r hr
    obtain ⟨r1, hr1, hor⟩ := mem_listModify _ st.notes i r hr
    rcases hor with h1 | h1
    · rw [h1]
      exact hdel r1 hr1
    · rw [h1]
      exact hdel r1 hr1
  · -- nodup keys
    exact hnd.sublist (List.Sublist.map Prod.fst (List.filter_sublist st.look_behind))
  · -- per-key invariant
    intro k
    by_cases hkk : k = (e.note.note, e.note.channel)
    · subst hkk
      rw [assocFind_assocErase_self]
      exact ⟨ms, hfilter2, goodChain_mono _ (by linarith) hchain⟩
    · rw [assocFind_assocErase_ne hkk]
      have hfil : es.filter (fun e2 => decide (eKey e2 = k)) =
          (e :: es).filter (fun e2 => decide (eKey e2 = k)) := by
        rw [filter_cons_false (fun e2 => decide (eKey e2 = k)) e es ?_]
        rw [decide_eq_false_iff_not]
        intro hx
        exact hkk (by rw [← hx]; rfl)
      cases hf3 : assocFind st.look_behind k with
      | some i' =>
        have hk2 := hkey k
        simp only [hf3] at hk2
        obtain ⟨m', hget', hkm', hb', hd', ms', hfil2, hch2⟩ := hk2
        have hne : i' ≠ i := by
          intro hx
          apply hkk
          have := hkuniq (k, i') (assocFind_some_mem hf3) hx
          rw [Prod.mk.injEq] at this
          exact this.1
        refine ⟨m', ?_, hkm', hb', hd', ms', ?_, hch2⟩
        · rw [listModify_get?_ne _ _ _ _ hne]
          exact hget'
        · rw [hfil]
          exact hfil2
      | none =>
        have hk2 := hkey k
        simp only [hf3] at hk2
        obtain ⟨ms', hfil2, hch2⟩ := hk2
        refine ⟨ms', ?_, hch2⟩
        rw [hfil]
        exact hfil2
  · -- finalNotes preservation
    rw [finalNotes, finalNotes]
    rw [filter_cons_false (fun e2 => e2.is_on) e es hoff]
    congr 1
    show finishRec st.look_behind (e :: es) 0 st.notes =
      finishRec (assocErase st.look_behind (e.note.note, e.note.channel)) es 0
        (listModify st.notes i _)
    have hcongrAll : ∀ (l : List NoteRec) (start : ℕ),
        (∀ j, start ≤ j → j < start + l.length → j ≠ i) →
        finishRec st.look_behind (e :: es) start l =
          finishRec (assocErase st.look_behind (e.note.note, e.note.channel)) es start l := by
      intro l start hrange
      apply finishRec_congr
      intro j r hj1 hj2
      have hjne : j ≠ i := hrange j hj1 hj2
      rw [resolveRec, resolveRec]
      have hfa : (assocErase st.look_behind (e.note.note, e.note.channel)).find?
          (fun p => decide (p.2 = j)) = st.look_behind.find? (fun p => decide (p.2 = j)) := by
        rw [assocErase]
        apply find?_filter_agree
        intro x hx hpx
        rw [decide_eq_true_eq] at hpx
        rw [decide_eq_true_eq]
        intro hxk
        have hxe : x = ((e.note.note, e.note.channel), i) :=
          keyed_unique hnd hx hmem_i hxk
        rw [hxe] at hpx
        exact hjne hpx.symm
      rw [hfa]
      cases hf4 : st.look_behind.find? (fun p => decide (p.2 = j)) with
      | none => simp only [hf4]
      | some p =>
        simp only [hf4]
        have hpmem := List.mem_of_find?_eq_some hf4
        have hppred := List.find?_some hf4
        rw [decide_eq_true_eq] at hppred
        have hpk : ¬ (p.1 = (e.note.note, e.note.channel)) := by
          intro hx
          have hpe : p = ((e.note.note, e.note.channel), i) :=
            keyed_unique hnd hpmem hmem_i hx
          rw [hpe] at hppred
          exact hjne hppred.symm
        rw [filter_cons_false (fun e2 => decide (eKey e2 = p.1)) e es ?_]
        rw [decide_eq_false_iff_not]
        intro hx
        exact hpk (by rw [← hx]; rfl)
    rw [hsplit]
    rw [← hlen, listModify_eq_append]
    rw [finishRec_append, finishRec_append]
    congr 1
    · exact hcongrAll T1 0 (fun j hj1 hj2 => by omega)
    · rw [finishRec, finishRec]
      congr 1
      · -- the closed record itself
        rw [Nat.zero_add, hlen, resolveRec, resolveRec]
        have hfL : st.look_behind.find? (fun p => decide (p.2 = i)) =
            some ((e.note.note, e.note.channel), i) := by
          apply find?_eq_some_of_unique _ _ _ hmem_i (by rw [decide_eq_true_eq])
          intro y hy hpy
          rw [decide_eq_true_eq] at hpy
          exact hkuniq y hy hpy
        have hfR : (assocErase st.look_behind (e.note.note, e.note.channel)).find?
            (fun p => decide (p.2 = i)) = none := by
          rw [List.find?_eq_none]
          intro x hx
          have hxlb := List.mem_of_mem_filter hx
          have hxne := List.of_mem_filter hx
          rw [decide_eq_true_eq] at hxne
          intro hpx
          rw [decide_eq_true_eq] at hpx
          have := hkuniq x hxlb hpx
          apply hxne
          rw [this]
        simp only [hfL, hfR]
        rw [filter_cons_true (fun e2 => decide (eKey e2 = (e.note.note, e.note.channel))) e es
          hkdec]
        simp only [List.head?_cons]
        rw [het]
      · rw [Nat.zero_add, hlen]
        exact hcongrAll T2 (i + 1) (fun j hj1 hj2 => by omega)

theorem importLoop_events :
    ∀ (es : List MidiEvent) (st : ImportState), ImpInv st es →
      ∃ st2, importTrackLoop 96 st (eventMsgs st.accumulated_time es) = some st2 ∧
        st2.notes.map (fun r => r.note) = finalNotes st es ∧
        (∀ r ∈ st2.notes, r.deleted = false) := by
  intro es
  induction es with
  | nil =>
    intro st hinv
    refine ⟨st, rfl, ?_, hinv.1⟩
    rw [finalNotes, finishRec_nil_events]
    simp
  | cons e es ih =>
    intro st hinv
    rw [eventMsgs]
    cases hone : e.is_on with
    | true =>
      obtain ⟨st2, heq, hinv2, hacc2, hfn⟩ := impInv_step_on st e es hone hinv
      rw [importTrackLoop]
      rw [if_pos rfl]
      simp only [heq]
      rw [← hacc2]
      obtain ⟨st3, heq3, hfn3, hdel3⟩ := ih st2 hinv2
      exact ⟨st3, heq3, by rw [hfn3, ← hfn], hdel3⟩
    | false =>
      obtain ⟨st2, heq, hinv2, hacc2, hfn⟩ := impInv_step_off st e es hone hinv
      rw [importTrackLoop]
      rw [if_neg (fun hx => Bool.noConfusion hx)]
      simp only [heq]
      rw [← hacc2]
      obtain ⟨st3, heq3, hfn3, hdel3⟩ := ih st2 hinv2
      exact ⟨st3, heq3, by rw [hfn3, ← hfn], hdel3⟩

theorem importTrackNotes_export (ns : List Note)
    (hsorted : List.Pairwise (fun a b : Note => a.beat ≤ b.beat) ns)
    (hpos : ∀ n ∈ ns, 0 ≤ n.beat ∧ 0 ≤ n.duration)
    (hkey : ∀ k : ℤ × ℤ, List.Pairwise (fun m n : Note => m.beat + m.duration ≤ n.beat)
      (ns.filter (fun n => decide ((n.note, n.channel) = k)))) :
    importTrackNotes 96 (eventMsgs 0
      (sortByQ (fun e => e.event_time) ((ns.map evBlock).flatten))) = some (ns.map qNote) := by
  have hgood : ∀ k : ℤ × ℤ, GoodChain k 0
      (ns.filter (fun n => decide ((n.note, n.channel) = k))) := by
    intro k
    apply goodChain_intro k _ 0 ?_ (hkey k) ?_
    · intro n hn
      have h1 := List.of_mem_filter hn
      rw [decide_eq_true_eq] at h1
      exact ⟨h1, (hpos n (List.mem_of_mem_filter hn)).1, (hpos n (List.mem_of_mem_filter hn)).2⟩
    · intro n hn
      exact (hpos n (List.mem_of_mem_filter hn)).1
  have hinv : ImpInv ⟨[], [], 0⟩
      (sortByQ (fun e => e.event_time) ((ns.map evBlock).flatten)) := by
    refine ⟨fun r hr => absurd hr (List.not_mem_nil r), List.nodup_nil, fun k => ?_⟩
    show ∃ ms, (sortByQ (fun e => e.event_time) ((ns.map evBlock).flatten)).filter
        (fun e => decide (eKey e = k)) = (ms.map evBlock).flatten ∧ GoodChain k 0 ms
    refine ⟨ns.filter (fun n => decide ((n.note, n.channel) = k)), ?_, hgood k⟩
    rw [filter_sortByQ, filter_key_flatten]
    exact sortByQ_eq_self _ _ (goodChain_flatten_sorted k _ 0 (hgood k))
  obtain ⟨st2, heq, hfn, hdel⟩ := importLoop_events _ ⟨[], [], 0⟩ hinv
  rw [importTrackNotes]
  rw [show (⟨[], [], 0⟩ : ImportState).accumulated_time = 0 from rfl] at heq
  rw [heq]
  rw [Option.map_some']
  rw [Option.some.injEq]
  rw [List.filter_eq_self.mpr (fun r hr => by rw [hdel r hr]; rfl)]
  rw [hfn, finalNotes]
  show ((sortByQ (fun e => e.event_time) ((ns.map evBlock).flatten)).filter
      (fun e => e.is_on)).map (fun e => qNote e.note) = ns.map qNote
  rw [filter_sortByQ, filter_isOn_flatten]
  rw [sortByQ_eq_self _ _ (List.Pairwise.map _ ?_ hsorted)]
  · rw [List.map_map]
    rfl
  · intro a b hab
    exact hab

theorem processTrackMsg_skip_name (st : ImportState) (s : String) :
    processTrackMsg 96 st ⟨0, MidiMsg.track_name s⟩ = some st := by
  simp only [processTrackMsg]
  rw [add_zero]

theorem processTrackMsg_skip_prog (st : ImportState) (c p : ℤ) :
    processTrackMsg 96 st ⟨0, MidiMsg.program_change c p⟩ = some st := by
  simp only [processTrackMsg]
  rw [add_zero]

theorem importTrackLoop_skip_name (st : ImportState) (s : String) (rest : List TimedMsg) :
    importTrackLoop 96 st (⟨0, MidiMsg.track_name s⟩ :: rest) = importTrackLoop 96 st rest := by
  rw [importTrackLoop, processTrackMsg_skip_name]

theorem importTrackLoop_skip_prog (st : ImportState) (c p : ℤ) (rest : List TimedMsg) :
    importTrackLoop 96 st (⟨0, MidiMsg.program_change c p⟩ :: rest) =
      importTrackLoop 96 st rest := by
  rw [importTrackLoop, processTrackMsg_skip_prog]

theorem importTrackNotes_exportNoteTrack (cim : List (ℤ × ℤ)) (no : ℕ) (tr : Track)
    (hsorted : List.Pairwise (fun a b : Note => a.beat ≤ b.beat) tr.notes)
    (hpos : ∀ n ∈ tr.notes, 0 ≤ n.beat ∧ 0 ≤ n.duration)
    (hkey : ∀ k : ℤ × ℤ, List.Pairwise (fun m n : Note => m.beat + m.duration ≤ n.beat)
      (tr.notes.filter (fun n => decide ((n.note, n.channel) = k)))) :
    importTrackNotes 96 (exportNoteTrack cim no tr) = some (tr.notes.map qNote) := by
  have hloop : importTrackLoop 96 ⟨[], [], 0⟩ (exportNoteTrack cim no tr) =
      importTrackLoop 96 ⟨[], [], 0⟩ (eventMsgs 0
        (sortByQ (fun e => e.event_time) ((tr.notes.map evBlock).flatten))) := by
    rw [exportNoteTrack]
    rw [sortByQ_eq_self (fun n => n.beat) tr.notes hsorted]
    rw [importTrackLoop_skip_name]
    by_cases h1 : (0 : ℤ) ≤ tr.most_used_channel
    · rw [if_pos h1]
      by_cases h2 : (0 : ℤ) ≤ assocGetD cim tr.most_used_channel 0
      · rw [if_pos h2, List.singleton_append, importTrackLoop_skip_prog]
      · rw [if_neg h2, List.nil_append]
    · rw [if_neg h1, List.nil_append]
  rw [importTrackNotes, hloop]
  have := importTrackNotes_export tr.notes hsorted hpos hkey
  rw [importTrackNotes] at this
  exact this

theorem importTracksFrom_export (cim : List (ℤ × ℤ)) :
    ∀ (l : List (ℕ × Track)) (i : ℕ),
      (∀ pr ∈ l, List.Pairwise (fun a b : Note => a.beat ≤ b.beat) pr.2.notes) →
      (∀ pr ∈ l, ∀ n ∈ pr.2.notes, 0 ≤ n.beat ∧ 0 ≤ n.duration) →
      (∀ pr ∈ l, ∀ k : ℤ × ℤ, List.Pairwise (fun m n : Note => m.beat + m.duration ≤ n.beat)
        (pr.2.notes.filter (fun n => decide ((n.note, n.channel) = k)))) →
      ∃ trs, importTracksFrom 96 i (l.map (fun p => exportNoteTrack cim p.1 p.2)) = some trs ∧
        List.Forall₂ (fun pr qr : ℕ × Track => qr.2.notes = pr.2.notes.map qNote) l trs := by
  intro l
  induction l with
  | nil => intro i _ _ _; exact ⟨[], rfl, List.Forall₂.nil⟩
  | cons pr l ih =>
    intro i hs hp hk
    obtain ⟨trs, htrs, hfa⟩ := ih (i + 1)
      (fun q hq => hs q (List.mem_cons_of_mem pr hq))
      (fun q hq => hp q (List.mem_cons_of_mem pr hq))
      (fun q hq => hk q (List.mem_cons_of_mem pr hq))
    have hone := importTrackNotes_exportNoteTrack cim pr.1 pr.2
      (hs pr (List.mem_cons_self pr l)) (hp pr (List.mem_cons_self pr l))
      (hk pr (List.mem_cons_self pr l))
    rw [List.map_cons, importTracksFrom]
    rw [hone, htrs]
    exact ⟨(i, ⟨pr.2.notes.map qNote, (trackNameOf (exportNoteTrack cim pr.1 pr.2)).getD ""⟩)
      :: trs, rfl, List.Forall₂.cons rfl hfa⟩

theorem getTempoChangesLoop_no_tempo (tpb : ℤ) :
    ∀ (msgs : List TimedMsg) (t : ℤ) (acc : List TempoChange),
      (∀ tm ∈ msgs, ∀ x : ℤ, tm.msg ≠ MidiMsg.set_tempo x) →
      getTempoChangesLoop tpb t acc msgs = acc := by
  intro msgs
  induction msgs with
  | nil => intro t acc _; rfl
  | cons m rest ih =>
    intro t acc hall
    rcases m with ⟨time, msg⟩
    cases msg with
    | set_tempo x =>
      exact absurd rfl (hall ⟨time, MidiMsg.set_tempo x⟩ (List.mem_cons_self _ _) x)
    | note_on c n v => exact ih _ _ (fun tm htm => hall tm (List.mem_cons_of_mem _ htm))
    | note_off c n v => exact ih _ _ (fun tm htm => hall tm (List.mem_cons_of_mem _ htm))
    | time_signature a b => exact ih _ _ (fun tm htm => hall tm (List.mem_cons_of_mem _ htm))
    | track_name s => exact ih _ _ (fun tm htm => hall tm (List.mem_cons_of_mem _ htm))
    | program_change c p => exact ih _ _ (fun tm htm => hall tm (List.mem_cons_of_mem _ htm))

theorem getTimeSigLoop_no_sig (tpb : ℤ) :
    ∀ (msgs : List TimedMsg) (t : ℤ),
      (∀ tm ∈ msgs, ∀ a b : ℤ, tm.msg ≠ MidiMsg.time_signature a b) →
      getTimeSigLoop tpb t msgs = [] := by
  intro msgs
  induction msgs with
  | nil => intro t _; rfl
  | cons m rest ih =>
    intro t hall
    rcases m with ⟨time, msg⟩
    cases msg with
    | time_signature a b =>
      exact absurd rfl (hall ⟨time, MidiMsg.time_signature a b⟩ (List.mem_cons_self _ _) a b)
    | note_on c n v => exact ih _ (fun tm htm => hall tm (List.mem_cons_of_mem _ htm))
    | note_off c n v => exact ih _ (fun tm htm => hall tm (List.mem_cons_of_mem _ htm))
    | set_tempo x => exact ih _ (fun tm htm => hall tm (List.mem_cons_of_mem _ htm))
    | track_name s => exact ih _ (fun tm htm => hall tm (List.mem_cons_of_mem _ htm))
    | program_change c p => exact ih _ (fun tm htm => hall tm (List.mem_cons_of_mem _ htm))

theorem eventMsgs_classify :
    ∀ (es : List MidiEvent) (prev : ℤ) (tm : TimedMsg), tm ∈ eventMsgs prev es →
      (∃ c n v, tm.msg = MidiMsg.note_on c n v) ∨ (∃ c n v, tm.msg = MidiMsg.note_off c n v) := by
  intro es
  induction es with
  | nil => intro prev tm h; exact absurd h (List.not_mem_nil tm)
  | cons e rest ih =>
    intro prev tm h
    rw [eventMsgs] at h
    rcases List.mem_cons.mp h with h1 | h1
    · cases hone : e.is_on
      · right
        refine ⟨e.note.channel, e.note.note, e.note.velocity, ?_⟩
        rw [h1]
        show (if e.is_on then MidiMsg.note_on e.note.channel e.note.note e.note.velocity
          else MidiMsg.note_off e.note.channel e.note.note e.note.velocity) = _
        rw [hone]
        rfl
      · left
        refine ⟨e.note.channel, e.note.note, e.note.velocity, ?_⟩
        rw [h1]
        show (if e.is_on then MidiMsg.note_on e.note.channel e.note.note e.note.velocity
          else MidiMsg.note_off e.note.channel e.note.note e.note.velocity) = _
        rw [hone]
        rfl
    · exact ih _ tm h1

theorem exportNoteTrack_classify (cim : List (ℤ × ℤ)) (no : ℕ) (tr : Track) :
    ∀ tm ∈ exportNoteTrack cim no tr,
      (∀ x : ℤ, tm.msg ≠ MidiMsg.set_tempo x) ∧
      (∀ a b : ℤ, tm.msg ≠ MidiMsg.time_signature a b) := by
  intro tm htm
  rw [exportNoteTrack] at htm
  rcases List.mem_cons.mp htm with h1 | h1
  · rw [h1]
    exact ⟨fun x h => MidiMsg.noConfusion h, fun a b h => MidiMsg.noConfusion h⟩
  · rcases List.mem_append.mp h1 with h2 | h2
    · by_cases hc1 : (0 : ℤ) ≤ tr.most_used_channel
      · rw [if_pos hc1] at h2
        by_cases hc2 : (0 : ℤ) ≤ assocGetD cim tr.most_used_channel 0
        · rw [if_pos hc2] at h2
          rcases List.mem_singleton.mp h2 with rfl
          exact ⟨fun x h => MidiMsg.noConfusion h, fun a b h => MidiMsg.noConfusion h⟩
        · rw [if_neg hc2] at h2
          exact absurd h2 (List.not_mem_nil tm)
      · rw [if_neg hc1] at h2
        exact absurd h2 (List.not_mem_nil tm)
    · rcases eventMsgs_classify _ _ tm h2 with ⟨c, n, v, hmsg⟩ | ⟨c, n, v, hmsg⟩
      · rw [hmsg]
        exact ⟨fun x h => MidiMsg.noConfusion h, fun a b h => MidiMsg.noConfusion h⟩
      · rw [hmsg]
        exact ⟨fun x h => MidiMsg.noConfusion h, fun a b h => MidiMsg.noConfusion h⟩

theorem forall₂_filter {α β : Type} {R : α → β → Prop} (p : α → Bool) (q : β → Bool) :
    ∀ {l : List α} {l2 : List β}, List.Forall₂ R l l2 →
      (∀ a b, R a b → (p a = true ↔ q b = true)) →
      List.Forall₂ R (l.filter p) (l2.filter q) := by
  intro l l2 hfa
  induction hfa with
  | nil => intro _; exact List.Forall₂.nil
  | cons hab htail ih =>
    intro hiff
    rename_i a b l' l2'
    by_cases hp : p a = true
    · rw [List.filter_cons_of_pos hp, List.filter_cons_of_pos ((hiff a b hab).mp hp)]
      exact List.Forall₂.cons hab (ih hiff)
    · rw [List.filter_cons_of_neg hp,
        List.filter_cons_of_neg (fun hq => hp ((hiff a b hab).mpr hq))]
      exact ih hiff

theorem forall₂_imp_mem {α β : Type} {R S : α → β → Prop} :
    ∀ {l : List α} {l2 : List β}, List.Forall₂ R l l2 →
      (∀ a ∈ l, ∀ b, R a b → S a b) → List.Forall₂ S l l2 := by
  intro l l2 hfa
  induction hfa with
  | nil => intro _; exact List.Forall₂.nil
  | cons hab htail ih =>
    intro himp
    rename_i a b l' l2'
    exact List.Forall₂.cons (himp a (List.mem_cons_self a l') b hab)
      (ih fun a2 ha2 b2 hr => himp a2 (List.mem_cons_of_mem a ha2) b2 hr)

theorem qNote_close (n : Note) (hb : 0 ≤ n.beat) (hd : 0 ≤ n.duration) :
    (qNote n).channel = n.channel ∧ (qNote n).note = n.note ∧
    (qNote n).velocity = n.velocity ∧
    |(qNote n).beat - n.beat| ≤ 1 / 96 ∧ |(qNote n).duration - n.duration| ≤ 1 / 96 := by
  refine ⟨rfl, rfl, rfl, ?_, ?_⟩
  · show |((pyInt (n.beat * 96) : ℤ) : ℚ) / 96 - n.beat| ≤ 1 / 96
    rw [pyInt_nonneg (by positivity)]
    have h1 : n.beat * 96 - 1 < ((⌊n.beat * 96⌋ : ℤ) : ℚ) := Int.sub_one_lt_floor _
    have h2 : ((⌊n.beat * 96⌋ : ℤ) : ℚ) ≤ n.beat * 96 := Int.floor_le _
    rw [abs_le]
    constructor <;> [linarith; linarith]
  · show |((pyInt ((n.beat + n.duration) * 96) - pyInt (n.beat * 96) : ℤ) : ℚ) / 96 -
      n.duration| ≤ 1 / 96
    rw [pyInt_nonneg (by positivity), pyInt_nonneg (by positivity)]
    have h1 : (n.beat + n.duration) * 96 - 1 < ((⌊(n.beat + n.duration) * 96⌋ : ℤ) : ℚ) :=
      Int.sub_one_lt_floor _
    have h2 : ((⌊(n.beat + n.duration) * 96⌋ : ℤ) : ℚ) ≤ (n.beat + n.duration) * 96 :=
      Int.floor_le _
    have h3 : n.beat * 96 - 1 < ((⌊n.beat * 96⌋ : ℤ) : ℚ) := Int.sub_one_lt_floor _
    have h4 : ((⌊n.beat * 96⌋ : ℤ) : ℚ) ≤ n.beat * 96 := Int.floor_le _
    rw [abs_le]
    push_cast
    constructor <;> [linarith; linarith]

theorem tempoTrack_empty_import : importTrackNotes 96 (tempoTrackMsgs []) = some [] := by
  decide

/-- C2 (amended): for a representation in importer normal form (track keys
strictly increasing, notes sorted by beat with nonnegative beats and
durations, same-(pitch, channel) notes non-overlapping) holding no tempo and
no time-signature changes, exporting and re-importing reproduces each
nonempty track note-for-note with channel, pitch and velocity intact and
every beat and duration moved by at most 1/96 — the export side re-quantizes
at the fixed 96 ticks per beat, not at the source file's resolution. -/
theorem C2_export_import_roundtrip (mr : MidiRepresentation)
    (hkeys : List.Pairwise (fun a b : ℕ × Track => a.1 < b.1) mr.tracks)
    (hbpm : mr.bpm_changes = [])
    (hsig : mr.time_signature_changes = [])
    (hsorted : ∀ pr ∈ mr.tracks, List.Pairwise (fun a b : Note => a.beat ≤ b.beat) pr.2.notes)
    (hpos : ∀ pr ∈ mr.tracks, ∀ n ∈ pr.2.notes, 0 ≤ n.beat ∧ 0 ≤ n.duration)
    (hkey : ∀ pr ∈ mr.tracks, ∀ k : ℤ × ℤ,
      List.Pairwise (fun m n : Note => m.beat + m.duration ≤ n.beat)
        (pr.2.notes.filter (fun n => decide ((n.note, n.channel) = k)))) :
    ∃ mr2, midi_to_representation (representation_to_midi_file mr) = some mr2 ∧
      mr2.bpm_changes = [] ∧ mr2.time_signature_changes = [] ∧
      List.Forall₂ (fun pr qr : ℕ × Track =>
        List.Forall₂ (fun n n2 : Note =>
          n2.channel = n.channel ∧ n2.note = n.note ∧ n2.velocity = n.velocity ∧
          |n2.beat - n.beat| ≤ 1 / 96 ∧ |n2.duration - n.duration| ≤ 1 / 96)
          pr.2.notes qr.2.notes)
        (mr.tracks.filter (fun pr => !pr.2.notes.isEmpty)) mr2.tracks := by
  have hsortT : sortByQ (fun p : ℕ × Track => ((p.1 : ℕ) : ℚ)) mr.tracks = mr.tracks := by
    apply sortByQ_eq_self
    apply List.Pairwise.imp ?_ hkeys
    intro a b hab
    exact_mod_cast le_of_lt hab
  obtain ⟨trs, htrs, hfa⟩ := importTracksFrom_export mr.channel_instrument_map mr.tracks 1
    hsorted hpos hkey
  have hclass : ∀ tm ∈ (representation_to_midi_file mr).tracks.flatten,
      (∀ x : ℤ, tm.msg ≠ MidiMsg.set_tempo x) ∧
      (∀ a b : ℤ, tm.msg ≠ MidiMsg.time_signature a b) := by
    intro tm htm
    obtain ⟨trk, htrk, htm2⟩ := List.mem_flatten.mp htm
    have htrk2 : trk ∈ tempoTrackMsgs mr.bpm_changes ::
        (sortByQ (fun p : ℕ × Track => ((p.1 : ℕ) : ℚ)) mr.tracks).map
          (fun p => exportNoteTrack mr.channel_instrument_map p.1 p.2) := htrk
    rcases List.mem_cons.mp htrk2 with h1 | h1
    · rw [hbpm] at h1
      rw [h1] at htm2
      have : tm = ⟨0, MidiMsg.track_name "Tempo changes"⟩ := by
        rcases List.mem_singleton.mp htm2 with rfl
        rfl
      rw [this]
      exact ⟨fun x h => MidiMsg.noConfusion h, fun a b h => MidiMsg.noConfusion h⟩
    · obtain ⟨pr, _, heq⟩ := List.mem_map.mp h1
      rw [← heq] at htm2
      exact exportNoteTrack_classify mr.channel_instrument_map pr.1 pr.2 tm htm2
  have hbpm2 : midiGetTempoChanges (representation_to_midi_file mr) = [] := by
    rw [midiGetTempoChanges]
    rw [getTempoChangesLoop_no_tempo _ _ _ _ (fun tm htm => (hclass tm htm).1)]
    rfl
  have hsig2 : getTimeSignature (representation_to_midi_file mr) = [] := by
    rw [getTimeSignature]
    rw [getTimeSigLoop_no_sig _ _ _ (fun tm htm => (hclass tm htm).2)]
  have himp : importTracksFrom (representation_to_midi_file mr).ticks_per_beat 0
      (representation_to_midi_file mr).tracks =
      some ((0, ⟨[], (trackNameOf (tempoTrackMsgs [])).getD ""⟩) :: trs) := by
    show importTracksFrom 96 0 (tempoTrackMsgs mr.bpm_changes ::
      (sortByQ (fun p : ℕ × Track => ((p.1 : ℕ) : ℚ)) mr.tracks).map
        (fun p => exportNoteTrack mr.channel_instrument_map p.1 p.2)) = _
    rw [hbpm, hsortT, importTracksFrom]
    rw [tempoTrack_empty_import, htrs]
  refine ⟨⟨trs.filter (fun pr => decide (pr.2.notes ≠ [])),
    channelToInstrumentMapping (representation_to_midi_file mr), [], []⟩, ?_, rfl, rfl, ?_⟩
  · rw [midi_to_representation, himp, Option.map_some', Option.some.injEq]
    rw [MidiRepresentation.mk.injEq]
    refine ⟨?_, rfl, hbpm2, hsig2⟩
    rw [filter_cons_false (fun pr : ℕ × Track => decide (pr.2.notes ≠ [])) _ trs
      (by rw [decide_eq_false_iff_not]; simp)]
  · show List.Forall₂ _ (mr.tracks.filter (fun pr => !pr.2.notes.isEmpty))
      (trs.filter (fun pr => decide (pr.2.notes ≠ [])))
    have hfa2 := forall₂_filter (fun pr : ℕ × Track => !pr.2.notes.isEmpty)
      (fun pr : ℕ × Track => decide (pr.2.notes ≠ [])) hfa ?_
    · apply forall₂_imp_mem hfa2
      intro a ha b hr
      have hamem : a ∈ mr.tracks := List.mem_of_mem_filter ha
      rw [hr]
      apply forall₂_map_self
      intro n hn
      exact qNote_close n (hpos a hamem n hn).1 (hpos a hamem n hn).2
    · intro a b hr
      show (!a.2.notes.isEmpty) = true ↔ decide (b.2.notes ≠ []) = true
      rw [hr]
      constructor
      · intro h1
        rw [decide_eq_true_eq]
        simp only [Bool.not_eq_true'] at h1
        intro hx
        rw [List.map_eq_nil] at hx
        rw [hx] at h1
        exact Bool.noConfusion h1
      · intro h1
        rw [decide_eq_true_eq] at h1
        simp only [Bool.not_eq_true']
        cases hx : a.2.notes with
        | nil =>
          exfalso
          apply h1
          rw [hx]
          rfl
        | cons y ys => rfl

def mrC2W : MidiRepresentation :=
  ⟨[(0, ⟨[⟨0, 60, 64, 0, 1⟩, ⟨0, 60, 64, 2, 1⟩], "melody"⟩)], [], [], []⟩

theorem C2_export_import_roundtrip_witness :
    List.Pairwise (fun a b : ℕ × Track => a.1 < b.1) mrC2W.tracks ∧
    mrC2W.bpm_changes = [] ∧
    mrC2W.time_signature_changes = [] ∧
    (∀ pr ∈ mrC2W.tracks,
      List.Pairwise (fun a b : Note => a.beat ≤ b.beat) pr.2.notes) ∧
    (∀ pr ∈ mrC2W.tracks, ∀ n ∈ pr.2.notes, 0 ≤ n.beat ∧ 0 ≤ n.duration) ∧
    (∀ pr ∈ mrC2W.tracks, ∀ k : ℤ × ℤ,
      List.Pairwise (fun m n : Note => m.beat + m.duration ≤ n.beat)
        (pr.2.notes.filter (fun n => decide ((n.note, n.channel) = k)))) ∧
    (∃ mr2, midi_to_representation (representation_to_midi_file mrC2W) = some mr2 ∧
      mr2.bpm_changes = [] ∧ mr2.time_signature_changes = [] ∧
      List.Forall₂ (fun pr qr : ℕ × Track =>
        List.Forall₂ (fun n n2 : Note =>
          n2.channel = n.channel ∧ n2.note = n.note ∧ n2.velocity = n.velocity ∧
          |n2.beat - n.beat| ≤ 1 / 96 ∧ |n2.duration - n.duration| ≤ 1 / 96)
          pr.2.notes qr.2.notes)
        (mrC2W.tracks.filter (fun pr => !pr.2.notes.isEmpty)) mr2.tracks) :=
  ⟨by decide, rfl, rfl, by decide, by decide,
   fun pr hpr k => List.Pairwise.sublist (List.filter_sublist _)
     (by rcases List.mem_singleton.mp hpr with rfl; decide),
   C2_export_import_roundtrip mrC2W (by decide) rfl rfl (by decide) (by decide)
     (fun pr hpr k => List.Pairwise.sublist (List.filter_sublist _)
       (by rcases List.mem_singleton.mp hpr with rfl; decide))⟩
